import Mathlib

/-!
# Lexical_Analyzer.c: a shallow embedding

The program reads a source text line by line, strips comments, splits every
line into tokens, sorts the tokens into category buckets, recognises
declarations and checks declared names against a custom identifier pattern.

C strings are modelled as lists of characters (the characters before the
terminating NUL).  The global and local accumulator arrays are modelled as
lists; the fixed capacities of the arrays (1000 entries, 100 characters per
token, 200 tokens per line, 100 characters of type text) are not modelled
beyond the explicit truncation done by `strncpy` in `addToSymbolTable`, so
the embedding describes the program on inputs that stay within them.
-/

namespace LexicalAnalyzer

/-- A C string: its characters up to, not including, the terminating NUL. -/
abbrev Str := List Char

/-! ## `<ctype.h>` in the "C" locale -/

/-- C `isspace`: space, `\t`, `\n`, `\v`, `\f`, `\r`. -/
def isspace (c : Char) : Bool :=
  c.toNat == 32 || (9 ≤ c.toNat && c.toNat ≤ 13)

/-- C `islower`: `a` to `z`. -/
def islower (c : Char) : Bool := 97 ≤ c.toNat && c.toNat ≤ 122

/-- C `isupper`: `A` to `Z`. -/
def isupper (c : Char) : Bool := 65 ≤ c.toNat && c.toNat ≤ 90

/-- C `isdigit`: `0` to `9`. -/
def isdigit (c : Char) : Bool := 48 ≤ c.toNat && c.toNat ≤ 57

/-- C `isalpha`. -/
def isalpha (c : Char) : Bool := isupper c || islower c

/-- C `isalnum`. -/
def isalnum (c : Char) : Bool := isalpha c || isdigit c

/-- The character `str[i]` of a C string, for `i` up to `strlen(str)`: the
terminating NUL is read at index `strlen(str)`. -/
def charAt (str : Str) (i : Nat) : Char := str.getD i '\x00'

/-- The test `strchr(s, ch) != NULL`.  The terminating NUL of `s` counts as
part of the string, so the test also succeeds for `ch = '\0'`. -/
def strchr (s : Str) (ch : Char) : Bool := ch.toNat == 0 || s.contains ch

/-! ## Character and word classifiers (lines 31-96) -/

/-- The keyword list of lines 32-36. -/
def keywords : List Str :=
  ["int", "float", "char", "double", "return", "if", "else", "for", "while",
   "void", "do", "switch", "case", "default", "break", "continue", "struct",
   "typedef", "include", "define", "unsigned", "const", "static", "long",
   "short", "signed"].map String.toList

/-- The multi-character operators of lines 40-42. -/
def multiCharOps : List Str :=
  ["++", "--", "==", "!=", "<=", ">=", "&&", "||", "+=", "-=", "*=", "/="].map
    String.toList

/-- Source `isKeyword` (lines 46-52). -/
def isKeyword (word : Str) : Bool := keywords.contains word

/-- Source `isMultiCharOp` (lines 54-60). -/
def isMultiCharOp (word : Str) : Bool := multiCharOps.contains word

/-- Source `isOperatorChar` (lines 62-64). -/
def isOperatorChar (ch : Char) : Bool := strchr "+-*/%=<>!&|^~".toList ch

/-- Source `isOperatorString` (lines 66-70). -/
def isOperatorString (str : Str) : Bool :=
  if str.length == 1 && isOperatorChar (charAt str 0) then true
  else if isMultiCharOp str then true
  else false

/-- Source `isBracket` (lines 72-74). -/
def isBracket (ch : Char) : Bool := strchr "(){}[]".toList ch

/-- Source `isSeparator` (lines 76-78). -/
def isSeparator (ch : Char) : Bool := strchr ",;:".toList ch

/-- Source `isSpecialSymbol` (lines 80-82). -/
def isSpecialSymbol (ch : Char) : Bool := strchr "#.".toList ch

/-- The local table `dataTypes` of `isDataTypeToken` (lines 86-89). -/
def dataTypes : List Str :=
  ["int", "float", "char", "double", "void", "unsigned", "const", "static",
   "long", "short", "signed"].map String.toList

/-- Source `isDataTypeToken` (lines 85-96). -/
def isDataTypeToken (token : Str) : Bool := dataTypes.contains token

/-! ## The identifier pattern (lines 105-162) -/

/-- The counting loops of `isValidIdentifier_Advanced`: lines 117-132 with
`cls = islower` and lines 139-154 with `cls = isdigit` (the two loops have the
same shape).  `text` is the string from the cursor `i` on; `count`, `prev` and
`consec` are `letterCount`/`digitCount`, `prev_letter`/`prev_digit` and
`consec_letter`/`consec_digit`.  The result is `none` for the `return false`
inside the loop, and otherwise the final count with the text from the final
cursor on. -/
def scanRun (cls : Char → Bool) : Str → Nat → Char → Nat → Option (Nat × Str)
  | [], count, _, _ => some (count, [])
  | c :: rest, count, prev, consec =>
    if cls c then
      if count + 1 == 1 then scanRun cls rest (count + 1) c 1
      else if c == prev then
        if consec + 1 > 2 then none
        else scanRun cls rest (count + 1) prev (consec + 1)
      else scanRun cls rest (count + 1) c 1
    else some (count, c :: rest)

/-- Source `isValidIdentifier_Advanced` (lines 105-162). -/
def isValidIdentifier_Advanced (str : Str) : Bool :=
  let len := str.length
  if len < 8 || len > 14 then false
  else
    let afterLead :=
      if charAt str 0 == '#' || charAt str 0 == '@' || charAt str 0 == '!' then str.drop 1
      else str
    match scanRun islower afterLead 0 '\x00' 0 with
    | none => false
    | some (letterCount, afterLetters) =>
      if letterCount < 4 || letterCount > 7 then false
      else
        match scanRun isdigit afterLetters 0 '\x00' 0 with
        | none => false
        | some (digitCount, afterDigits) =>
          if digitCount < 2 || digitCount > 4 then false
          else if afterDigits.length ≤ 1 || afterDigits.take 2 != ['@', 'r'] then false
          else afterDigits.length == 2

/-! ## The symbol table (lines 10-19 and 166-182) -/

/-- Source `Symbol` (lines 11-16). -/
structure Symbol where
  name : Str
  type : Str
  value : Str
  line : Nat
deriving DecidableEq

/-- Source `alreadyInSymbolTable` (lines 166-172), with the global table as an
argument. -/
def alreadyInSymbolTable (symbolTable : List Symbol) (name : Str) : Bool :=
  symbolTable.any (fun s => s.name == name)

/-- Source `addToSymbolTable` (lines 174-182), with the global table as an
argument and as the result.  Every `strncpy` copies at most 99 characters
into a zero-initialised slot of the global array, which is written once. -/
def addToSymbolTable (symbolTable : List Symbol) (type name value : Str) (line : Nat) :
    List Symbol :=
  if !alreadyInSymbolTable symbolTable name then
    symbolTable ++ [{ type := type.take 99, name := name.take 99,
                      value := value.take 99, line := line }]
  else symbolTable

/-! ## The tokenizer (lines 186-248) -/

/-- The start test of the word branch (line 217). -/
def identStart (c : Char) : Bool :=
  isalpha c || c == '_' || c == '#' || c == '@' || c == '!'

/-- The continuation test of the word loop (line 219). -/
def identCont (c : Char) : Bool :=
  isalnum c || c == '_' || c == '@' || c == '!'

/-- The continuation test of the number loop (line 222). -/
def numCont (c : Char) : Bool := isdigit c || c == '.'

/-- The loop `while (i < len && p(line[i])) i++`: the number of characters it
skips when the text from the cursor on is `text`. -/
def skipWhile (p : Char → Bool) (text : Str) : Nat := (text.takeWhile p).length

/-- The branches of lines 217-232, entered with the cursor on the character
`c` that the text `c :: rest` starts with: the value of `i - start` at line
240, with `none` for the last branch (lines 233-239), which stores `c` by
itself and does not reach line 240. -/
def wordLength (c : Char) (rest : Str) : Option Nat :=
  let text := c :: rest
  if identStart c then some (skipWhile identCont text)
  else if isdigit c then some (skipWhile numCont text)
  else if c == '"' then
    let j := 1 + skipWhile (fun d => d != '"') rest
    some (if j < text.length then j + 1 else j)
  else if c == '\'' then
    let j1 := 1
    let j2 := if j1 < text.length && charAt text j1 != '\'' then j1 + 1 else j1
    let j3 := if j2 < text.length && charAt text j2 == '\'' then j2 + 1 else j2
    some j3
  else none

/-- One pass through the body of the `while (i < len)` loop of `tokenizeLine`
(lines 191-245).  `text` is the line from the cursor `i` on; the result is the
token the pass stores, if it stores one, and the line from the new cursor on. -/
def tokenizeStep (text : Str) : Option Str × Str :=
  match text with
  | [] => (none, [])
  | c :: rest =>
    if isspace c then (none, rest)
    else if 1 < text.length && isMultiCharOp [c, charAt text 1] then
      (some [c, charAt text 1], text.drop 2)
    else if isOperatorChar c || isSeparator c || isBracket c || isSpecialSymbol c then
      (some [c], rest)
    else
      match wordLength c rest with
      | none => (some [c], rest)
      | some n => (if n > 0 then some (text.take n) else none, text.drop n)

/-- The `while (i < len)` loop of `tokenizeLine`, run for at most `fuel`
passes: `none` when the cursor has not reached the end of the line by then. -/
def tokenizeLoop : Nat → Str → Option (List Str)
  | _, [] => some []
  | 0, _ :: _ => none
  | fuel + 1, c :: rest =>
    match tokenizeLoop fuel (tokenizeStep (c :: rest)).2 with
    | none => none
    | some tokens => some ((tokenizeStep (c :: rest)).1.toList ++ tokens)

/-- Source `tokenizeLine` (lines 186-248): the tokens of a line, in order.
The loop is given one pass per character of the line, which is enough for it
to reach the end of every line (`tokenizeLoop_length_isSome`). -/
def tokenizeLine (line : Str) : List Str :=
  (tokenizeLoop line.length line).getD []

/-! ## Comment handling (lines 353-371 of `processFile`) -/

/-- C `strstr(hay, needle)`: the offset of the first occurrence of `needle`
in `hay`, or `none` for a NULL result. -/
def strstr : Str → Str → Option Nat
  | [], needle => if needle.isEmpty then some 0 else none
  | c :: hay, needle =>
    if needle.isPrefixOf (c :: hay) then some 0
    else (strstr hay needle).map (fun k => k + 1)

/-- Lines 354-362: the rest of a block comment that was open at the start of
the line.  `none` is the `continue` of line 360. -/
def closeBlock (insideComment : Bool) (line : Str) : Option (Str × Bool) :=
  if insideComment then
    match strstr line "*/".toList with
    | some k => some (line.drop (k + 2), false)
    | none => none
  else some (line, insideComment)

/-- Lines 363-367: a block comment that opens on the line. -/
def openBlock (line : Str) (insideComment : Bool) : Str × Bool :=
  match strstr line "/*".toList with
  | some k => (line.take k, true)
  | none => (line, insideComment)

/-- Lines 370-371: a line comment. -/
def cutLineComment (line : Str) : Str :=
  match strstr line "//".toList with
  | some k => line.take k
  | none => line

/-- Lines 353-371: the text handed to the tokenizer and the new value of
`insideComment`; `none` when the line is skipped by the `continue` of line
360 (the flag stays set). -/
def stripComments (insideComment : Bool) (line : Str) : Option (Str × Bool) :=
  match closeBlock insideComment line with
  | none => none
  | some (line1, inside1) =>
    let opened := openBlock line1 inside1
    some (cutLineComment opened.1, opened.2)

/-- The tokens a line yields when it is read with the given value of
`insideComment` (lines 353-375); no token when the line is skipped. -/
def lineTokens (insideComment : Bool) (line : Str) : List Str :=
  match stripComments insideComment line with
  | none => []
  | some (text, _) => tokenizeLine text

/-! ## The accumulators -/

/-- The global accumulators (lines 18-29) and the local ones of `processFile`
(lines 317-345). -/
structure State where
  symbolTable : List Symbol
  validIdentifiers : List Str
  invalidIdentifiers : List Str
  othersFound : List Str
  keywordsFound : List Str
  numericsFound : List Str
  stringLiteralsFound : List Str
  multiCharOpsFound : List Str
  operatorsFound : List Str
  separatorsFound : List Str
  bracketsFound : List Str
  specialSymbolsFound : List Str
  insideComment : Bool
  lineno : Nat
deriving DecidableEq

/-- The accumulators at the start of `processFile`. -/
def State.init : State :=
  { symbolTable := [], validIdentifiers := [], invalidIdentifiers := [],
    othersFound := [], keywordsFound := [], numericsFound := [],
    stringLiteralsFound := [], multiCharOpsFound := [], operatorsFound := [],
    separatorsFound := [], bracketsFound := [], specialSymbolsFound := [],
    insideComment := false, lineno := 0 }

/-- The search loop followed by the guarded `strcpy` that the program repeats
for every accumulator (for instance lines 270-279): the lexeme is appended
when no entry equals it. -/
def addUnique (bucket : List Str) (lexeme : Str) : List Str :=
  if bucket.contains lexeme then bucket else bucket ++ [lexeme]

/-- The insertion that keeps every lexeme handed to it.  Running the program
with it in the place of `addUnique` lists, per accumulator, every lexeme
routed to it, in the order of routing. -/
def recordAll (bucket : List Str) (lexeme : Str) : List Str := bucket ++ [lexeme]

/-! ## Declarations (lines 252-311 and 379-430) -/

/-- One pass through the body of the `while (i < tokenCount)` loop of
`processDeclarationTokens` (lines 255-309), entered with `tokens[i] = tok`
and with `rest` the tokens after it.  The result is `none` for the `break` of
line 261, and otherwise the tokens from the new index `i` on together with the
new accumulators.  `ins` is the insertion into the identifier lists
(`addUnique` in the program). -/
def declarationStepWith (ins : List Str → Str → List Str) (fullType : Str) (lineno : Nat)
    (tok : Str) (rest : List Str) (st : State) : Option (List Str × State) :=
  if tok == [','] then some (rest, st)
  else if tok == [';'] then none
  else if isValidIdentifier_Advanced tok then
    let st1 := { st with validIdentifiers := ins st.validIdentifiers tok }
    let initializer : Str × List Str :=
      match rest with
      | [] => (['-'], [])
      | next :: rest1 =>
        if next == ['='] then
          match rest1 with
          | [] => (['-'], [])
          | varValue :: rest2 => (varValue, rest2)
        else (['-'], next :: rest1)
    some (initializer.2,
      { st1 with
        symbolTable := addToSymbolTable st1.symbolTable fullType tok initializer.1 lineno })
  else
    let st1 :=
      if !isKeyword tok && !isOperatorString tok && !isBracket (charAt tok 0) &&
          !isSeparator (charAt tok 0) && !isSpecialSymbol (charAt tok 0) &&
          !isdigit (charAt tok 0) && charAt tok 0 != '"' && charAt tok 0 != '\'' then
        { st with invalidIdentifiers := ins st.invalidIdentifiers tok }
      else st
    some (rest, st1)

/-- The `while (i < tokenCount)` loop of `processDeclarationTokens`, run for
at most `fuel` passes; the list is `tokens` from index `i` on.  `none` when
the loop has not ended by then. -/
def processDeclarationLoopWith (ins : List Str → Str → List Str) (fullType : Str)
    (lineno : Nat) : Nat → List Str → State → Option State
  | _, [], st => some st
  | 0, _ :: _, _ => none
  | fuel + 1, tok :: rest, st =>
    match declarationStepWith ins fullType lineno tok rest st with
    | none => some st
    | some next => processDeclarationLoopWith ins fullType lineno fuel next.1 next.2

/-- Source `processDeclarationTokens` (lines 252-311); the list is `tokens`
from `startIndex` on.  The loop is given one pass per token, which is enough
for it to end (`processDeclarationLoopWith_enough`). -/
def processDeclarationTokensWith (ins : List Str → Str → List Str) (fullType : Str)
    (lineno : Nat) (tokens : List Str) (st : State) : State :=
  (processDeclarationLoopWith ins fullType lineno tokens.length tokens st).getD st

/-- The result of the scan of lines 380-396. -/
structure TypeScan where
  i : Nat
  dataTypeTokensLen : Nat
  dataTypeBuffer : Str
  isFunctionDecl : Bool
deriving DecidableEq

/-- The `for` loop of lines 384-396.  The list is `tokens` from index `i` on. -/
def scanDataTypes : List Str → Nat → Nat → Str → TypeScan
  | [], i, dataTypeTokensLen, dataTypeBuffer =>
    { i := i, dataTypeTokensLen := dataTypeTokensLen, dataTypeBuffer := dataTypeBuffer,
      isFunctionDecl := false }
  | tok :: rest, i, dataTypeTokensLen, dataTypeBuffer =>
    if isDataTypeToken tok then
      scanDataTypes rest (i + 1) (dataTypeTokensLen + 1)
        ((if dataTypeTokensLen > 0 then dataTypeBuffer ++ [' '] else dataTypeBuffer) ++ tok)
    else if dataTypeTokensLen > 0 && 0 < rest.length && rest.getD 0 [] == ['('] then
      { i := i, dataTypeTokensLen := dataTypeTokensLen, dataTypeBuffer := dataTypeBuffer,
        isFunctionDecl := true }
    else
      { i := i, dataTypeTokensLen := dataTypeTokensLen, dataTypeBuffer := dataTypeBuffer,
        isFunctionDecl := false }

/-- Lines 398-430: the declaration part of the loop body of `processFile`. -/
def processDeclarationsWith (ins : List Str → Str → List Str) (tokens : List Str)
    (st : State) : State :=
  let scan := scanDataTypes tokens 0 0 []
  if scan.dataTypeTokensLen > 0 && scan.dataTypeTokensLen < tokens.length then
    if scan.isFunctionDecl then
      let name := tokens.getD scan.i []
      if isValidIdentifier_Advanced name then
        let st1 := { st with validIdentifiers := ins st.validIdentifiers name }
        { st1 with
          symbolTable :=
            addToSymbolTable st1.symbolTable scan.dataTypeBuffer name ['-'] st.lineno }
      else { st with invalidIdentifiers := ins st.invalidIdentifiers name }
    else
      processDeclarationTokensWith ins scan.dataTypeBuffer st.lineno
        (tokens.drop scan.dataTypeTokensLen) st
  else st

/-! ## The token categories (lines 432-577) -/

/-- The body of the loop of lines 433-577 for one token. -/
def categorizeTokenWith (ins : List Str → Str → List Str) (st : State) (token : Str) :
    State :=
  if token.length == 0 then st
  else if isKeyword token then
    if token.length < 100 then { st with keywordsFound := ins st.keywordsFound token }
    else st
  else if isMultiCharOp token then
    { st with multiCharOpsFound := ins st.multiCharOpsFound token }
  else if isOperatorString token then
    { st with operatorsFound := ins st.operatorsFound token }
  else if token.length == 1 && isSeparator (charAt token 0) then
    { st with separatorsFound := ins st.separatorsFound token }
  else if token.length == 1 && isBracket (charAt token 0) then
    { st with bracketsFound := ins st.bracketsFound token }
  else if token.length == 1 && isSpecialSymbol (charAt token 0) then
    { st with specialSymbolsFound := ins st.specialSymbolsFound token }
  else if charAt token 0 == '"' && charAt token (token.length - 1) == '"' then
    { st with stringLiteralsFound := ins st.stringLiteralsFound token }
  else if charAt token 0 == '\'' && charAt token (token.length - 1) == '\'' then
    { st with stringLiteralsFound := ins st.stringLiteralsFound token }
  else if isdigit (charAt token 0) then
    { st with numericsFound := ins st.numericsFound token }
  else { st with othersFound := ins st.othersFound token }

/-! ## The main loop (lines 347-578) -/

/-- The body of the `while (fgets ...)` loop of `processFile` (lines 347-578)
for one line; `line` is the buffer after line 351, without its newline. -/
def processLineWith (ins : List Str → Str → List Str) (st : State) (line : Str) : State :=
  let st0 := { st with lineno := st.lineno + 1 }
  match stripComments st0.insideComment line with
  | none => st0
  | some (text, inside) =>
    let st1 := { st0 with insideComment := inside }
    let tokens := tokenizeLine text
    if tokens.length == 0 then st1
    else (tokens.foldl (categorizeTokenWith ins) (processDeclarationsWith ins tokens st1))

/-- The loop body of `processFile` as the program runs it. -/
def processLine (st : State) (line : Str) : State := processLineWith addUnique st line

/-- The analysis part of source `processFile` (lines 315-578): the
accumulators after the given lines, starting from empty accumulators. -/
def processFile (lines : List Str) : State := lines.foldl processLine State.init

/-- The run of `processFile` that records every routing: each accumulator
lists every lexeme routed to it, repetitions included, in the order in which
the program routes them. -/
def routingTrace (lines : List Str) : State :=
  lines.foldl (processLineWith recordAll) State.init

/-! ## Definitions used to state the properties -/

/-- No character occurs three or more times in a row. -/
def NoTripleRun (l : Str) : Prop := ∀ c : Char, ¬ [c, c, c] <:+: l

/-- Boolean form of `NoTripleRun`. -/
def noTripleRunB : Str → Bool
  | a :: b :: c :: rest => !(a == b && b == c) && noTripleRunB (b :: c :: rest)
  | _ => true

/-- The text after the optional leading character (line 111). -/
def afterLead (str : Str) : Str :=
  if charAt str 0 == '#' || charAt str 0 == '@' || charAt str 0 == '!' then str.drop 1
  else str

/-- The text made of the tokens in order with a gap before the first token,
between consecutive tokens and after the last one. -/
def interleave : List Str → List Str → Str
  | gap :: gaps, token :: tokens => gap ++ token ++ interleave gaps tokens
  | gap :: _, [] => gap
  | [], _ => []

/-- The lexemes of a sequence in the order of their first occurrence: every
lexeme is kept where it occurs first and dropped where it occurs again. -/
def firstOccurrences : List Str → List Str
  | [] => []
  | x :: rest => x :: (firstOccurrences rest).filter (fun y => y != x)

/-- The accumulators of a state with every lexeme list cut down to first
occurrences. -/
def State.firstOccurrences (st : State) : State :=
  { st with
    validIdentifiers := LexicalAnalyzer.firstOccurrences st.validIdentifiers
    invalidIdentifiers := LexicalAnalyzer.firstOccurrences st.invalidIdentifiers
    othersFound := LexicalAnalyzer.firstOccurrences st.othersFound
    keywordsFound := LexicalAnalyzer.firstOccurrences st.keywordsFound
    numericsFound := LexicalAnalyzer.firstOccurrences st.numericsFound
    stringLiteralsFound := LexicalAnalyzer.firstOccurrences st.stringLiteralsFound
    multiCharOpsFound := LexicalAnalyzer.firstOccurrences st.multiCharOpsFound
    operatorsFound := LexicalAnalyzer.firstOccurrences st.operatorsFound
    separatorsFound := LexicalAnalyzer.firstOccurrences st.separatorsFound
    bracketsFound := LexicalAnalyzer.firstOccurrences st.bracketsFound
    specialSymbolsFound := LexicalAnalyzer.firstOccurrences st.specialSymbolsFound }

/-- The nine category buckets and the two identifier lists. -/
def accumulators : List (State → List Str) :=
  [State.keywordsFound, State.numericsFound, State.stringLiteralsFound,
   State.multiCharOpsFound, State.operatorsFound, State.separatorsFound,
   State.bracketsFound, State.specialSymbolsFound, State.othersFound,
   State.validIdentifiers, State.invalidIdentifiers]

/-- The text `hay` is `pre`, then `needle`, then `post`, and this is the first
place where `needle` occurs in `hay`: no occurrence of `needle` ends before
the end of this one. -/
def FirstOccurrence (needle pre post hay : Str) : Prop :=
  hay = pre ++ needle ++ post ∧ ¬ needle <:+: pre ++ needle.dropLast

/-- The text `result` is `text` cut at the first occurrence of `needle`:
all of `text` when `needle` does not occur in it, and otherwise what comes
before the first occurrence. -/
def CutAtFirst (needle text result : Str) : Prop :=
  (¬ needle <:+: text ∧ result = text) ∨ ∃ post, FirstOccurrence needle result post text

/-- Two states agree on the comment flag and on the line number. -/
def SameFrame (st st1 : State) : Prop :=
  st1.insideComment = st.insideComment ∧ st1.lineno = st.lineno

/-- Two states agree on the symbol table and on the two identifier lists. -/
def SameDeclarations (st st1 : State) : Prop :=
  st1.symbolTable = st.symbolTable ∧ st1.validIdentifiers = st.validIdentifiers ∧
    st1.invalidIdentifiers = st.invalidIdentifiers

/-- The names of the records of a symbol table are pairwise distinct. -/
def DistinctNames (symbolTable : List Symbol) : Prop :=
  (symbolTable.map Symbol.name).Nodup

/-- Source `isValidIdentifier_Advanced` (lines 105-162) with the length
pre-check of line 108 taken out; everything else is as in the source. -/
def isValidIdentifier_withoutPrecheck (str : Str) : Bool :=
  let afterLead :=
    if charAt str 0 == '#' || charAt str 0 == '@' || charAt str 0 == '!' then str.drop 1
    else str
  match scanRun islower afterLead 0 '\x00' 0 with
  | none => false
  | some (letterCount, afterLetters) =>
    if letterCount < 4 || letterCount > 7 then false
    else
      match scanRun isdigit afterLetters 0 '\x00' 0 with
      | none => false
      | some (digitCount, afterDigits) =>
        if digitCount < 2 || digitCount > 4 then false
        else if afterDigits.length ≤ 1 || afterDigits.take 2 != ['@', 'r'] then false
        else afterDigits.length == 2

/-- What the declaration part of the loop body does with one name: it records
the name as valid, with a symbol record that holds the given value, or it
records it as invalid. -/
inductive DeclEvent where
  | valid (name value : Str)
  | invalid (name : Str)
deriving DecidableEq

/-- The accumulators after one recording: lines 268-291 and 403-413 for a
valid name, lines 297-306 and 415-424 for an invalid one. -/
def DeclEvent.apply (ins : List Str → Str → List Str) (fullType : Str) (lineno : Nat)
    (st : State) : DeclEvent → State
  | DeclEvent.valid name value =>
    { st with
      validIdentifiers := ins st.validIdentifiers name
      symbolTable := addToSymbolTable st.symbolTable fullType name value lineno }
  | DeclEvent.invalid name => { st with invalidIdentifiers := ins st.invalidIdentifiers name }

/-- A recording agrees with the validator: a name recorded as valid is
accepted by `isValidIdentifier_Advanced`, one recorded as invalid is
rejected. -/
def DeclEvent.Agrees : DeclEvent → Prop
  | DeclEvent.valid name _ => isValidIdentifier_Advanced name = true
  | DeclEvent.invalid name => isValidIdentifier_Advanced name = false

/-- Every name in `validIdentifiers` is accepted by the validator and every
name in `invalidIdentifiers` is rejected by it. -/
def VerdictsAgree (st : State) : Prop :=
  (∀ name ∈ st.validIdentifiers, isValidIdentifier_Advanced name = true) ∧
    (∀ name ∈ st.invalidIdentifiers, isValidIdentifier_Advanced name = false)

/-- The earlier state's identifier lists and symbol table are kept, in place,
at the start of those of the later state. -/
def Extends (st st1 : State) : Prop :=
  st.validIdentifiers <+: st1.validIdentifiers ∧
    st.invalidIdentifiers <+: st1.invalidIdentifiers ∧
    st.symbolTable <+: st1.symbolTable

/-- The nine category buckets of `processFile` (lines 28-29 and 320-342). -/
inductive Bucket where
  | keywords
  | multiCharOps
  | operators
  | separators
  | brackets
  | specialSymbols
  | stringLiterals
  | numerics
  | others
deriving DecidableEq

/-- The list a bucket holds in a state. -/
def Bucket.get : Bucket → State → List Str
  | Bucket.keywords, st => st.keywordsFound
  | Bucket.multiCharOps, st => st.multiCharOpsFound
  | Bucket.operators, st => st.operatorsFound
  | Bucket.separators, st => st.separatorsFound
  | Bucket.brackets, st => st.bracketsFound
  | Bucket.specialSymbols, st => st.specialSymbolsFound
  | Bucket.stringLiterals, st => st.stringLiteralsFound
  | Bucket.numerics, st => st.numericsFound
  | Bucket.others, st => st.othersFound

/-- The state with the list of one bucket replaced. -/
def Bucket.set : Bucket → List Str → State → State
  | Bucket.keywords, l, st => { st with keywordsFound := l }
  | Bucket.multiCharOps, l, st => { st with multiCharOpsFound := l }
  | Bucket.operators, l, st => { st with operatorsFound := l }
  | Bucket.separators, l, st => { st with separatorsFound := l }
  | Bucket.brackets, l, st => { st with bracketsFound := l }
  | Bucket.specialSymbols, l, st => { st with specialSymbolsFound := l }
  | Bucket.stringLiterals, l, st => { st with stringLiteralsFound := l }
  | Bucket.numerics, l, st => { st with numericsFound := l }
  | Bucket.others, l, st => { st with othersFound := l }

/-- The bucket of the first test a token passes, with the tests in the order
keyword, multi-character operator, single-character operator, separator,
bracket, special symbol, string literal (starts and ends with a double
quote), character literal (starts and ends with a single quote), numeric
literal (starts with a digit); the bucket `others` when it passes none.  The
character literals share the bucket of the string literals. -/
def tokenBucket (token : Str) : Bucket :=
  if isKeyword token then Bucket.keywords
  else if isMultiCharOp token then Bucket.multiCharOps
  else if token.length == 1 && isOperatorChar (charAt token 0) then Bucket.operators
  else if token.length == 1 && isSeparator (charAt token 0) then Bucket.separators
  else if token.length == 1 && isBracket (charAt token 0) then Bucket.brackets
  else if token.length == 1 && isSpecialSymbol (charAt token 0) then Bucket.specialSymbols
  else if charAt token 0 == '"' && charAt token (token.length - 1) == '"' then
    Bucket.stringLiterals
  else if charAt token 0 == '\'' && charAt token (token.length - 1) == '\'' then
    Bucket.stringLiterals
  else if isdigit (charAt token 0) then Bucket.numerics
  else Bucket.others

/-- Every lexeme in a bucket is one that the tests route to that bucket. -/
def BucketsSorted (st : State) : Prop :=
  ∀ (b : Bucket) (x : Str), x ∈ b.get st → tokenBucket x = b

/-- The texts that the loop of `tokenizeLine` finds from its cursor on at the
start of its passes over a line: the line itself, and what a pass leaves of a
non-empty text found before. -/
inductive CursorAt (line : Str) : Str → Prop where
  | start : CursorAt line line
  | step (c : Char) (rest : Str) :
      CursorAt line (c :: rest) → CursorAt line (tokenizeStep (c :: rest)).2

/-- The test of lines 294-296 of `processDeclarationTokens`: the token could
be a variable name. -/
def couldBeName (tok : Str) : Bool :=
  !isKeyword tok && !isOperatorString tok && !isBracket (charAt tok 0) &&
    !isSeparator (charAt tok 0) && !isSpecialSymbol (charAt tok 0) &&
    !isdigit (charAt tok 0) && charAt tok 0 != '"' && charAt tok 0 != '\''

/-- The token is of none of these kinds: keyword, operator (of one or of two
characters), bracket, separator, special symbol, token that starts with a
digit, token that starts with a double or a single quote.  Brackets,
separators and special symbols are the tokens of one character of the
class, as in the tests of the categorizer. -/
def IsNameLike (tok : Str) : Prop :=
  isKeyword tok = false ∧ isOperatorString tok = false ∧
    ¬ (tok.length = 1 ∧ isBracket (charAt tok 0) = true) ∧
    ¬ (tok.length = 1 ∧ isSeparator (charAt tok 0) = true) ∧
    ¬ (tok.length = 1 ∧ isSpecialSymbol (charAt tok 0) = true) ∧
    isdigit (charAt tok 0) = false ∧ charAt tok 0 ≠ '"' ∧ charAt tok 0 ≠ '\''

instance IsNameLike.decidable (tok : Str) : Decidable (IsNameLike tok) := by
  unfold IsNameLike
  infer_instance

/-- A candidate of a variable declaration: the name token and, when the
candidate is written `name = value`, the value token. -/
structure Candidate where
  name : Str
  value : Option Str
deriving DecidableEq

/-- The tokens of a candidate: the name, followed by `=` and the value token
when there is one. -/
def Candidate.tokens (c : Candidate) : List Str :=
  match c.value with
  | none => [c.name]
  | some v => [c.name, ['='], v]

/-- The tokens of comma-separated candidates ended by `;`. -/
def candidateTokens : List Candidate → List Str
  | [] => [[';']]
  | [c] => c.tokens ++ [[';']]
  | c :: d :: cs => c.tokens ++ [','] :: candidateTokens (d :: cs)

/-- The recordings for a token that the declaration loop reaches as a name
without initializer: valid with the value `-` when the validator accepts it,
invalid when it rejects it and the test of lines 294-296 passes, none
otherwise. -/
def scanEvents (tok : Str) : List DeclEvent :=
  if isValidIdentifier_Advanced tok then [DeclEvent.valid tok ['-']]
  else if couldBeName tok then [DeclEvent.invalid tok]
  else []

/-- The recordings for one candidate.  An accepted name is recorded as valid,
with the candidate's value token or `-` as value.  A rejected name is
recorded as invalid when the test of lines 294-296 passes, and its value
token, when it has one, is then treated as a name without initializer. -/
def Candidate.events (c : Candidate) : List DeclEvent :=
  if isValidIdentifier_Advanced c.name then [DeclEvent.valid c.name (c.value.getD ['-'])]
  else
    (if couldBeName c.name then [DeclEvent.invalid c.name] else []) ++
      match c.value with
      | none => []
      | some v => scanEvents v

/-- The names of the records of the symbol table are, in order, the entries
of `validIdentifiers`. -/
def NamesMatch (st : State) : Prop :=
  st.symbolTable.map Symbol.name = st.validIdentifiers

/-- The states in which the loop of `processDeclarationTokens`, entered with
the tokens `tokens` and the accumulators `st`, begins a pass: with the tokens
`later` still to be read and the accumulators `st1`.  The loop begins its
first pass with `tokens` and `st`, and after a pass that does not end it, it
begins the next one with what that pass leaves. -/
inductive DeclarationCursorAt (ins : List Str → Str → List Str) (fullType : Str)
    (lineno : Nat) (tokens : List Str) (st : State) : List Str → State → Prop where
  | start : DeclarationCursorAt ins fullType lineno tokens st tokens st
  | step (tok : Str) (rest : List Str) (st1 : State) (next : List Str × State) :
      DeclarationCursorAt ins fullType lineno tokens st (tok :: rest) st1 →
      declarationStepWith ins fullType lineno tok rest st1 = some next →
      DeclarationCursorAt ins fullType lineno tokens st next.1 next.2

/-! # Theorems -/

/-! ## The identifier pattern -/

theorem noTripleRunB_iff (l : Str) : noTripleRunB l = true ↔ NoTripleRun l := by
  unfold NoTripleRun
  induction l with
  | nil => simp [noTripleRunB]
  | cons a t ih =>
    match t, ih with
    | [], _ =>
      simp only [noTripleRunB, true_iff]
      intro c h
      have := h.length_le
      simp at this
    | [b], _ =>
      simp only [noTripleRunB, true_iff]
      intro c h
      have := h.length_le
      simp at this
    | b :: c :: rest, ih =>
      simp only [noTripleRunB, Bool.and_eq_true, Bool.not_eq_true', ih]
      constructor
      · rintro ⟨h1, h2⟩ d hd
        rcases List.infix_cons_iff.mp hd with hp | hi
        · obtain ⟨u, hu⟩ := hp
          simp at hu
          obtain ⟨rfl, rfl, rfl, -⟩ := hu
          simp at h1
        · exact h2 d hi
      · intro h
        refine ⟨?_, fun d hd => h d (List.infix_cons_iff.mpr (Or.inr hd))⟩
        by_contra hc
        simp at hc
        obtain ⟨rfl, rfl⟩ := hc
        exact h a ⟨[], rest, by simp⟩

theorem scanRun_pos (cls : Char → Bool) (text : Str) :
    ∀ (count : Nat) (prev : Char), 1 ≤ count →
      scanRun cls text count prev 1 =
        (if noTripleRunB (prev :: text.takeWhile cls) then
          some (count + (text.takeWhile cls).length, text.dropWhile cls) else none) ∧
      scanRun cls text count prev 2 =
        (if noTripleRunB (prev :: prev :: text.takeWhile cls) then
          some (count + (text.takeWhile cls).length, text.dropWhile cls) else none) := by
  induction text with
  | nil => intro count prev _; simp [scanRun, noTripleRunB]
  | cons c rest ih =>
    intro count prev hc
    have hc1 : (count + 1 == 1) = false := by simp; omega
    by_cases hcls : cls c = true
    · have ih1 := ih (count + 1) c (by omega)
      have ih2 := ih (count + 1) prev (by omega)
      by_cases hp : c = prev
      · subst hp
        constructor
        · simp only [scanRun, hcls, hc1, List.takeWhile_cons_of_pos,
            List.dropWhile_cons_of_pos, if_true, beq_self_eq_true, ih2.2]
          simp [Nat.add_assoc, Nat.add_comm 1]
        · simp [scanRun, hcls, hc1, noTripleRunB]
      · have hp' : (c == prev) = false := by simpa using hp
        have hp2 : (prev == c) = false := by simpa using fun h => hp h.symm
        constructor
        · simp only [scanRun, hcls, hc1, hp', List.takeWhile_cons_of_pos,
            List.dropWhile_cons_of_pos, if_true, ih1.1]
          cases hr : rest.takeWhile cls <;>
            simp [noTripleRunB, hp2, Nat.add_assoc, Nat.add_comm 1]
        · simp only [scanRun, hcls, hc1, hp', List.takeWhile_cons_of_pos,
            List.dropWhile_cons_of_pos, if_true, ih1.1]
          cases hr : rest.takeWhile cls <;>
            simp [noTripleRunB, hp2, Nat.add_assoc, Nat.add_comm 1]
    · have hcls' : cls c = false := by simpa using hcls
      simp [scanRun, hcls', noTripleRunB]

theorem scanRun_zero (cls : Char → Bool) (text : Str) (prev : Char) :
    scanRun cls text 0 prev 0 =
      (if noTripleRunB (text.takeWhile cls) then
        some ((text.takeWhile cls).length, text.dropWhile cls) else none) := by
  cases text with
  | nil => simp [scanRun, noTripleRunB]
  | cons c rest =>
    by_cases hcls : cls c = true
    · simp only [scanRun, hcls, if_true, List.takeWhile_cons_of_pos, List.dropWhile_cons_of_pos,
        (scanRun_pos cls rest 1 c (le_refl 1)).1]
      simp [Nat.add_comm 1]
    · have hcls' : cls c = false := by simpa using hcls
      simp [scanRun, hcls', noTripleRunB]



theorem islower_iff (c : Char) : islower c = true ↔ 'a' ≤ c ∧ c ≤ 'z' := by
  simp only [islower, Bool.and_eq_true, decide_eq_true_eq]
  exact Iff.rfl

theorem isdigit_iff (c : Char) : isdigit c = true ↔ '0' ≤ c ∧ c ≤ '9' := by
  simp only [isdigit, Bool.and_eq_true, decide_eq_true_eq]
  exact Iff.rfl

theorem isValidIdentifier_Advanced_eq (s : Str) :
    isValidIdentifier_Advanced s =
      (decide (8 ≤ s.length ∧ s.length ≤ 14) &&
        noTripleRunB ((afterLead s).takeWhile islower) &&
        decide (4 ≤ ((afterLead s).takeWhile islower).length ∧
          ((afterLead s).takeWhile islower).length ≤ 7) &&
        noTripleRunB (((afterLead s).dropWhile islower).takeWhile isdigit) &&
        decide (2 ≤ (((afterLead s).dropWhile islower).takeWhile isdigit).length ∧
          (((afterLead s).dropWhile islower).takeWhile isdigit).length ≤ 4) &&
        decide (((afterLead s).dropWhile islower).dropWhile isdigit = ['@', 'r'])) := by
  unfold isValidIdentifier_Advanced afterLead
  dsimp only
  generalize (if (charAt s 0 == '#' || charAt s 0 == '@' || charAt s 0 == '!') = true
    then List.drop 1 s else s) = a
  simp only [scanRun_zero]
  by_cases h1 : s.length < 8 ∨ s.length > 14
  · have : ¬ (8 ≤ s.length ∧ s.length ≤ 14) := by omega
    simp [h1, this]
  · have h1' : 8 ≤ s.length ∧ s.length ≤ 14 := by omega
    simp only [Bool.or_eq_true, decide_eq_true_eq, h1, if_false, h1', and_self, decide_True,
      Bool.true_and]
    cases hL : noTripleRunB (a.takeWhile islower) with
    | false => simp
    | true =>
      simp only [if_true, Bool.true_and]
      by_cases h2 : (a.takeWhile islower).length < 4 ∨ (a.takeWhile islower).length > 7
      · have : ¬ (4 ≤ (a.takeWhile islower).length ∧ (a.takeWhile islower).length ≤ 7) := by
          omega
        simp [h2, this]
      · have h2' : 4 ≤ (a.takeWhile islower).length ∧ (a.takeWhile islower).length ≤ 7 := by
          omega
        simp only [h2, if_false, h2', and_self, decide_True, Bool.true_and]
        cases hD : noTripleRunB ((a.dropWhile islower).takeWhile isdigit) with
        | false => simp
        | true =>
          simp only [if_true, Bool.true_and]
          generalize (a.dropWhile islower).takeWhile isdigit = D
          generalize (a.dropWhile islower).dropWhile isdigit = r
          by_cases h3 : D.length < 2 ∨ D.length > 4
          · have : ¬ (2 ≤ D.length ∧ D.length ≤ 4) := by omega
            simp [h3, this]
          · have h3' : 2 ≤ D.length ∧ D.length ≤ 4 := by omega
            simp only [h3, if_false, h3', and_self, decide_True, Bool.true_and]
            match r with
            | [] => simp
            | [x] => simp
            | [x, y] => simp
            | x :: y :: z :: t => simp



theorem takeWhile_append_stop (p : Char → Bool) (l rest : Str) (hl : ∀ c ∈ l, p c = true)
    (hr : ∀ d t, rest = d :: t → p d = false) :
    (l ++ rest).takeWhile p = l ∧ (l ++ rest).dropWhile p = rest := by
  rw [List.takeWhile_append_of_pos hl, List.dropWhile_append_of_pos hl]
  cases rest with
  | nil => simp
  | cons d t => simp [hr d t rfl]

theorem islower_not_lead (c : Char) (h : islower c = true) :
    (c == '#' || c == '@' || c == '!') = false := by
  by_contra hc
  have hc' : c = '#' ∨ c = '@' ∨ c = '!' := by
    by_contra hn
    apply hc
    simp only [not_or] at hn
    simp [hn.1, hn.2.1, hn.2.2]
  rcases hc' with rfl | rfl | rfl <;> revert h <;> decide

theorem islower_not_isdigit (c : Char) (h : isdigit c = true) : islower c = false := by
  simp only [isdigit, islower, Bool.and_eq_true, decide_eq_true_eq] at *
  simp only [Bool.and_eq_false_iff, decide_eq_false_iff_not]
  omega

/-- C1. `isValidIdentifier_Advanced` accepts a string exactly when it is an
optional leading `#`, `@` or `!`, then 4 to 7 lowercase letters with no letter
three times in a row, then 2 to 4 digits with no digit three times in a row,
then `@r`, and nothing else. -/
theorem isValidIdentifier_Advanced_iff (s : Str) :
    isValidIdentifier_Advanced s = true ↔
      ∃ lead letters digits : Str,
        s = lead ++ letters ++ digits ++ ['@', 'r'] ∧
        lead.length ≤ 1 ∧ (∀ c ∈ lead, c = '#' ∨ c = '@' ∨ c = '!') ∧
        4 ≤ letters.length ∧ letters.length ≤ 7 ∧
        (∀ c ∈ letters, 'a' ≤ c ∧ c ≤ 'z') ∧ NoTripleRun letters ∧
        2 ≤ digits.length ∧ digits.length ≤ 4 ∧
        (∀ c ∈ digits, '0' ≤ c ∧ c ≤ '9') ∧ NoTripleRun digits := by
  rw [isValidIdentifier_Advanced_eq]
  simp only [Bool.and_eq_true, decide_eq_true_eq, noTripleRunB_iff]
  constructor
  · rintro ⟨⟨⟨⟨⟨hlen, hLt⟩, hLn⟩, hDt⟩, hDn⟩, hr⟩
    have hsplit : ∃ lead : Str, s = lead ++ afterLead s ∧ lead.length ≤ 1 ∧
        ∀ c ∈ lead, c = '#' ∨ c = '@' ∨ c = '!' := by
      unfold afterLead
      by_cases hc : (charAt s 0 == '#' || charAt s 0 == '@' || charAt s 0 == '!') = true
      · rw [if_pos hc]
        cases s with
        | nil => simp at hlen
        | cons c t =>
          refine ⟨[c], by simp, by simp, ?_⟩
          intro d hd
          simp only [List.mem_singleton] at hd
          subst hd
          simpa [charAt, or_assoc] using hc
      · rw [if_neg hc]
        exact ⟨[], by simp, by simp, by simp⟩
    obtain ⟨lead, hs, hl1, hl2⟩ := hsplit
    refine ⟨lead, (afterLead s).takeWhile islower,
      ((afterLead s).dropWhile islower).takeWhile isdigit, ?_, hl1, hl2, hLn.1, hLn.2, ?_, hLt,
      hDn.1, hDn.2, ?_, hDt⟩
    · rw [List.append_assoc, List.append_assoc, ← hr, List.takeWhile_append_dropWhile,
        List.takeWhile_append_dropWhile]
      exact hs
    · intro c hc
      exact (islower_iff c).mp (List.mem_takeWhile_imp hc)
    · intro c hc
      exact (isdigit_iff c).mp (List.mem_takeWhile_imp hc)
  · rintro ⟨lead, letters, digits, hs, hl1, hl2, hL4, hL7, hLl, hLt, hD2, hD4, hDd, hDt⟩
    have hLl' : ∀ c ∈ letters, islower c = true := fun c hc => (islower_iff c).mpr (hLl c hc)
    have hDd' : ∀ c ∈ digits, isdigit c = true := fun c hc => (isdigit_iff c).mpr (hDd c hc)
    have ha : afterLead s = letters ++ (digits ++ ['@', 'r']) := by
      unfold afterLead
      match lead, hl1, hl2 with
      | [], _, _ =>
        match letters, hL4, hLl' with
        | x :: t, _, hx =>
          have := islower_not_lead x (hx x (by simp))
          simp [hs, charAt, this]
      | [c], _, hc =>
        have : (c == '#' || c == '@' || c == '!') = true := by
          simpa [or_assoc] using hc c (by simp)
        simp [hs, charAt, this]
      | _ :: _ :: _, h, _ => simp at h
    have h1 := takeWhile_append_stop islower letters (digits ++ ['@', 'r']) hLl' (by
      intro d t hd
      match digits, hD2, hDd' with
      | x :: u, _, hx =>
        simp only [List.cons_append, List.cons.injEq] at hd
        rw [← hd.1]
        exact islower_not_isdigit x (hx x (by simp)))
    have h2 := takeWhile_append_stop isdigit digits ['@', 'r'] hDd' (by
      intro d t hd
      simp only [List.cons.injEq] at hd
      rw [← hd.1]
      decide)
    rw [ha, h1.1, h1.2, h2.1, h2.2]
    refine ⟨⟨⟨⟨⟨?_, hLt⟩, hL4, hL7⟩, hDt⟩, hD2, hD4⟩, rfl⟩
    subst hs
    simp only [List.length_append, List.length_cons, List.length_nil]
    omega

/-! ## The tokenizer -/

theorem identCont_of_identStart (c : Char) (h : identStart c = true)
    (ho : isOperatorChar c = false) (hs : isSpecialSymbol c = false) : identCont c = true := by
  have h1 : c ≠ '!' := by rintro rfl; revert ho; decide
  have h2 : c ≠ '#' := by rintro rfl; revert hs; decide
  simp only [identStart, Bool.or_eq_true, beq_iff_eq] at h
  simp only [identCont, isalnum, Bool.or_eq_true, beq_iff_eq]
  rcases h with (((h | h) | h) | h) | h
  · exact Or.inl (Or.inl (Or.inl (Or.inl h)))
  · exact Or.inl (Or.inl (Or.inr h))
  · exact absurd h h2
  · exact Or.inl (Or.inr h)
  · exact absurd h h1

theorem wordLength_pos (c : Char) (rest : Str) (ho : isOperatorChar c = false)
    (hs : isSpecialSymbol c = false) (n : Nat) (h : wordLength c rest = some n) : 0 < n := by
  unfold wordLength at h
  dsimp only at h
  by_cases h3 : identStart c = true
  · have hc := identCont_of_identStart c h3 ho hs
    rw [if_pos h3] at h
    cases h
    simp [skipWhile, hc]
  · rw [if_neg h3] at h
    by_cases h4 : isdigit c = true
    · rw [if_pos h4] at h
      cases h
      simp [skipWhile, numCont, h4]
    · rw [if_neg h4] at h
      by_cases h5 : (c == '"') = true
      · rw [if_pos h5] at h
        cases h
        split_ifs <;> omega
      · rw [if_neg h5] at h
        by_cases h6 : (c == '\'') = true
        · rw [if_pos h6] at h
          cases h
          split_ifs <;> omega
        · rw [if_neg h6] at h
          cases h

/-- What one pass of the tokenizer loop does: it skips one whitespace
character, or it stores a non-empty token that the text starts with and moves
behind it. -/
theorem tokenizeStep_spec (c : Char) (rest : Str) :
    (isspace c = true ∧ tokenizeStep (c :: rest) = (none, rest)) ∨
    (isspace c = false ∧ ∃ token after : Str, token ≠ [] ∧
      tokenizeStep (c :: rest) = (some token, after) ∧ c :: rest = token ++ after) := by
  by_cases hsp : isspace c = true
  · left; exact ⟨hsp, by simp [tokenizeStep, hsp]⟩
  · right
    have hsp' : isspace c = false := by simpa using hsp
    refine ⟨hsp', ?_⟩
    unfold tokenizeStep
    simp only [hsp', Bool.false_eq_true, if_false]
    by_cases h1 :
        (decide (1 < (c :: rest).length) && isMultiCharOp [c, charAt (c :: rest) 1]) = true
    · rw [if_pos h1]
      simp only [Bool.and_eq_true, decide_eq_true_eq] at h1
      cases rest with
      | nil => simp at h1
      | cons d r => exact ⟨[c, d], r, by simp, by simp [charAt], by simp⟩
    · rw [if_neg h1]
      by_cases h2 :
          (isOperatorChar c || isSeparator c || isBracket c || isSpecialSymbol c) = true
      · rw [if_pos h2]
        exact ⟨[c], rest, by simp, rfl, by simp⟩
      · rw [if_neg h2]
        simp only [Bool.or_eq_true, not_or, Bool.not_eq_true] at h2
        cases hw : wordLength c rest with
        | none => exact ⟨[c], rest, by simp, rfl, by simp⟩
        | some n =>
          have hn := wordLength_pos c rest h2.1.1.1 h2.2 n hw
          refine ⟨(c :: rest).take n, (c :: rest).drop n, ?_, by simp [hn], by simp⟩
          cases n with
          | zero => omega
          | succ m => simp

theorem tokenizeStep_length_le (c : Char) (rest : Str) :
    (tokenizeStep (c :: rest)).2.length ≤ rest.length := by
  rcases tokenizeStep_spec c rest with ⟨_, h⟩ | ⟨_, token, after, hne, h, heq⟩
  · simp [h]
  · rw [h]
    have := congrArg List.length heq
    simp only [List.length_cons, List.length_append] at this
    have : 0 < token.length := List.length_pos.mpr hne
    simp only
    omega

theorem tokenizeLoop_enough (fuel : Nat) : ∀ text : Str, text.length ≤ fuel →
    ∃ tokens, ∀ more : Nat, text.length ≤ more → tokenizeLoop more text = some tokens := by
  induction fuel with
  | zero =>
    intro text h
    have : text = [] := List.length_eq_zero.mp (by omega)
    subst this
    exact ⟨[], fun more _ => by cases more <;> rfl⟩
  | succ f ih =>
    intro text h
    cases text with
    | nil => exact ⟨[], fun more _ => by cases more <;> rfl⟩
    | cons c rest =>
      have hle := tokenizeStep_length_le c rest
      simp only [List.length_cons] at h
      obtain ⟨tokens, ht⟩ := ih (tokenizeStep (c :: rest)).2 (by omega)
      refine ⟨(tokenizeStep (c :: rest)).1.toList ++ tokens, ?_⟩
      intro more hmore
      simp only [List.length_cons] at hmore
      cases more with
      | zero => omega
      | succ m =>
        simp only [tokenizeLoop]
        rw [ht m (by omega)]

/-- The loop of `tokenizeLine` reaches the end of every line within one pass
per character. -/
theorem tokenizeLoop_length_isSome (text : Str) :
    (tokenizeLoop text.length text).isSome = true := by
  obtain ⟨tokens, h⟩ := tokenizeLoop_enough text.length text (le_refl _)
  rw [h _ (le_refl _)]
  rfl

theorem tokenizeLine_nil : tokenizeLine [] = [] := rfl

/-- The tokens of a non-empty text: what the first pass stores, then the
tokens of the text the first pass leaves. -/
theorem tokenizeLine_cons (c : Char) (rest : Str) :
    tokenizeLine (c :: rest) =
      (tokenizeStep (c :: rest)).1.toList ++ tokenizeLine (tokenizeStep (c :: rest)).2 := by
  have hle := tokenizeStep_length_le c rest
  obtain ⟨tokens, ht⟩ :=
    tokenizeLoop_enough (tokenizeStep (c :: rest)).2.length _ (le_refl _)
  unfold tokenizeLine
  rw [ht _ (le_refl _)]
  simp only [List.length_cons, tokenizeLoop]
  rw [ht _ hle]
  rfl

theorem tokenizeLine_space (c : Char) (rest : Str) (h : isspace c = true) :
    tokenizeLine (c :: rest) = tokenizeLine rest := by
  rw [tokenizeLine_cons]
  simp [tokenizeStep, h]

theorem tokenizeLine_spaces (w rest : Str) (h : ∀ c ∈ w, isspace c = true) :
    tokenizeLine (w ++ rest) = tokenizeLine rest := by
  induction w with
  | nil => rfl
  | cons c w ih =>
    rw [List.cons_append, tokenizeLine_space c _ (h c (by simp))]
    exact ih (fun d hd => h d (by simp [hd]))

theorem multiCharOps_shape :
    ∀ op ∈ multiCharOps, (match op with
      | [a, _] => !isspace a
      | _ => false) = true := by
  decide

/-- C2. A multi-character operator between two runs of whitespace is one
token: `tokenizeLine (w1 ++ L ++ w2) = [L]` for each of the twelve operator
lexemes `L`. -/
theorem tokenizeLine_multiCharOp (op w1 w2 : Str) (hop : op ∈ multiCharOps)
    (h1 : ∀ c ∈ w1, isspace c = true) (h2 : ∀ c ∈ w2, isspace c = true) :
    tokenizeLine (w1 ++ op ++ w2) = [op] := by
  have hshape := multiCharOps_shape op hop
  have hmem : isMultiCharOp op = true := by simpa [isMultiCharOp] using hop
  match op, hshape, hmem with
  | [a, b], hshape, hmem =>
    have ha : isspace a = false := by simpa using hshape
    rw [List.append_assoc, tokenizeLine_spaces w1 _ h1]
    have hstep : tokenizeStep ([a, b] ++ w2) = (some [a, b], w2) := by
      simp [tokenizeStep, ha, charAt, hmem]
    rw [show [a, b] ++ w2 = a :: (b :: w2) from rfl, tokenizeLine_cons]
    rw [show a :: (b :: w2) = [a, b] ++ w2 from rfl, hstep]
    have := tokenizeLine_spaces w2 [] h2
    rw [List.append_nil] at this
    simp [this, tokenizeLine_nil]

/-- An instance of `tokenizeLine_multiCharOp`: the operator `!=` after two spaces and before a tab. -/
theorem tokenizeLine_multiCharOp_witness :
    tokenizeLine ("  ".toList ++ "!=".toList ++ "\t".toList) = ["!=".toList] :=
  tokenizeLine_multiCharOp "!=".toList "  ".toList "\t".toList (by decide) (by decide)
    (by decide)

theorem tokenizeLine_interleave_aux (n : Nat) : ∀ line : Str, line.length ≤ n →
    ∃ gaps : List Str, gaps.length = (tokenizeLine line).length + 1 ∧
      (∀ gap ∈ gaps, ∀ c ∈ gap, isspace c = true) ∧
      line = interleave gaps (tokenizeLine line) := by
  induction n with
  | zero =>
    intro line h
    have : line = [] := List.length_eq_zero.mp (by omega)
    subst this
    exact ⟨[[]], by simp [tokenizeLine_nil], by simp, by simp [tokenizeLine_nil, interleave]⟩
  | succ n ih =>
    intro line h
    cases line with
    | nil =>
      exact ⟨[[]], by simp [tokenizeLine_nil], by simp, by simp [tokenizeLine_nil, interleave]⟩
    | cons c rest =>
      have hle := tokenizeStep_length_le c rest
      simp only [List.length_cons] at h
      obtain ⟨gaps, hlen, hsp, heq⟩ := ih (tokenizeStep (c :: rest)).2 (by omega)
      rw [tokenizeLine_cons]
      rcases tokenizeStep_spec c rest with ⟨hc, hstep⟩ | ⟨_, token, after, _, hstep, happ⟩
      · simp only [hstep] at hlen heq ⊢
        simp only [Option.toList, List.nil_append] at hlen heq ⊢
        match gaps, hlen, hsp, heq with
        | gap :: gaps, hlen, hsp, heq =>
          refine ⟨(c :: gap) :: gaps, by simpa using hlen, ?_, ?_⟩
          · intro g hg d hd
            simp only [List.mem_cons] at hg
            rcases hg with rfl | hg
            · simp only [List.mem_cons] at hd
              rcases hd with rfl | hd
              · exact hc
              · exact hsp gap (by simp) d hd
            · exact hsp g (by simp [hg]) d hd
          · cases hts : tokenizeLine rest with
            | nil => rw [hts] at heq; simpa [interleave] using heq
            | cons t ts => rw [hts] at heq; simpa [interleave] using heq
      · simp only [hstep] at hlen heq ⊢
        simp only [Option.toList, List.singleton_append] at hlen heq ⊢
        refine ⟨[] :: gaps, by simpa using hlen, ?_, ?_⟩
        · intro g hg d hd
          simp only [List.mem_cons] at hg
          rcases hg with rfl | hg
          · simp at hd
          · exact hsp g hg d hd
        · simp only [interleave, List.nil_append]
          rw [← heq]
          exact happ

/-- C3. The tokens of a line are consecutive pieces of the line, in order and
without overlap, and what lies before, between and after them is whitespace:
the line is the tokens interleaved with runs of whitespace characters.  Every
character of the line thus lies in exactly one gap or one token, and a
character that is not whitespace lies in a token. -/
theorem tokenizeLine_interleave (line : Str) :
    ∃ gaps : List Str, gaps.length = (tokenizeLine line).length + 1 ∧
      (∀ gap ∈ gaps, ∀ c ∈ gap, isspace c = true) ∧
      line = interleave gaps (tokenizeLine line) :=
  tokenizeLine_interleave_aux line.length line (le_refl _)

/-! ## The symbol table -/

theorem alreadyInSymbolTable_append (table : List Symbol) (record : Symbol) (name : Str) :
    alreadyInSymbolTable (table ++ [record]) name =
      (alreadyInSymbolTable table name || record.name == name) := by
  simp [alreadyInSymbolTable]

theorem filter_name_eq_nil (table : List Symbol) (name : Str)
    (h : alreadyInSymbolTable table name = false) :
    table.filter (fun s => s.name == name) = [] := by
  simp only [alreadyInSymbolTable, List.any_eq_false] at h
  simpa [List.filter_eq_nil_iff] using h

/-- What a call of `addToSymbolTable` with a name shorter than 100 characters
does: it appends one record when the name is new, and nothing otherwise. -/
theorem addToSymbolTable_result (table : List Symbol) (name type value : Str) (line : Nat)
    (hname : name.length < 100) :
    (alreadyInSymbolTable table name = false →
      addToSymbolTable table type name value line =
        table ++ [⟨name, type.take 99, value.take 99, line⟩] ∧
      (addToSymbolTable table type name value line).filter (fun s => s.name == name) =
        [⟨name, type.take 99, value.take 99, line⟩] ∧
      (type.length < 100 → value.length < 100 →
        addToSymbolTable table type name value line = table ++ [⟨name, type, value, line⟩])) ∧
    (alreadyInSymbolTable table name = true →
      addToSymbolTable table type name value line = table) := by
  have htake : name.take 99 = name := List.take_of_length_le (by omega)
  cases h : alreadyInSymbolTable table name with
  | true => simp [addToSymbolTable, h]
  | false =>
    have h1 : addToSymbolTable table type name value line =
        table ++ [⟨name, type.take 99, value.take 99, line⟩] := by
      simp [addToSymbolTable, h, htake]
    refine ⟨fun _ => ⟨h1, ?_, ?_⟩, by simp⟩
    · rw [h1, List.filter_append, filter_name_eq_nil table name h]
      simp
    · intro ht hv
      rw [h1, List.take_of_length_le (by omega), List.take_of_length_le (by omega)]

/-- After a call of `addToSymbolTable` with a name shorter than 100
characters the name is in the table. -/
theorem alreadyInSymbolTable_addToSymbolTable (table : List Symbol) (name type value : Str)
    (line : Nat) (hname : name.length < 100) :
    alreadyInSymbolTable (addToSymbolTable table type name value line) name = true := by
  have htake : name.take 99 = name := List.take_of_length_le (by omega)
  cases h : alreadyInSymbolTable table name with
  | true => simp [addToSymbolTable, h]
  | false => simp [addToSymbolTable, h, htake, alreadyInSymbolTable_append]

/-- C4, the claim as written fails: in a table that already holds the name,
the record found under the name after the two calls is the old one, not one
with the type, value and line of the first of the two calls. -/
theorem addToSymbolTable_twice_counterexample :
    (addToSymbolTable
        (addToSymbolTable [⟨"abcd12@r".toList, "int".toList, "-".toList, 1⟩]
          "float".toList "abcd12@r".toList "5".toList 2)
        "char".toList "abcd12@r".toList "7".toList 3).filter
        (fun s => s.name == "abcd12@r".toList) =
      [⟨"abcd12@r".toList, "int".toList, "-".toList, 1⟩] ∧
    (⟨"abcd12@r".toList, "int".toList, "-".toList, 1⟩ : Symbol) ≠
      ⟨"abcd12@r".toList, "float".toList, "5".toList, 2⟩ := by
  decide

/-- C4, amended.  For a name shorter than 100 characters, a second call of
`addToSymbolTable` with the same name, whatever its type, value and line,
leaves the table as it was after the first call.  When the name was not in
the table before the first call, that table is the old one followed by one
record, the only one under the name, which holds the first 99 characters of
the type and of the value of the first call (all of them when they are
shorter than 100 characters) and its line; when the name was in the table,
neither call changes the table. -/
theorem addToSymbolTable_twice (table : List Symbol) (name type value type2 value2 : Str)
    (line line2 : Nat) (hname : name.length < 100) :
    addToSymbolTable (addToSymbolTable table type name value line) type2 name value2 line2 =
      addToSymbolTable table type name value line ∧
    (alreadyInSymbolTable table name = false →
      addToSymbolTable table type name value line =
        table ++ [⟨name, type.take 99, value.take 99, line⟩] ∧
      (addToSymbolTable table type name value line).filter (fun s => s.name == name) =
        [⟨name, type.take 99, value.take 99, line⟩] ∧
      (type.length < 100 → value.length < 100 →
        addToSymbolTable table type name value line = table ++ [⟨name, type, value, line⟩])) ∧
    (alreadyInSymbolTable table name = true →
      addToSymbolTable table type name value line = table) :=
  ⟨(addToSymbolTable_result _ name type2 value2 line2 hname).2
      (alreadyInSymbolTable_addToSymbolTable table name type value line hname),
    addToSymbolTable_result table name type value line hname⟩

/-- An instance of `addToSymbolTable_twice`: the same name declared as `int`
with value `5` and then as `float` with value `7`. -/
theorem addToSymbolTable_twice_witness :
    "abcd12@r".toList.length < 100 ∧
    addToSymbolTable (addToSymbolTable [] "int".toList "abcd12@r".toList "5".toList 1)
        "float".toList "abcd12@r".toList "7".toList 2 =
      addToSymbolTable [] "int".toList "abcd12@r".toList "5".toList 1 :=
  ⟨by decide,
    (addToSymbolTable_twice [] "abcd12@r".toList "int".toList "5".toList "float".toList
      "7".toList 1 2 (by decide)).1⟩

/-! ## The declaration loop -/

section
variable (ins : List Str → Str → List Str) (fullType : Str) (lineno : Nat)

/-- A pass of the declaration loop moves past the token it was entered with. -/
theorem declarationStepWith_length_le (tok : Str) (rest : List Str) (st : State)
    (next : List Str × State)
    (h : declarationStepWith ins fullType lineno tok rest st = some next) :
    next.1.length ≤ rest.length := by
  unfold declarationStepWith at h
  by_cases h1 : (tok == [',']) = true
  · rw [if_pos h1] at h; cases h; exact le_refl _
  · rw [if_neg h1] at h
    by_cases h2 : (tok == [';']) = true
    · rw [if_pos h2] at h; cases h
    · rw [if_neg h2] at h
      by_cases h3 : isValidIdentifier_Advanced tok = true
      · rw [if_pos h3] at h
        cases h
        match rest with
        | [] => simp
        | nx :: rest1 =>
          dsimp only
          split_ifs
          · match rest1 with
            | [] => simp
            | v :: rest2 => simp only [List.length_cons]; omega
          · simp
      · rw [if_neg h3] at h
        cases h
        exact le_refl _

theorem processDeclarationLoopWith_enough (fuel : Nat) :
    ∀ (tokens : List Str) (st : State), tokens.length ≤ fuel →
      ∃ result, ∀ more : Nat, tokens.length ≤ more →
        processDeclarationLoopWith ins fullType lineno more tokens st = some result := by
  induction fuel with
  | zero =>
    intro tokens st h
    have : tokens = [] := List.length_eq_zero.mp (by omega)
    subst this
    exact ⟨st, fun more _ => by cases more <;> rfl⟩
  | succ f ih =>
    intro tokens st h
    cases tokens with
    | nil => exact ⟨st, fun more _ => by cases more <;> rfl⟩
    | cons tok rest =>
      simp only [List.length_cons] at h
      cases hs : declarationStepWith ins fullType lineno tok rest st with
      | none =>
        refine ⟨st, fun more hm => ?_⟩
        cases more with
        | zero => simp at hm
        | succ m => simp only [processDeclarationLoopWith, hs]
      | some next =>
        have hle := declarationStepWith_length_le ins fullType lineno tok rest st next hs
        obtain ⟨result, hr⟩ := ih next.1 next.2 (by omega)
        refine ⟨result, fun more hm => ?_⟩
        simp only [List.length_cons] at hm
        cases more with
        | zero => omega
        | succ m =>
          simp only [processDeclarationLoopWith, hs]
          exact hr m (by omega)

theorem processDeclarationTokensWith_nil (st : State) :
    processDeclarationTokensWith ins fullType lineno [] st = st := rfl

/-- The declaration loop on a non-empty token list: one pass, then the loop
on the tokens the pass leaves. -/
theorem processDeclarationTokensWith_cons (tok : Str) (rest : List Str) (st : State) :
    processDeclarationTokensWith ins fullType lineno (tok :: rest) st =
      match declarationStepWith ins fullType lineno tok rest st with
      | none => st
      | some next => processDeclarationTokensWith ins fullType lineno next.1 next.2 := by
  unfold processDeclarationTokensWith
  cases hs : declarationStepWith ins fullType lineno tok rest st with
  | none => simp [processDeclarationLoopWith, hs]
  | some next =>
    have hle := declarationStepWith_length_le ins fullType lineno tok rest st next hs
    obtain ⟨result, hr⟩ :=
      processDeclarationLoopWith_enough ins fullType lineno next.1.length next.1 next.2
        (le_refl _)
    simp only [List.length_cons, processDeclarationLoopWith, hs]
    rw [hr _ hle, hr _ (le_refl _)]
    rfl

end

/-! ## The accumulators -/

theorem mem_firstOccurrences (l : List Str) (x : Str) : x ∈ firstOccurrences l ↔ x ∈ l := by
  induction l with
  | nil => simp [firstOccurrences]
  | cons y rest ih =>
    simp only [firstOccurrences, List.mem_cons, List.mem_filter, ih, bne_iff_ne, ne_eq]
    by_cases h : x = y <;> simp [h]

theorem firstOccurrences_nodup (l : List Str) : (firstOccurrences l).Nodup := by
  induction l with
  | nil => simp [firstOccurrences]
  | cons y rest ih =>
    simp only [firstOccurrences, List.nodup_cons, List.mem_filter, bne_self_eq_false,
      Bool.false_eq_true, and_false, not_false_eq_true, true_and]
    exact ih.filter _

theorem firstOccurrences_concat (l : List Str) (x : Str) :
    firstOccurrences (l ++ [x]) = addUnique (firstOccurrences l) x := by
  induction l with
  | nil => simp [firstOccurrences, addUnique]
  | cons y rest ih =>
    rw [List.cons_append]
    simp only [firstOccurrences]
    rw [ih]
    unfold addUnique
    by_cases hx : x ∈ firstOccurrences rest
    · simp [hx]
    · by_cases hxy : x = y
      · subst hxy; simp [hx, List.filter_append]
      · simp [hx, hxy, List.filter_append]

theorem ite_firstOccurrences {c : Prop} [Decidable c] {a b a1 b1 : State}
    (ha : a = a1.firstOccurrences) (hb : b = b1.firstOccurrences) :
    (if c then a else b) = (if c then a1 else b1).firstOccurrences := by
  split_ifs <;> assumption

theorem categorizeTokenWith_firstOccurrences (tr : State) (token : Str) :
    categorizeTokenWith addUnique tr.firstOccurrences token =
      (categorizeTokenWith recordAll tr token).firstOccurrences := by
  unfold categorizeTokenWith
  repeat' apply ite_firstOccurrences
  all_goals first
    | rfl
    | simp only [State.firstOccurrences, recordAll, firstOccurrences_concat]

theorem foldl_categorizeTokenWith_firstOccurrences (tokens : List Str) :
    ∀ tr : State, tokens.foldl (categorizeTokenWith addUnique) tr.firstOccurrences =
      (tokens.foldl (categorizeTokenWith recordAll) tr).firstOccurrences := by
  induction tokens with
  | nil => intro tr; rfl
  | cons t rest ih =>
    intro tr
    simp only [List.foldl_cons, categorizeTokenWith_firstOccurrences, ih]

theorem declarationStepWith_firstOccurrences (fullType : Str) (lineno : Nat) (tok : Str)
    (rest : List Str) (tr : State) :
    declarationStepWith addUnique fullType lineno tok rest tr.firstOccurrences =
      (declarationStepWith recordAll fullType lineno tok rest tr).map
        (fun next => (next.1, next.2.firstOccurrences)) := by
  unfold declarationStepWith
  by_cases h1 : (tok == [',']) = true
  · simp only [if_pos h1, Option.map_some']
  · simp only [if_neg h1]
    by_cases h2 : (tok == [';']) = true
    · simp only [if_pos h2, Option.map_none']
    · simp only [if_neg h2]
      by_cases h3 : isValidIdentifier_Advanced tok = true
      · simp only [if_pos h3, Option.map_some', State.firstOccurrences, recordAll,
          firstOccurrences_concat]
      · simp only [if_neg h3, Option.map_some', Option.some.injEq, Prod.mk.injEq, true_and]
        apply ite_firstOccurrences
        · simp only [State.firstOccurrences, recordAll, firstOccurrences_concat]
        · rfl

theorem processDeclarationTokensWith_firstOccurrences (fullType : Str) (lineno n : Nat) :
    ∀ (tokens : List Str) (tr : State), tokens.length ≤ n →
      processDeclarationTokensWith addUnique fullType lineno tokens tr.firstOccurrences =
        (processDeclarationTokensWith recordAll fullType lineno tokens tr).firstOccurrences := by
  induction n with
  | zero =>
    intro tokens tr h
    have : tokens = [] := List.length_eq_zero.mp (by omega)
    subst this
    rfl
  | succ n ih =>
    intro tokens tr h
    match tokens, h with
    | [], _ => rfl
    | tok :: rest, h =>
      simp only [List.length_cons] at h
      rw [processDeclarationTokensWith_cons, processDeclarationTokensWith_cons,
        declarationStepWith_firstOccurrences]
      cases hs : declarationStepWith recordAll fullType lineno tok rest tr with
      | none => rfl
      | some next =>
        have hle := declarationStepWith_length_le _ _ _ _ _ _ _ hs
        simp only [Option.map_some']
        exact ih next.1 next.2 (by omega)

theorem processDeclarationsWith_firstOccurrences (tokens : List Str) (tr : State) :
    processDeclarationsWith addUnique tokens tr.firstOccurrences =
      (processDeclarationsWith recordAll tokens tr).firstOccurrences := by
  unfold processDeclarationsWith
  dsimp only
  repeat' apply ite_firstOccurrences
  · simp only [State.firstOccurrences, recordAll, firstOccurrences_concat]
  · simp only [State.firstOccurrences, recordAll, firstOccurrences_concat]
  · exact processDeclarationTokensWith_firstOccurrences _ _ _ _ _ (le_refl _)
  · rfl

theorem processLineWith_firstOccurrences (tr : State) (line : Str) :
    processLineWith addUnique tr.firstOccurrences line =
      (processLineWith recordAll tr line).firstOccurrences := by
  unfold processLineWith
  dsimp only
  have hin : tr.firstOccurrences.insideComment = tr.insideComment := rfl
  rw [hin]
  cases hs : stripComments tr.insideComment line with
  | none => rfl
  | some r =>
    obtain ⟨text, inside⟩ := r
    dsimp only
    apply ite_firstOccurrences
    · rfl
    · rw [← foldl_categorizeTokenWith_firstOccurrences,
        ← processDeclarationsWith_firstOccurrences]
      rfl

/-- The accumulators of the program are those of the run that records every
routing, cut down to first occurrences. -/
theorem processFile_eq_firstOccurrences (lines : List Str) :
    processFile lines = (routingTrace lines).firstOccurrences := by
  unfold processFile routingTrace
  have key : ∀ (ls : List Str) (tr : State),
      ls.foldl processLine tr.firstOccurrences =
        (ls.foldl (processLineWith recordAll) tr).firstOccurrences := by
    intro ls
    induction ls with
    | nil => intro tr; rfl
    | cons l ls ih =>
      intro tr
      simp only [List.foldl_cons, processLine, processLineWith_firstOccurrences]
      exact ih _
  exact key lines State.init

/-- C5. After `processFile` has processed any lines, starting from empty
accumulators, each of the nine category buckets and each of the two
identifier lists holds no lexeme twice, and it lists the lexemes routed to it
in the order in which each of them was routed to it for the first time: it
is the sequence of all routings to that accumulator, cut down to first
occurrences. -/
theorem processFile_accumulators (lines : List Str) :
    ∀ acc ∈ accumulators,
      (acc (processFile lines)).Nodup ∧
        acc (processFile lines) = firstOccurrences (acc (routingTrace lines)) := by
  intro acc hacc
  rw [processFile_eq_firstOccurrences]
  simp only [accumulators, List.mem_cons, List.mem_singleton, List.not_mem_nil, or_false] at hacc
  rcases hacc with rfl | rfl | rfl | rfl | rfl | rfl | rfl | rfl | rfl | rfl | rfl <;>
    exact ⟨firstOccurrences_nodup _, rfl⟩

/-- An instance of `processFile_accumulators`: the invalid name `a` declared twice on one line. -/
theorem processFile_accumulators_witness :
    State.invalidIdentifiers ∈ accumulators ∧
      ((processFile ["int a, a;".toList]).invalidIdentifiers.Nodup ∧
        (processFile ["int a, a;".toList]).invalidIdentifiers =
          firstOccurrences (routingTrace ["int a, a;".toList]).invalidIdentifiers) :=
  ⟨by simp [accumulators],
    processFile_accumulators ["int a, a;".toList] State.invalidIdentifiers
      (by simp [accumulators])⟩

/-! ## Comment handling -/

theorem strstr_cons (c : Char) (hay needle : Str) :
    strstr (c :: hay) needle =
      if needle.isPrefixOf (c :: hay) then some 0
      else (strstr hay needle).map (fun k => k + 1) := by
  rw [strstr]

theorem strstr_eq_none_iff (needle : Str) (hay : Str) :
    strstr hay needle = none ↔ ¬ needle <:+: hay := by
  induction hay with
  | nil =>
    cases needle <;> simp [strstr]
  | cons c hay ih =>
    rw [strstr_cons, List.infix_cons_iff]
    by_cases hp : needle.isPrefixOf (c :: hay) = true
    · have := List.isPrefixOf_iff_prefix.mp hp
      simp [hp, this]
    · rw [if_neg hp]
      have hp' : ¬ needle <+: c :: hay := fun h => hp (List.isPrefixOf_iff_prefix.mpr h)
      simp only [Option.map_eq_none', ih, hp', false_or]

theorem strstr_eq_some (needle : Str) (hne : needle ≠ []) (hay : Str) :
    ∀ k, strstr hay needle = some k →
      FirstOccurrence needle (hay.take k) (hay.drop (k + needle.length)) hay := by
  induction hay with
  | nil =>
    intro k h
    cases needle with
    | nil => exact absurd rfl hne
    | cons a t => simp [strstr] at h
  | cons c hay ih =>
    intro k h
    rw [strstr_cons] at h
    by_cases hp : needle.isPrefixOf (c :: hay) = true
    · rw [if_pos hp] at h
      cases h
      obtain ⟨post, hpost⟩ := List.isPrefixOf_iff_prefix.mp hp
      refine ⟨?_, ?_⟩
      · rw [← hpost]
        simp
      · intro hin
        have h1 := hin.length_le
        have h2 : 0 < needle.length := List.length_pos.mpr hne
        simp only [List.take_zero, List.nil_append, List.length_dropLast] at h1
        omega
    · rw [if_neg hp] at h
      have hp' : ¬ needle <+: c :: hay := fun h => hp (List.isPrefixOf_iff_prefix.mpr h)
      cases hs : strstr hay needle with
      | none => rw [hs] at h; cases h
      | some j =>
        rw [hs] at h
        cases h
        obtain ⟨h1, h2⟩ := ih j hs
        refine ⟨?_, ?_⟩
        · simp only [List.take_succ_cons, List.cons_append, List.cons.injEq, true_and]
          rw [show j + 1 + needle.length = (j + needle.length) + 1 by omega, List.drop_succ_cons]
          exact h1
        · intro hin
          simp only [List.take_succ_cons, List.cons_append] at hin
          rcases List.infix_cons_iff.mp hin with hpre | hin'
          · apply hp'
            refine hpre.trans ?_
            rw [List.prefix_cons_inj]
            conv_rhs => rw [h1]
            rw [List.append_assoc, List.prefix_append_right_inj]
            exact (List.dropLast_prefix needle).trans (List.prefix_append _ _)
          · exact h2 hin'

theorem strstr_of_firstOccurrence (needle : Str) (pre : Str) :
    ∀ (post hay : Str), FirstOccurrence needle pre post hay →
      strstr hay needle = some pre.length := by
  induction pre with
  | nil =>
    intro post hay ⟨h1, _⟩
    subst h1
    cases hh : ([] ++ needle ++ post : Str) with
    | nil =>
      have : needle = [] := by
        simp only [List.nil_append, List.append_eq_nil] at hh
        exact hh.1
      simp [strstr, this]
    | cons c t =>
      rw [strstr_cons, ← hh, if_pos]
      · rfl
      · exact List.isPrefixOf_iff_prefix.mpr (by simp)
  | cons c pre ih =>
    intro post hay ⟨h1, h2⟩
    subst h1
    have hne : needle ≠ [] := by
      rintro rfl
      exact h2 ⟨c :: pre, [], by simp⟩
    simp only [List.cons_append]
    rw [strstr_cons, if_neg]
    · rw [ih post (pre ++ needle ++ post) ⟨rfl, fun hin => h2 ?_⟩]
      · rfl
      · exact hin.trans ⟨[c], [], by simp⟩
    · intro hp
      have hp' := List.isPrefixOf_iff_prefix.mp hp
      apply h2
      apply List.IsPrefix.isInfix
      refine List.prefix_of_prefix_length_le hp' ?_ ?_
      · have : c :: (pre ++ needle ++ post) =
            (c :: pre ++ needle.dropLast) ++ ([needle.getLast hne] ++ post) := by
          conv_lhs => rw [← List.dropLast_concat_getLast hne]
          simp
        rw [this]
        exact List.prefix_append _ _
      · have : 0 < needle.length := List.length_pos.mpr hne
        simp only [List.cons_append, List.length_cons, List.length_append,
          List.length_dropLast]
        omega

/-- A text that contains the needle splits at its first occurrence. -/
theorem exists_firstOccurrence (needle : Str) (hne : needle ≠ []) (hay : Str)
    (h : needle <:+: hay) : ∃ pre post, FirstOccurrence needle pre post hay := by
  cases hs : strstr hay needle with
  | none => exact absurd h ((strstr_eq_none_iff needle hay).mp hs)
  | some k => exact ⟨_, _, strstr_eq_some needle hne hay k hs⟩

theorem firstOccurrence_contains {needle pre post hay : Str}
    (h : FirstOccurrence needle pre post hay) : needle <:+: hay :=
  ⟨pre, post, h.1.symm⟩

theorem firstOccurrence_take {needle pre post hay : Str}
    (h : FirstOccurrence needle pre post hay) : hay.take pre.length = pre := by
  rw [h.1, List.append_assoc, List.take_left]

theorem firstOccurrence_drop {needle pre post hay : Str}
    (h : FirstOccurrence needle pre post hay) :
    hay.drop (pre.length + needle.length) = post := by
  rw [h.1, ← List.length_append, List.drop_left]

theorem sameFrame_refl (st : State) : SameFrame st st := ⟨rfl, rfl⟩

theorem sameFrame_trans {a b c : State} (h1 : SameFrame a b) (h2 : SameFrame b c) :
    SameFrame a c := ⟨h2.1.trans h1.1, h2.2.trans h1.2⟩

theorem ite_sameFrame {c : Prop} [Decidable c] {st a b : State} (ha : SameFrame st a)
    (hb : SameFrame st b) : SameFrame st (if c then a else b) := by
  split_ifs <;> assumption

theorem categorizeTokenWith_sameFrame (ins : List Str → Str → List Str) (st : State)
    (token : Str) : SameFrame st (categorizeTokenWith ins st token) := by
  unfold categorizeTokenWith
  repeat' apply ite_sameFrame
  all_goals exact ⟨rfl, rfl⟩

theorem foldl_categorizeTokenWith_sameFrame (ins : List Str → Str → List Str)
    (tokens : List Str) : ∀ st : State,
      SameFrame st (tokens.foldl (categorizeTokenWith ins) st) := by
  induction tokens with
  | nil => intro st; exact sameFrame_refl st
  | cons t rest ih =>
    intro st
    exact sameFrame_trans (categorizeTokenWith_sameFrame ins st t) (ih _)

theorem declarationStepWith_sameFrame (ins : List Str → Str → List Str) (fullType : Str)
    (lineno : Nat) (tok : Str) (rest : List Str) (st : State) (next : List Str × State)
    (h : declarationStepWith ins fullType lineno tok rest st = some next) :
    SameFrame st next.2 := by
  unfold declarationStepWith at h
  by_cases h1 : (tok == [',']) = true
  · rw [if_pos h1] at h; cases h; exact sameFrame_refl st
  · rw [if_neg h1] at h
    by_cases h2 : (tok == [';']) = true
    · rw [if_pos h2] at h; cases h
    · rw [if_neg h2] at h
      by_cases h3 : isValidIdentifier_Advanced tok = true
      · rw [if_pos h3] at h
        cases h
        exact ⟨rfl, rfl⟩
      · rw [if_neg h3] at h
        cases h
        dsimp only
        apply ite_sameFrame
        · exact ⟨rfl, rfl⟩
        · exact sameFrame_refl st

theorem processDeclarationTokensWith_sameFrame (ins : List Str → Str → List Str)
    (fullType : Str) (lineno n : Nat) : ∀ (tokens : List Str) (st : State),
      tokens.length ≤ n →
        SameFrame st (processDeclarationTokensWith ins fullType lineno tokens st) := by
  induction n with
  | zero =>
    intro tokens st h
    have : tokens = [] := List.length_eq_zero.mp (by omega)
    subst this
    exact sameFrame_refl st
  | succ n ih =>
    intro tokens st h
    match tokens, h with
    | [], _ => exact sameFrame_refl st
    | tok :: rest, h =>
      simp only [List.length_cons] at h
      rw [processDeclarationTokensWith_cons]
      cases hs : declarationStepWith ins fullType lineno tok rest st with
      | none => exact sameFrame_refl st
      | some next =>
        have hle := declarationStepWith_length_le _ _ _ _ _ _ _ hs
        exact sameFrame_trans (declarationStepWith_sameFrame _ _ _ _ _ _ _ hs)
          (ih next.1 next.2 (by omega))

theorem processDeclarationsWith_sameFrame (ins : List Str → Str → List Str)
    (tokens : List Str) (st : State) :
    SameFrame st (processDeclarationsWith ins tokens st) := by
  unfold processDeclarationsWith
  dsimp only
  repeat' apply ite_sameFrame
  · exact ⟨rfl, rfl⟩
  · exact ⟨rfl, rfl⟩
  · exact processDeclarationTokensWith_sameFrame _ _ _ _ _ _ (le_refl _)
  · exact sameFrame_refl st

/-- The comment flag and the line number after a line. -/
theorem processLineWith_frame (ins : List Str → Str → List Str) (st : State) (line : Str) :
    (processLineWith ins st line).lineno = st.lineno + 1 ∧
    (processLineWith ins st line).insideComment =
      match stripComments st.insideComment line with
      | none => st.insideComment
      | some r => r.2 := by
  unfold processLineWith
  dsimp only
  cases hs : stripComments st.insideComment line with
  | none => exact ⟨rfl, rfl⟩
  | some r =>
    obtain ⟨text, inside⟩ := r
    dsimp only
    split_ifs
    · exact ⟨rfl, rfl⟩
    · have h := sameFrame_trans (processDeclarationsWith_sameFrame ins (tokenizeLine text)
        { st with lineno := st.lineno + 1, insideComment := inside })
        (foldl_categorizeTokenWith_sameFrame ins (tokenizeLine text) _)
      exact ⟨h.2, h.1⟩

/-- A line read inside a block comment that does not close on it changes
nothing but the line number. -/
theorem processLine_inside (st : State) (line : Str) (hin : st.insideComment = true)
    (h : ¬ "*/".toList <:+: line) :
    processLine st line = { st with lineno := st.lineno + 1 } := by
  have hs : strstr line "*/".toList = none := (strstr_eq_none_iff _ _).mpr h
  unfold processLine processLineWith
  simp only [stripComments, closeBlock, hin, if_true, hs]

theorem foldl_processLine_inside (ls : List Str) : ∀ st : State, st.insideComment = true →
    (∀ l ∈ ls, ¬ "*/".toList <:+: l) →
      ls.foldl processLine st = { st with lineno := st.lineno + ls.length } := by
  induction ls with
  | nil => intro st _ _; rfl
  | cons l ls ih =>
    intro st hin h
    rw [List.foldl_cons, processLine_inside st l hin (h l (by simp)),
      ih { st with lineno := st.lineno + 1 } hin (fun m hm => h m (by simp [hm]))]
    simp only [List.length_cons, State.mk.injEq, true_and]
    omega

theorem stripComments_open (line pre post : Str)
    (h : FirstOccurrence "/*".toList pre post line) :
    stripComments false line = some (cutLineComment pre, true) := by
  have hs := strstr_of_firstOccurrence _ _ _ _ h
  simp only [stripComments, closeBlock, openBlock, hs, firstOccurrence_take h, Bool.false_eq_true, if_false]

theorem stripComments_close (line pre post : Str)
    (h : FirstOccurrence "*/".toList pre post line) :
    stripComments true line = stripComments false post := by
  have hs := strstr_of_firstOccurrence _ _ _ _ h
  have hd := firstOccurrence_drop h
  simp only [stripComments, closeBlock, hs, if_true, Bool.false_eq_true, if_false]
  rw [show pre.length + 2 = pre.length + "*/".toList.length from rfl, hd]

/-- A line read inside a block comment that closes on it is handled as the
text after the first `*/` is handled outside a block comment. -/
theorem processLine_close (st : State) (line pre post : Str) (hin : st.insideComment = true)
    (h : FirstOccurrence "*/".toList pre post line) :
    processLine st line = processLine { st with insideComment := false } post := by
  unfold processLine processLineWith
  dsimp only
  rw [hin, stripComments_close line pre post h]
  cases hs : stripComments false post with
  | none => simp [stripComments, closeBlock] at hs
  | some r => rfl

/-- C6. A block comment over several lines.  When a line read outside a block
comment contains `/*`, the lines after it that do not contain `*/` yield no
token and change no bucket, identifier list or symbol table (only the line
counter moves), and a following line that contains `*/` is handled as the
text after its first `*/` is handled outside a block comment: that text is
comment-stripped and tokenized like an ordinary line. -/
theorem blockComment_span (st : State) (opening : Str) (between : List Str)
    (closing pre post : Str) (hout : st.insideComment = false)
    (hopen : "/*".toList <:+: opening)
    (hbetween : ∀ l ∈ between, ¬ "*/".toList <:+: l)
    (hclose : FirstOccurrence "*/".toList pre post closing) :
    (processLine st opening).insideComment = true ∧
    (∀ l ∈ between, lineTokens true l = []) ∧
    (∀ k, k ≤ between.length →
      (between.take k).foldl processLine (processLine st opening) =
        { processLine st opening with lineno := (processLine st opening).lineno + k }) ∧
    lineTokens true closing = lineTokens false post ∧
    processLine (between.foldl processLine (processLine st opening)) closing =
      processLine
        { between.foldl processLine (processLine st opening) with insideComment := false }
        post := by
  have h1 : (processLine st opening).insideComment = true := by
    obtain ⟨p, q, hpq⟩ := exists_firstOccurrence _ (by decide) _ hopen
    have := (processLineWith_frame addUnique st opening).2
    rw [hout, stripComments_open opening p q hpq] at this
    exact this
  refine ⟨h1, ?_, ?_, ?_, ?_⟩
  · intro l hl
    have hs : strstr l "*/".toList = none := (strstr_eq_none_iff _ _).mpr (hbetween l hl)
    simp only [lineTokens, stripComments, closeBlock, hs, if_true]
  · intro k hk
    rw [foldl_processLine_inside _ _ h1
      (fun l hl => hbetween l (List.mem_of_mem_take hl))]
    simp [List.length_take, hk]
  · simp only [lineTokens, stripComments_close closing pre post hclose]
  · have h2 : (between.foldl processLine (processLine st opening)).insideComment = true := by
      rw [foldl_processLine_inside _ _ h1 hbetween]
      exact h1
    exact processLine_close _ closing pre post h2 hclose



/-- An instance of `blockComment_span`: a comment opened on the first line and closed on the third. -/
theorem blockComment_span_witness :
    processLine
        (["still in the comment".toList].foldl processLine
          (processLine State.init "int a; /* start".toList))
        "end */ int b;".toList =
      processLine
        { ["still in the comment".toList].foldl processLine
            (processLine State.init "int a; /* start".toList) with insideComment := false }
        " int b;".toList :=
  (blockComment_span State.init "int a; /* start".toList ["still in the comment".toList]
    "end */ int b;".toList "end ".toList " int b;".toList rfl
    ⟨"int a; ".toList, " start".toList, rfl⟩ (by decide) ⟨rfl, by decide⟩).2.2.2.2

theorem closeBlock_flag (insideComment : Bool) (line adjusted : Str) (flag : Bool)
    (h : closeBlock insideComment line = some (adjusted, flag)) : flag = false := by
  unfold closeBlock at h
  cases insideComment with
  | true =>
    simp only [if_true] at h
    cases hs : strstr line "*/".toList with
    | none => rw [hs] at h; cases h
    | some k => rw [hs] at h; cases h; rfl
  | false =>
    simp only [Bool.false_eq_true, if_false, Option.some.injEq, Prod.mk.injEq] at h
    exact h.2.symm

/-- C7. Once the rest of a block comment that was open at the start of the
line has been removed, a `/*` in the remaining text discards everything from
its first occurrence on, keeps the text before it (which then goes through
line-comment removal and the tokenizer) and leaves the comment state
`inside`, whatever follows the `/*` on the line. -/
theorem blockOpen_discards (insideComment : Bool) (line adjusted : Str) (flag : Bool)
    (pre post : Str) (hadj : closeBlock insideComment line = some (adjusted, flag))
    (hocc : FirstOccurrence "/*".toList pre post adjusted) :
    openBlock adjusted flag = (pre, true) ∧
    stripComments insideComment line = some (cutLineComment pre, true) ∧
    lineTokens insideComment line = tokenizeLine (cutLineComment pre) ∧
    ∀ st : State, st.insideComment = insideComment →
      (processLine st line).insideComment = true := by
  have hs := strstr_of_firstOccurrence _ _ _ _ hocc
  have h1 : openBlock adjusted flag = (pre, true) := by
    simp only [openBlock, hs, firstOccurrence_take hocc]
  have h2 : stripComments insideComment line = some (cutLineComment pre, true) := by
    simp only [stripComments, hadj, h1]
  refine ⟨h1, h2, by simp only [lineTokens, h2], ?_⟩
  intro st hst
  have := (processLineWith_frame addUnique st line).2
  rw [hst, h2] at this
  exact this

/-- An instance of `blockOpen_discards`: the line `int a; /* c */ int b;`, read outside a block comment. -/
theorem blockOpen_discards_witness :
    closeBlock false "int a; /* c */ int b;".toList =
        some ("int a; /* c */ int b;".toList, false) ∧
      stripComments false "int a; /* c */ int b;".toList =
        some (cutLineComment "int a; ".toList, true) ∧
      (processLine State.init "int a; /* c */ int b;".toList).insideComment = true :=
  (fun h => ⟨rfl, h.2.1, h.2.2.2 State.init rfl⟩)
    (blockOpen_discards false "int a; /* c */ int b;".toList "int a; /* c */ int b;".toList
      false "int a; ".toList " c */ int b;".toList rfl ⟨rfl, by decide⟩)

theorem cutAtFirst_of_strstr (needle : Str) (hne : needle ≠ []) (text : Str) :
    CutAtFirst needle text
      (match strstr text needle with
      | some k => text.take k
      | none => text) := by
  cases hs : strstr text needle with
  | none => exact Or.inl ⟨(strstr_eq_none_iff _ _).mp hs, rfl⟩
  | some k => exact Or.inr ⟨_, strstr_eq_some needle hne text k hs⟩

/-- C8. Comment stripping is block stripping followed by line stripping.
With `adjusted` the text left after the removal of the rest of a block comment
open at the start of the line, the text handed to the tokenizer is `adjusted`
cut at its first `/*` and the result of that cut at its first `//`, and the
new comment state is `inside` exactly when `adjusted` contains `/*`, also
when that `/*` comes after a `//`. -/
theorem stripComments_order (insideComment : Bool) (line adjusted : Str) (flag : Bool)
    (hadj : closeBlock insideComment line = some (adjusted, flag)) :
    ∃ (afterBlock text : Str) (inside : Bool),
      CutAtFirst "/*".toList adjusted afterBlock ∧
      CutAtFirst "//".toList afterBlock text ∧
      stripComments insideComment line = some (text, inside) ∧
      (inside = true ↔ "/*".toList <:+: adjusted) := by
  have hflag := closeBlock_flag insideComment line adjusted flag hadj
  subst hflag
  refine ⟨(openBlock adjusted false).1, cutLineComment (openBlock adjusted false).1,
    (openBlock adjusted false).2, ?_, ?_, ?_, ?_⟩
  · have := cutAtFirst_of_strstr "/*".toList (by decide) adjusted
    unfold openBlock
    cases hs : strstr adjusted "/*".toList with
    | none => rw [hs] at this; exact this
    | some k => rw [hs] at this; exact this
  · exact cutAtFirst_of_strstr "//".toList (by decide) _
  · simp only [stripComments, hadj]
  · unfold openBlock
    cases hs : strstr adjusted "/*".toList with
    | none =>
      have := (strstr_eq_none_iff _ _).mp hs
      simpa using this
    | some k =>
      have := firstOccurrence_contains (strstr_eq_some _ (by decide) _ _ hs)
      simpa using this

/-- An instance of `stripComments_order`: the line `x // y /* z`, read outside a block comment. -/
theorem stripComments_order_witness :
    closeBlock false "x // y /* z".toList = some ("x // y /* z".toList, false) ∧
      ∃ (afterBlock text : Str) (inside : Bool),
        CutAtFirst "/*".toList "x // y /* z".toList afterBlock ∧
        CutAtFirst "//".toList afterBlock text ∧
        stripComments false "x // y /* z".toList = some (text, inside) ∧
        (inside = true ↔ "/*".toList <:+: "x // y /* z".toList) :=
  ⟨rfl, stripComments_order false "x // y /* z".toList "x // y /* z".toList false rfl⟩

/-- The line `x // y /* z`, read outside a block comment: the tokenizer gets
`x ` and the comment state becomes `inside`. -/
theorem stripComments_lineComment_then_blockOpen :
    stripComments false "x // y /* z".toList = some ("x ".toList, true) := by
  decide



/-- C9, the claim as written fails: the line `//* note` begins with `//`, but
read outside a block comment it yields the token `/`, which is added to the
operator bucket. -/
theorem lineComment_counterexample :
    "//".toList <+: "//* note".toList ∧
      lineTokens State.init.insideComment "//* note".toList = ["/".toList] ∧
      State.init.operatorsFound = [] ∧
      (processLine State.init "//* note".toList).operatorsFound = ["/".toList] :=
  ⟨⟨"* note".toList, rfl⟩, by decide, rfl, by decide⟩

theorem strstr_slash_slash (rest : Str) : strstr ('/' :: '/' :: rest) "//".toList = some 0 := by
  rw [strstr_cons, if_pos]
  exact List.isPrefixOf_iff_prefix.mpr ⟨rest, rfl⟩

/-- C9, amended.  A line that begins with `//` but not with `//*`, read
outside a block comment, yields no token and leaves every bucket, both
identifier lists and the symbol table as they were: only the line counter
and, when the line contains `/*`, the comment flag change. -/
theorem lineComment_line (st : State) (line : Str) (hout : st.insideComment = false)
    (hbegin : "//".toList <+: line) (hstar : ¬ "//*".toList <+: line) :
    lineTokens st.insideComment line = [] ∧
    processLine st line =
      { st with lineno := st.lineno + 1
                insideComment := (processLine st line).insideComment } ∧
    ((processLine st line).insideComment = true ↔ "/*".toList <:+: line) := by
  obtain ⟨rest, hrest⟩ := hbegin
  subst hrest
  have hopen : "//".toList <+: (openBlock ("//".toList ++ rest) false).1 := by
    have h1 : ¬ "/*".toList.isPrefixOf ('/' :: '/' :: rest) = true := by
      intro h
      obtain ⟨t, ht⟩ := List.isPrefixOf_iff_prefix.mp h
      simp at ht
    have h2 : ¬ "/*".toList.isPrefixOf ('/' :: rest) = true := by
      intro h
      obtain ⟨t, ht⟩ := List.isPrefixOf_iff_prefix.mp h
      apply hstar
      refine ⟨t, ?_⟩
      simp only [String.toList, List.cons_append, List.nil_append, List.cons.injEq,
        true_and] at ht ⊢
      exact ht
    unfold openBlock
    rw [show "//".toList ++ rest = '/' :: '/' :: rest from rfl, strstr_cons, if_neg h1,
      strstr_cons, if_neg h2]
    cases hs : strstr rest "/*".toList with
    | none => exact ⟨rest, rfl⟩
    | some k => exact ⟨rest.take k, rfl⟩
  have hstrip : stripComments false ("//".toList ++ rest) =
      some ([], (openBlock ("//".toList ++ rest) false).2) := by
    obtain ⟨r, hr⟩ := hopen
    simp only [stripComments, closeBlock, Bool.false_eq_true, if_false]
    rw [← hr]
    unfold cutLineComment
    rw [show "//".toList ++ r = '/' :: '/' :: r from rfl, strstr_slash_slash]
    rfl
  have hflag : (processLine st ("//".toList ++ rest)).insideComment =
      (openBlock ("//".toList ++ rest) false).2 := by
    have := (processLineWith_frame addUnique st ("//".toList ++ rest)).2
    rw [hout, hstrip] at this
    exact this
  rw [hout]
  refine ⟨by simp only [lineTokens, hstrip]; rfl, ?_, ?_⟩
  · unfold processLine processLineWith
    dsimp only
    rw [hout, hstrip]
    rfl
  · rw [hflag]
    unfold openBlock
    cases hs : strstr ("//".toList ++ rest) "/*".toList with
    | none =>
      have := (strstr_eq_none_iff _ _).mp hs
      simpa using this
    | some k =>
      have := firstOccurrence_contains (strstr_eq_some _ (by decide) _ _ hs)
      simpa using this

/-- An instance of `lineComment_line`: the line `// comment text`. -/
theorem lineComment_line_witness :
    lineTokens State.init.insideComment "// comment text".toList = [] ∧
    processLine State.init "// comment text".toList =
      { State.init with
        lineno := State.init.lineno + 1
        insideComment := (processLine State.init "// comment text".toList).insideComment } ∧
    ((processLine State.init "// comment text".toList).insideComment = true ↔
      "/*".toList <:+: "// comment text".toList) :=
  lineComment_line State.init "// comment text".toList rfl ⟨" comment text".toList, rfl⟩
    (by decide)

/-! ## Function declarations -/

theorem ite_sameDeclarations {c : Prop} [Decidable c] {st a b : State}
    (ha : SameDeclarations st a) (hb : SameDeclarations st b) :
    SameDeclarations st (if c then a else b) := by
  split_ifs <;> assumption

theorem categorizeTokenWith_sameDeclarations (ins : List Str → Str → List Str) (st : State)
    (token : Str) : SameDeclarations st (categorizeTokenWith ins st token) := by
  unfold categorizeTokenWith
  repeat' apply ite_sameDeclarations
  all_goals exact ⟨rfl, rfl, rfl⟩

theorem foldl_categorizeTokenWith_sameDeclarations (ins : List Str → Str → List Str)
    (tokens : List Str) : ∀ st : State,
      SameDeclarations st (tokens.foldl (categorizeTokenWith ins) st) := by
  induction tokens with
  | nil => intro st; exact ⟨rfl, rfl, rfl⟩
  | cons t rest ih =>
    intro st
    have h1 := categorizeTokenWith_sameDeclarations ins st t
    have h2 := ih (categorizeTokenWith ins st t)
    exact ⟨h2.1.trans h1.1, h2.2.1.trans h1.2.1, h2.2.2.trans h1.2.2⟩

theorem isValidIdentifier_Advanced_length (s : Str) (h : isValidIdentifier_Advanced s = true) :
    8 ≤ s.length ∧ s.length ≤ 14 := by
  rw [isValidIdentifier_Advanced_eq] at h
  simp only [Bool.and_eq_true, decide_eq_true_eq] at h
  exact h.1.1.1.1.1

theorem addToSymbolTable_distinctNames (table : List Symbol) (type name value : Str)
    (line : Nat) (hname : name.length < 100) (h : DistinctNames table) :
    DistinctNames (addToSymbolTable table type name value line) := by
  unfold addToSymbolTable
  cases hin : alreadyInSymbolTable table name with
  | true => simpa using h
  | false =>
    simp only [Bool.not_false, if_true]
    unfold DistinctNames at *
    rw [List.map_append, List.nodup_append]
    refine ⟨h, by simp, ?_⟩
    simp only [List.map_cons, List.map_nil, List.disjoint_singleton, List.mem_map, not_exists,
      not_and]
    intro s hs hsn
    simp only [alreadyInSymbolTable, List.any_eq_false, beq_iff_eq] at hin
    apply hin s hs
    rw [hsn, List.take_of_length_le (by omega)]

theorem intercalate_cons (sep t : Str) (ts : List Str) :
    sep.intercalate (t :: ts) = t ++ (ts.map (fun u => sep ++ u)).flatten := by
  induction ts generalizing t with
  | nil => simp [List.intercalate]
  | cons u us ih =>
    have := ih u
    simp only [List.intercalate, List.intersperse, List.flatten_cons, List.map_cons] at this ⊢
    rw [this]
    simp

theorem scanDataTypes_run (types : List Str) (htypes : ∀ t ∈ types, isDataTypeToken t = true) :
    ∀ (tail : List Str) (i len : Nat) (buf : Str), 0 < len →
      scanDataTypes (types ++ tail) i len buf =
        scanDataTypes tail (i + types.length) (len + types.length)
          (buf ++ (types.map (fun t => [' '] ++ t)).flatten) := by
  induction types with
  | nil => intro tail i len buf _; simp
  | cons t ts ih =>
    intro tail i len buf hlen
    have ht := htypes t (by simp)
    rw [List.cons_append, scanDataTypes, if_pos ht, if_pos (by simpa using hlen),
      ih (fun u hu => htypes u (by simp [hu])) tail (i + 1) (len + 1) _ (by omega)]
    simp [Nat.add_assoc, Nat.add_comm 1]

/-- The scan of lines 380-396 on a line that starts with data-type keywords,
followed by another token and an opening parenthesis. -/
theorem scanDataTypes_function (types : List Str) (n : Str) (rest : List Str)
    (hne : types ≠ []) (htypes : ∀ t ∈ types, isDataTypeToken t = true)
    (hn : isDataTypeToken n = false) :
    scanDataTypes (types ++ n :: ['('] :: rest) 0 0 [] =
      { i := types.length, dataTypeTokensLen := types.length,
        dataTypeBuffer := [' '].intercalate types, isFunctionDecl := true } := by
  match types, hne, htypes with
  | t :: ts, _, htypes =>
    have ht := htypes t (by simp)
    rw [List.cons_append, scanDataTypes, if_pos ht,
      scanDataTypes_run ts (fun u hu => htypes u (by simp [hu])) _ _ _ _ (by omega),
      scanDataTypes, if_neg (by simp [hn]), if_pos (by simp), intercalate_cons]
    simp [Nat.add_comm]

theorem declarationStepWith_distinctNames (ins : List Str → Str → List Str) (fullType : Str)
    (lineno : Nat) (tok : Str) (rest : List Str) (st : State) (next : List Str × State)
    (h : declarationStepWith ins fullType lineno tok rest st = some next)
    (hd : DistinctNames st.symbolTable) : DistinctNames next.2.symbolTable := by
  unfold declarationStepWith at h
  by_cases h1 : (tok == [',']) = true
  · rw [if_pos h1] at h; cases h; exact hd
  · rw [if_neg h1] at h
    by_cases h2 : (tok == [';']) = true
    · rw [if_pos h2] at h; cases h
    · rw [if_neg h2] at h
      by_cases h3 : isValidIdentifier_Advanced tok = true
      · rw [if_pos h3] at h
        cases h
        have := isValidIdentifier_Advanced_length tok h3
        exact addToSymbolTable_distinctNames _ _ _ _ _ (by omega) hd
      · rw [if_neg h3] at h
        cases h
        dsimp only
        split_ifs
        · exact hd
        · exact hd

theorem processDeclarationTokensWith_distinctNames (ins : List Str → Str → List Str)
    (fullType : Str) (lineno n : Nat) : ∀ (tokens : List Str) (st : State),
      tokens.length ≤ n → DistinctNames st.symbolTable →
        DistinctNames (processDeclarationTokensWith ins fullType lineno tokens st).symbolTable := by
  induction n with
  | zero =>
    intro tokens st h hd
    have : tokens = [] := List.length_eq_zero.mp (by omega)
    subst this
    exact hd
  | succ n ih =>
    intro tokens st h hd
    match tokens, h with
    | [], _ => exact hd
    | tok :: rest, h =>
      simp only [List.length_cons] at h
      rw [processDeclarationTokensWith_cons]
      cases hs : declarationStepWith ins fullType lineno tok rest st with
      | none => exact hd
      | some next =>
        have hle := declarationStepWith_length_le _ _ _ _ _ _ _ hs
        exact ih next.1 next.2 (by omega)
          (declarationStepWith_distinctNames _ _ _ _ _ _ _ hs hd)

theorem processDeclarationsWith_distinctNames (ins : List Str → Str → List Str)
    (tokens : List Str) (st : State) (hd : DistinctNames st.symbolTable) :
    DistinctNames (processDeclarationsWith ins tokens st).symbolTable := by
  unfold processDeclarationsWith
  dsimp only
  split_ifs with h1 h2 h3
  · have := isValidIdentifier_Advanced_length _ h3
    exact addToSymbolTable_distinctNames _ _ _ _ _ (by omega) hd
  · exact hd
  · exact processDeclarationTokensWith_distinctNames _ _ _ _ _ _ (le_refl _) hd
  · exact hd

theorem processLineWith_distinctNames (ins : List Str → Str → List Str) (st : State)
    (line : Str) (hd : DistinctNames st.symbolTable) :
    DistinctNames (processLineWith ins st line).symbolTable := by
  unfold processLineWith
  dsimp only
  cases hs : stripComments st.insideComment line with
  | none => exact hd
  | some r =>
    obtain ⟨text, inside⟩ := r
    dsimp only
    split_ifs
    · exact hd
    · rw [(foldl_categorizeTokenWith_sameDeclarations ins _ _).1]
      exact processDeclarationsWith_distinctNames ins _ _ hd

theorem foldl_processLine_distinctNames (lines : List Str) : ∀ st : State,
    DistinctNames st.symbolTable → DistinctNames (lines.foldl processLine st).symbolTable := by
  induction lines with
  | nil => intro st h; exact h
  | cons l ls ih =>
    intro st h
    exact ih _ (processLineWith_distinctNames addUnique st l h)

/-- In every state that `processFile` reaches, the names of the records of
the symbol table are pairwise distinct. -/
theorem processFile_distinctNames (lines : List Str) :
    DistinctNames (processFile lines).symbolTable :=
  foldl_processLine_distinctNames lines State.init (by simp [DistinctNames, State.init])

theorem foldl_processLine_lineno (lines : List Str) : ∀ st : State,
    (lines.foldl processLine st).lineno = st.lineno + lines.length := by
  induction lines with
  | nil => intro st; rfl
  | cons l ls ih =>
    intro st
    rw [List.foldl_cons, ih, processLine, (processLineWith_frame addUnique st l).1,
      List.length_cons]
    omega

/-- The line counter after `processFile` has read some lines. -/
theorem processFile_lineno (lines : List Str) : (processFile lines).lineno = lines.length := by
  unfold processFile
  rw [foldl_processLine_lineno]
  simp [State.init]

theorem mem_addUnique (bucket : List Str) (lexeme : Str) : lexeme ∈ addUnique bucket lexeme := by
  unfold addUnique
  split_ifs with h
  · simpa using h
  · simp

theorem filter_name_of_distinct (table : List Symbol) (name : Str)
    (hd : DistinctNames table) (hin : alreadyInSymbolTable table name = true) :
    (table.filter (fun s => s.name == name)).length = 1 := by
  induction table with
  | nil => simp [alreadyInSymbolTable] at hin
  | cons s rest ih =>
    unfold DistinctNames at hd ih
    simp only [List.map_cons, List.nodup_cons, List.mem_map, not_exists, not_and] at hd
    by_cases hs : s.name = name
    · have hrest : alreadyInSymbolTable rest name = false := by
        simp only [alreadyInSymbolTable, List.any_eq_false, beq_iff_eq]
        intro x hx hxn
        exact hd.1 x hx (hxn.trans hs.symm)
      simp [List.filter_cons, hs, filter_name_eq_nil rest name hrest]
    · have hrest : alreadyInSymbolTable rest name = true := by
        simpa [alreadyInSymbolTable, hs] using hin
      simp [List.filter_cons, hs, ih hd.2 hrest]

/-- The declaration data after a line that yields tokens are those the
declaration part of the loop body computes from the tokens. -/
theorem processLine_declarations (st : State) (line : Str) (tokens : List Str)
    (htok : lineTokens st.insideComment line = tokens) (hne : tokens ≠ []) :
    ∃ inside : Bool,
      SameDeclarations
        (processDeclarationsWith addUnique tokens
          { st with lineno := st.lineno + 1, insideComment := inside })
        (processLine st line) := by
  unfold lineTokens at htok
  unfold processLine processLineWith
  dsimp only
  cases hs : stripComments st.insideComment line with
  | none =>
    rw [hs] at htok
    exact absurd htok.symm hne
  | some r =>
    obtain ⟨text, inside⟩ := r
    rw [hs] at htok
    dsimp only at htok ⊢
    refine ⟨inside, ?_⟩
    rw [htok, if_neg (by simpa using hne)]
    exact foldl_categorizeTokenWith_sameDeclarations addUnique _ _

/-- The declaration part of the loop body on tokens that are data-type
keywords, then a token that is not one, then `(`. -/
theorem processDeclarationsWith_function (ins : List Str → Str → List Str) (st : State)
    (types : List Str) (n : Str) (rest : List Str) (hne : types ≠ [])
    (htypes : ∀ t ∈ types, isDataTypeToken t = true) (hn : isDataTypeToken n = false) :
    processDeclarationsWith ins (types ++ n :: ['('] :: rest) st =
      if isValidIdentifier_Advanced n then
        { st with
          validIdentifiers := ins st.validIdentifiers n
          symbolTable :=
            addToSymbolTable st.symbolTable ([' '].intercalate types) n ['-'] st.lineno }
      else { st with invalidIdentifiers := ins st.invalidIdentifiers n } := by
  unfold processDeclarationsWith
  dsimp only
  rw [scanDataTypes_function types n rest hne htypes hn]
  have hlen : 0 < types.length := List.length_pos.mpr hne
  have hget : (types ++ n :: ['('] :: rest).getD types.length [] = n := by
    rw [List.getD_eq_getElem?_getD, List.getElem?_append_right (le_refl _)]
    simp
  dsimp only
  rw [if_pos (by simp; omega), if_pos rfl, hget]

/-- C10, the claim as written fails: the tokens of `unsigned int (*fp)(void);`
are the data-type keyword `unsigned`, then the token `int`, then `(`, and
`int` is not a valid identifier; but the line is not handled as a function
declaration, and `int` is not put into `invalidIdentifiers`. -/
theorem functionDeclaration_counterexample :
    lineTokens State.init.insideComment "unsigned int (*fp)(void);".toList =
        ["unsigned".toList] ++ "int".toList :: ['('] ::
          ["*", "fp", ")", "(", "void", ")", ";"].map String.toList ∧
      isDataTypeToken "unsigned".toList = true ∧
      isValidIdentifier_Advanced "int".toList = false ∧
      (processLine State.init "unsigned int (*fp)(void);".toList).invalidIdentifiers =
        ["fp".toList] ∧
      "int".toList ∉
        (processLine State.init "unsigned int (*fp)(void);".toList).invalidIdentifiers := by
  decide

/-- C10, amended.  Let `processFile` have read the lines `before`, and let the
tokens of the next line be one or more data-type keywords, then a token `n`
that is not a data-type keyword, then `(`, the keywords joined by single
spaces being shorter than 100 characters.  The line is handled as a function
declaration.  If `n` is a valid identifier, it is added to `validIdentifiers`
(when absent), `invalidIdentifiers` stays as it was and the symbol table has
exactly one record named `n`: when `n` was not in the table, the new last
record, with the joined keywords as type, `-` as value and the number of the
line; otherwise the table is unchanged.  If `n` is not valid, it is added to
`invalidIdentifiers` (when absent), and `validIdentifiers` and the symbol
table stay as they were. -/
theorem functionDeclaration_line (before : List Str) (line : Str) (types : List Str)
    (n : Str) (rest : List Str)
    (htok : lineTokens (processFile before).insideComment line = types ++ n :: ['('] :: rest)
    (hne : types ≠ []) (htypes : ∀ t ∈ types, isDataTypeToken t = true)
    (hn : isDataTypeToken n = false) (hcap : ([' '].intercalate types).length < 100) :
    (isValidIdentifier_Advanced n = true →
      (processLine (processFile before) line).validIdentifiers =
          addUnique (processFile before).validIdentifiers n ∧
        n ∈ (processLine (processFile before) line).validIdentifiers ∧
        (processLine (processFile before) line).invalidIdentifiers =
          (processFile before).invalidIdentifiers ∧
        ((processLine (processFile before) line).symbolTable.filter
          (fun s => s.name == n)).length = 1 ∧
        (alreadyInSymbolTable (processFile before).symbolTable n = false →
          (processLine (processFile before) line).symbolTable =
            (processFile before).symbolTable ++
              [⟨n, [' '].intercalate types, ['-'], before.length + 1⟩]) ∧
        (alreadyInSymbolTable (processFile before).symbolTable n = true →
          (processLine (processFile before) line).symbolTable =
            (processFile before).symbolTable)) ∧
    (isValidIdentifier_Advanced n = false →
      (processLine (processFile before) line).invalidIdentifiers =
          addUnique (processFile before).invalidIdentifiers n ∧
        n ∈ (processLine (processFile before) line).invalidIdentifiers ∧
        (processLine (processFile before) line).validIdentifiers =
          (processFile before).validIdentifiers ∧
        (processLine (processFile before) line).symbolTable =
          (processFile before).symbolTable) := by
  obtain ⟨inside, hsame⟩ := processLine_declarations (processFile before) line _ htok (by simp)
  rw [processDeclarationsWith_function addUnique _ types n rest hne htypes hn] at hsame
  have hdist := processFile_distinctNames before
  have hno := processFile_lineno before
  generalize processFile before = st at *
  generalize processLine st line = st1 at *
  constructor
  · intro hv
    rw [if_pos hv] at hsame
    obtain ⟨h1, h2, h3⟩ := hsame
    dsimp only at h1 h2 h3
    have hlen := isValidIdentifier_Advanced_length n hv
    have hadd := addToSymbolTable_result st.symbolTable n ([' '].intercalate types) ['-']
      (st.lineno + 1) (by omega)
    refine ⟨h2, by rw [h2]; exact mem_addUnique _ _, h3, ?_, ?_, ?_⟩
    · rw [h1]
      cases hin : alreadyInSymbolTable st.symbolTable n with
      | true =>
        rw [hadd.2 hin]
        exact filter_name_of_distinct _ _ hdist hin
      | false =>
        rw [(hadd.1 hin).2.1]
        rfl
    · intro hin
      rw [h1, (hadd.1 hin).2.2 hcap (by simp), hno]
    · intro hin
      rw [h1, hadd.2 hin]
  · intro hv
    rw [if_neg (by simp [hv])] at hsame
    obtain ⟨h1, h2, h3⟩ := hsame
    exact ⟨h3, by rw [h3]; exact mem_addUnique _ _, h2, h1⟩

/-- An instance of `functionDeclaration_line`: the line `void tokyo23@r();` as the first line of the file. -/
theorem functionDeclaration_line_witness :
    (processLine (processFile []) "void tokyo23@r();".toList).validIdentifiers =
        ["tokyo23@r".toList] ∧
      (processLine (processFile []) "void tokyo23@r();".toList).symbolTable =
        [⟨"tokyo23@r".toList, "void".toList, "-".toList, 1⟩] :=
  (fun h => ⟨h.1, h.2.2.2.2.1 rfl⟩)
    ((functionDeclaration_line [] "void tokyo23@r();".toList ["void".toList]
      "tokyo23@r".toList [")".toList, ";".toList] (by decide) (by decide) (by decide)
      (by decide) (by decide)).1 (by decide))

/-! ## The length pre-check -/

theorem isValidIdentifier_Advanced_unfold (s : Str) :
    isValidIdentifier_Advanced s =
      if s.length < 8 || s.length > 14 then false else isValidIdentifier_withoutPrecheck s :=
  rfl

theorem isValidIdentifier_withoutPrecheck_eq (s : Str) :
    isValidIdentifier_withoutPrecheck s =
      (noTripleRunB ((afterLead s).takeWhile islower) &&
        decide (4 ≤ ((afterLead s).takeWhile islower).length ∧
          ((afterLead s).takeWhile islower).length ≤ 7) &&
        noTripleRunB (((afterLead s).dropWhile islower).takeWhile isdigit) &&
        decide (2 ≤ (((afterLead s).dropWhile islower).takeWhile isdigit).length ∧
          (((afterLead s).dropWhile islower).takeWhile isdigit).length ≤ 4) &&
        decide (((afterLead s).dropWhile islower).dropWhile isdigit = ['@', 'r'])) := by
  unfold isValidIdentifier_withoutPrecheck afterLead
  dsimp only
  generalize (if (charAt s 0 == '#' || charAt s 0 == '@' || charAt s 0 == '!') = true
    then List.drop 1 s else s) = a
  simp only [scanRun_zero]
  cases hL : noTripleRunB (a.takeWhile islower) with
  | false => simp
  | true =>
    simp only [if_true, Bool.true_and]
    by_cases h2 : (a.takeWhile islower).length < 4 ∨ (a.takeWhile islower).length > 7
    · have : ¬ (4 ≤ (a.takeWhile islower).length ∧ (a.takeWhile islower).length ≤ 7) := by
        omega
      simp [h2, this]
    · have h2' : 4 ≤ (a.takeWhile islower).length ∧ (a.takeWhile islower).length ≤ 7 := by
        omega
      simp only [Bool.or_eq_true, decide_eq_true_eq, h2, if_false, h2', and_self, decide_True,
        Bool.true_and]
      cases hD : noTripleRunB ((a.dropWhile islower).takeWhile isdigit) with
      | false => simp
      | true =>
        simp only [if_true, Bool.true_and]
        generalize (a.dropWhile islower).takeWhile isdigit = D
        generalize (a.dropWhile islower).dropWhile isdigit = r
        by_cases h3 : D.length < 2 ∨ D.length > 4
        · have : ¬ (2 ≤ D.length ∧ D.length ≤ 4) := by omega
          simp [h3, this]
        · have h3' : 2 ≤ D.length ∧ D.length ≤ 4 := by omega
          simp only [h3, if_false, h3', and_self, decide_True, Bool.true_and]
          match r with
          | [] => simp
          | [x] => simp
          | [x, y] => simp
          | x :: y :: z :: t => simp

theorem afterLead_length (s : Str) :
    s.length = (afterLead s).length ∨ s.length = (afterLead s).length + 1 := by
  unfold afterLead
  split_ifs with h
  · cases s with
    | nil => simp [charAt] at h
    | cons c t => right; simp
  · left; rfl

theorem isValidIdentifier_withoutPrecheck_length (s : Str)
    (h : isValidIdentifier_withoutPrecheck s = true) : 8 ≤ s.length ∧ s.length ≤ 14 := by
  rw [isValidIdentifier_withoutPrecheck_eq] at h
  simp only [Bool.and_eq_true, decide_eq_true_eq] at h
  obtain ⟨⟨⟨⟨-, hL⟩, -⟩, hD⟩, hr⟩ := h
  have h1 : (afterLead s).length =
      ((afterLead s).takeWhile islower).length +
        ((((afterLead s).dropWhile islower).takeWhile isdigit).length + 2) := by
    conv_lhs => rw [← List.takeWhile_append_dropWhile islower (afterLead s)]
    conv_lhs =>
      rw [← List.takeWhile_append_dropWhile isdigit ((afterLead s).dropWhile islower), hr]
    simp
  rcases afterLead_length s with h2 | h2 <;> omega

/-- C16. The length pre-check of line 108 changes no verdict: the validator
without it returns what `isValidIdentifier_Advanced` returns, for every
string; put differently, a string that passes the checks of the leading
character, the letters, the digits and the ending `@r` has between 8 and 14
characters. -/
theorem isValidIdentifier_precheck_redundant (s : Str) :
    isValidIdentifier_withoutPrecheck s = isValidIdentifier_Advanced s ∧
    (isValidIdentifier_withoutPrecheck s = true → 8 ≤ s.length ∧ s.length ≤ 14) := by
  refine ⟨?_, isValidIdentifier_withoutPrecheck_length s⟩
  rw [isValidIdentifier_Advanced_unfold]
  cases h : isValidIdentifier_withoutPrecheck s with
  | false => simp
  | true =>
    have := isValidIdentifier_withoutPrecheck_length s h
    have hn : ¬ (s.length < 8 ∨ s.length > 14) := by omega
    simp [hn]

/-- An instance of `isValidIdentifier_precheck_redundant`: the name
`tokyo23@r`, of 9 characters. -/
theorem isValidIdentifier_precheck_redundant_witness :
    isValidIdentifier_withoutPrecheck "tokyo23@r".toList = true ∧
      8 ≤ "tokyo23@r".toList.length ∧ "tokyo23@r".toList.length ≤ 14 :=
  ⟨by decide, (isValidIdentifier_precheck_redundant "tokyo23@r".toList).2 (by decide)⟩

/-! ## Declarations as sequences of recordings -/

theorem declarationStepWith_events (ins : List Str → Str → List Str) (fullType : Str)
    (lineno : Nat) (tok : Str) (rest : List Str) (st : State) (next : List Str × State)
    (h : declarationStepWith ins fullType lineno tok rest st = some next) :
    ∃ events : List DeclEvent, (∀ e ∈ events, e.Agrees) ∧
      next.2 = events.foldl (DeclEvent.apply ins fullType lineno) st := by
  unfold declarationStepWith at h
  by_cases h1 : (tok == [',']) = true
  · rw [if_pos h1] at h; cases h; exact ⟨[], by simp, rfl⟩
  · rw [if_neg h1] at h
    by_cases h2 : (tok == [';']) = true
    · rw [if_pos h2] at h; cases h
    · rw [if_neg h2] at h
      by_cases h3 : isValidIdentifier_Advanced tok = true
      · rw [if_pos h3] at h
        cases h
        exact ⟨[DeclEvent.valid tok _], by simpa [DeclEvent.Agrees] using h3, rfl⟩
      · rw [if_neg h3] at h
        cases h
        dsimp only
        split_ifs
        · exact ⟨[DeclEvent.invalid tok], by simpa [DeclEvent.Agrees] using h3, rfl⟩
        · exact ⟨[], by simp, rfl⟩

theorem processDeclarationTokensWith_events (ins : List Str → Str → List Str)
    (fullType : Str) (lineno n : Nat) : ∀ (tokens : List Str) (st : State),
      tokens.length ≤ n →
        ∃ events : List DeclEvent, (∀ e ∈ events, e.Agrees) ∧
          processDeclarationTokensWith ins fullType lineno tokens st =
            events.foldl (DeclEvent.apply ins fullType lineno) st := by
  induction n with
  | zero =>
    intro tokens st h
    have : tokens = [] := List.length_eq_zero.mp (by omega)
    subst this
    exact ⟨[], by simp, rfl⟩
  | succ n ih =>
    intro tokens st h
    match tokens, h with
    | [], _ => exact ⟨[], by simp, rfl⟩
    | tok :: rest, h =>
      simp only [List.length_cons] at h
      rw [processDeclarationTokensWith_cons]
      cases hs : declarationStepWith ins fullType lineno tok rest st with
      | none => exact ⟨[], by simp, rfl⟩
      | some next =>
        have hle := declarationStepWith_length_le _ _ _ _ _ _ _ hs
        obtain ⟨ev1, hw1, he1⟩ := declarationStepWith_events _ _ _ _ _ _ _ hs
        obtain ⟨ev2, hw2, he2⟩ := ih next.1 next.2 (by omega)
        refine ⟨ev1 ++ ev2, ?_, ?_⟩
        · intro e he
          rcases List.mem_append.mp he with h | h
          · exact hw1 e h
          · exact hw2 e h
        · rw [List.foldl_append, ← he1]
          exact he2

/-- The declaration part of the loop body is a sequence of recordings that
agree with the validator, all with the type text of the scan of lines
380-396 and with the current line number. -/
theorem processDeclarationsWith_events (ins : List Str → Str → List Str)
    (tokens : List Str) (st : State) :
    ∃ events : List DeclEvent, (∀ e ∈ events, e.Agrees) ∧
      processDeclarationsWith ins tokens st =
        events.foldl
          (DeclEvent.apply ins (scanDataTypes tokens 0 0 []).dataTypeBuffer st.lineno) st := by
  unfold processDeclarationsWith
  dsimp only
  split_ifs with h1 h2 h3
  · exact ⟨[DeclEvent.valid _ _], by simpa [DeclEvent.Agrees] using h3, rfl⟩
  · exact ⟨[DeclEvent.invalid _], by simpa [DeclEvent.Agrees] using h3, rfl⟩
  · exact processDeclarationTokensWith_events _ _ _ _ _ _ (le_refl _)
  · exact ⟨[], by simp, rfl⟩

theorem sameDeclarations_refl (st : State) : SameDeclarations st st := ⟨rfl, rfl, rfl⟩

theorem sameDeclarations_trans {a b c : State} (h1 : SameDeclarations a b)
    (h2 : SameDeclarations b c) : SameDeclarations a c :=
  ⟨h2.1.trans h1.1, h2.2.1.trans h1.2.1, h2.2.2.trans h1.2.2⟩

theorem sameDeclarations_apply (ins : List Str → Str → List Str) (fullType : Str)
    (lineno : Nat) (e : DeclEvent) {a b : State} (h : SameDeclarations a b) :
    SameDeclarations (e.apply ins fullType lineno a) (e.apply ins fullType lineno b) := by
  obtain ⟨h1, h2, h3⟩ := h
  cases e with
  | valid name value => exact ⟨by simp only [DeclEvent.apply, h1], by simp only [DeclEvent.apply, h2], h3⟩
  | invalid name => exact ⟨h1, h2, by simp only [DeclEvent.apply, h3]⟩

theorem sameDeclarations_foldl (ins : List Str → Str → List Str) (fullType : Str)
    (lineno : Nat) (events : List DeclEvent) : ∀ {a b : State}, SameDeclarations a b →
      SameDeclarations (events.foldl (DeclEvent.apply ins fullType lineno) a)
        (events.foldl (DeclEvent.apply ins fullType lineno) b) := by
  induction events with
  | nil => intro a b h; exact h
  | cons e es ih =>
    intro a b h
    exact ih (sameDeclarations_apply ins fullType lineno e h)

/-- The declaration data after a line: those before it, changed by a sequence
of recordings that agree with the validator, all with the type text scanned
from the tokens of the line and with the number of the line. -/
theorem processLine_events (st : State) (line : Str) :
    ∃ events : List DeclEvent, (∀ e ∈ events, e.Agrees) ∧
      SameDeclarations
        (events.foldl
          (DeclEvent.apply addUnique
            (scanDataTypes (lineTokens st.insideComment line) 0 0 []).dataTypeBuffer
            (st.lineno + 1)) st)
        (processLine st line) := by
  unfold processLine processLineWith lineTokens
  dsimp only
  cases hs : stripComments st.insideComment line with
  | none => exact ⟨[], by simp, ⟨rfl, rfl, rfl⟩⟩
  | some r =>
    obtain ⟨text, inside⟩ := r
    dsimp only
    split_ifs with h0
    · exact ⟨[], by simp, ⟨rfl, rfl, rfl⟩⟩
    · obtain ⟨events, hw, he⟩ := processDeclarationsWith_events addUnique (tokenizeLine text)
        { st with lineno := st.lineno + 1, insideComment := inside }
      refine ⟨events, hw, ?_⟩
      refine sameDeclarations_trans ?_
        (foldl_categorizeTokenWith_sameDeclarations addUnique _ _)
      rw [he]
      exact sameDeclarations_foldl _ _ _ _ ⟨rfl, rfl, rfl⟩

/-! ## Invariants of the identifier lists and of the symbol table -/

theorem mem_addUnique_iff (bucket : List Str) (lexeme x : Str) :
    x ∈ addUnique bucket lexeme ↔ x ∈ bucket ∨ x = lexeme := by
  unfold addUnique
  split_ifs with h
  · constructor
    · exact Or.inl
    · rintro (h1 | rfl)
      · exact h1
      · simpa using h
  · simp

theorem addUnique_extends (bucket : List Str) (lexeme : Str) :
    bucket <+: addUnique bucket lexeme := by
  unfold addUnique
  split_ifs
  · exact List.prefix_refl _
  · exact List.prefix_append _ _

theorem addToSymbolTable_extends (table : List Symbol) (type name value : Str) (line : Nat) :
    table <+: addToSymbolTable table type name value line := by
  unfold addToSymbolTable
  split_ifs
  · exact List.prefix_append _ _
  · exact List.prefix_refl _

theorem extends_refl (st : State) : Extends st st :=
  ⟨List.prefix_refl _, List.prefix_refl _, List.prefix_refl _⟩

theorem extends_trans {a b c : State} (h1 : Extends a b) (h2 : Extends b c) : Extends a c :=
  ⟨h1.1.trans h2.1, h1.2.1.trans h2.2.1, h1.2.2.trans h2.2.2⟩

theorem apply_extends (fullType : Str) (lineno : Nat) (e : DeclEvent) (st : State) :
    Extends st (e.apply addUnique fullType lineno st) := by
  cases e with
  | valid name value =>
    exact ⟨addUnique_extends _ _, List.prefix_refl _, addToSymbolTable_extends _ _ _ _ _⟩
  | invalid name => exact ⟨List.prefix_refl _, addUnique_extends _ _, List.prefix_refl _⟩

theorem apply_verdictsAgree (fullType : Str) (lineno : Nat) (e : DeclEvent) (he : e.Agrees)
    (st : State) (h : VerdictsAgree st) :
    VerdictsAgree (e.apply addUnique fullType lineno st) := by
  cases e with
  | valid name value =>
    refine ⟨?_, h.2⟩
    intro x hx
    rcases (mem_addUnique_iff _ _ _).mp hx with h1 | rfl
    · exact h.1 x h1
    · exact he
  | invalid name =>
    refine ⟨h.1, ?_⟩
    intro x hx
    rcases (mem_addUnique_iff _ _ _).mp hx with h1 | rfl
    · exact h.2 x h1
    · exact he

theorem foldl_apply_invariants (fullType : Str) (lineno : Nat) (events : List DeclEvent) :
    ∀ st : State, (∀ e ∈ events, e.Agrees) →
      Extends st (events.foldl (DeclEvent.apply addUnique fullType lineno) st) ∧
      (VerdictsAgree st →
        VerdictsAgree (events.foldl (DeclEvent.apply addUnique fullType lineno) st)) := by
  induction events with
  | nil => intro st _; exact ⟨extends_refl st, id⟩
  | cons e es ih =>
    intro st hw
    obtain ⟨h1, h2⟩ := ih (e.apply addUnique fullType lineno st)
      (fun x hx => hw x (by simp [hx]))
    exact ⟨extends_trans (apply_extends _ _ e st) h1,
      fun hv => h2 (apply_verdictsAgree _ _ e (hw e (by simp)) st hv)⟩

/-- A line only extends the identifier lists and the symbol table, and it
keeps the lists in agreement with the validator. -/
theorem processLine_invariants (st : State) (line : Str) :
    Extends st (processLine st line) ∧
      (VerdictsAgree st → VerdictsAgree (processLine st line)) := by
  obtain ⟨events, hw, h1, h2, h3⟩ := processLine_events st line
  obtain ⟨hext, hv⟩ := foldl_apply_invariants
    (scanDataTypes (lineTokens st.insideComment line) 0 0 []).dataTypeBuffer (st.lineno + 1)
    events st hw
  constructor
  · unfold Extends
    rw [h1, h2, h3]
    exact hext
  · intro h
    unfold VerdictsAgree
    rw [h2, h3]
    exact hv h

theorem foldl_processLine_verdictsAgree (lines : List Str) : ∀ st : State,
    VerdictsAgree st → VerdictsAgree (lines.foldl processLine st) := by
  induction lines with
  | nil => intro st h; exact h
  | cons l ls ih =>
    intro st h
    exact ih _ ((processLine_invariants st l).2 h)

/-- In every state that `processFile` reaches the two identifier lists agree
with the validator. -/
theorem processFile_verdictsAgree (lines : List Str) : VerdictsAgree (processFile lines) :=
  foldl_processLine_verdictsAgree lines State.init
    ⟨by simp [State.init], by simp [State.init]⟩

/-- C14. In every state reached by processing lines from empty accumulators,
every name in `validIdentifiers` is accepted by `isValidIdentifier_Advanced`,
every name in `invalidIdentifiers` is rejected by it and no name is in both
lists; and one more line only appends to the two lists: each list before the
line is, unchanged and in place, the start of the list after it. -/
theorem identifierLists_invariant (lines : List Str) (line : Str) :
    (∀ name ∈ (processFile lines).validIdentifiers, isValidIdentifier_Advanced name = true) ∧
    (∀ name ∈ (processFile lines).invalidIdentifiers,
      isValidIdentifier_Advanced name = false) ∧
    (∀ name ∈ (processFile lines).validIdentifiers,
      name ∉ (processFile lines).invalidIdentifiers) ∧
    (processFile lines).validIdentifiers <+:
      (processLine (processFile lines) line).validIdentifiers ∧
    (processFile lines).invalidIdentifiers <+:
      (processLine (processFile lines) line).invalidIdentifiers := by
  obtain ⟨hv, hi⟩ := processFile_verdictsAgree lines
  obtain ⟨h1, h2, -⟩ := (processLine_invariants (processFile lines) line).1
  refine ⟨hv, hi, ?_, h1, h2⟩
  intro name hn hn2
  have := hv name hn
  rw [hi name hn2] at this
  cases this

/-- C15. In every state reached by processing lines from an empty symbol
table, the names of the records are pairwise distinct, and one more line
leaves every record unchanged and in place: the table before the line is the
start of the table after it. -/
theorem symbolTable_invariant (lines : List Str) (line : Str) :
    ((processFile lines).symbolTable.map Symbol.name).Nodup ∧
    (processFile lines).symbolTable <+: (processLine (processFile lines) line).symbolTable :=
  ⟨processFile_distinctNames lines, (processLine_invariants (processFile lines) line).1.2.2⟩

/-! ## The declared type -/

/-- The scan of lines 380-396 on tokens that start with a run of data-type
keywords which is not continued by the token after it: the type text is the
keywords joined by single spaces, and the count is their number. -/
theorem scanDataTypes_maximal (types rest : List Str) (hne : types ≠ [])
    (htypes : ∀ t ∈ types, isDataTypeToken t = true)
    (hmax : ∀ t r, rest = t :: r → isDataTypeToken t = false) :
    (scanDataTypes (types ++ rest) 0 0 []).dataTypeBuffer = [' '].intercalate types ∧
      (scanDataTypes (types ++ rest) 0 0 []).dataTypeTokensLen = types.length ∧
      (scanDataTypes (types ++ rest) 0 0 []).i = types.length := by
  match types, hne, htypes with
  | t :: ts, _, htypes =>
    have ht := htypes t (by simp)
    have hb : ((if 0 > 0 then ([] : Str) ++ [' '] else []) ++ t) = t := by simp
    rw [List.cons_append, scanDataTypes, if_pos ht, hb,
      scanDataTypes_run ts (fun u hu => htypes u (by simp [hu])) _ _ _ _ (by omega),
      intercalate_cons]
    cases rest with
    | nil => simp [scanDataTypes, Nat.add_comm]
    | cons r rs =>
      have hr := hmax r rs rfl
      rw [scanDataTypes, if_neg (by simp [hr])]
      split_ifs <;> simp [Nat.add_comm]

theorem apply_added (fullType : Str) (lineno : Nat) (e : DeclEvent) (st : State) :
    ∃ added : List Symbol,
      (e.apply addUnique fullType lineno st).symbolTable = st.symbolTable ++ added ∧
      ∀ r ∈ added, r.type = fullType.take 99 ∧ r.line = lineno := by
  cases e with
  | valid name value =>
    simp only [DeclEvent.apply, addToSymbolTable]
    split_ifs
    · exact ⟨[_], rfl, by simp⟩
    · exact ⟨[], by simp, by simp⟩
  | invalid name => exact ⟨[], by simp [DeclEvent.apply], by simp⟩

theorem foldl_apply_added (fullType : Str) (lineno : Nat) (events : List DeclEvent) :
    ∀ st : State, ∃ added : List Symbol,
      (events.foldl (DeclEvent.apply addUnique fullType lineno) st).symbolTable =
        st.symbolTable ++ added ∧
      ∀ r ∈ added, r.type = fullType.take 99 ∧ r.line = lineno := by
  induction events with
  | nil => intro st; exact ⟨[], by simp, by simp⟩
  | cons e es ih =>
    intro st
    obtain ⟨a1, h1, p1⟩ := apply_added fullType lineno e st
    obtain ⟨a2, h2, p2⟩ := ih (e.apply addUnique fullType lineno st)
    refine ⟨a1 ++ a2, ?_, ?_⟩
    · rw [List.foldl_cons, h2, h1, List.append_assoc]
    · intro r hr
      rcases List.mem_append.mp hr with h | h
      · exact p1 r h
      · exact p2 r h

/-- C18. On a line that begins with the data-type keywords `types` (one or
more, the whole leading run, their joined text shorter than 100 characters),
every record that processing the line adds to the symbol table has as type
the keywords in their order, joined by single spaces (and as line the number
of the line). -/
theorem declaredType_of_line (st : State) (line : Str) (types rest : List Str)
    (htok : lineTokens st.insideComment line = types ++ rest) (hne : types ≠ [])
    (htypes : ∀ t ∈ types, isDataTypeToken t = true)
    (hmax : ∀ t r, rest = t :: r → isDataTypeToken t = false)
    (hcap : ([' '].intercalate types).length < 100) :
    ∃ added : List Symbol,
      (processLine st line).symbolTable = st.symbolTable ++ added ∧
      ∀ r ∈ added, r.type = [' '].intercalate types ∧ r.line = st.lineno + 1 := by
  obtain ⟨events, -, h1, -, -⟩ := processLine_events st line
  rw [htok, (scanDataTypes_maximal types rest hne htypes hmax).1] at h1
  obtain ⟨added, ha, hp⟩ := foldl_apply_added ([' '].intercalate types) (st.lineno + 1) events st
  refine ⟨added, by rw [h1, ha], ?_⟩
  intro r hr
  have := hp r hr
  rw [List.take_of_length_le (by omega)] at this
  exact this

/-- An instance of `declaredType_of_line`: the line
`unsigned long int abcd12@r = 5, efgh34@r;` as the first line of the file. -/
theorem declaredType_of_line_witness :
    ∃ added : List Symbol,
      (processLine State.init "unsigned long int abcd12@r = 5, efgh34@r;".toList).symbolTable =
        State.init.symbolTable ++ added ∧
      ∀ r ∈ added,
        r.type = [' '].intercalate (["unsigned", "long", "int"].map String.toList) ∧
        r.line = State.init.lineno + 1 :=
  declaredType_of_line State.init "unsigned long int abcd12@r = 5, efgh34@r;".toList
    (["unsigned", "long", "int"].map String.toList)
    (["abcd12@r", "=", "5", ",", "efgh34@r", ";"].map String.toList)
    (by decide) (by decide) (by decide) (by intro t r h; cases h; decide) (by decide)

/-! ## Lines that are not declarations -/

theorem processDeclarationsWith_noType (ins : List Str → Str → List Str) (tokens : List Str)
    (st : State) (h : ∀ t r, tokens = t :: r → isDataTypeToken t = false) :
    processDeclarationsWith ins tokens st = st := by
  unfold processDeclarationsWith
  dsimp only
  have hlen : (scanDataTypes tokens 0 0 []).dataTypeTokensLen = 0 := by
    cases tokens with
    | nil => rfl
    | cons t r =>
      have ht := h t r rfl
      rw [scanDataTypes, if_neg (by simp [ht])]
      split_ifs <;> rfl
  rw [hlen]
  rfl

theorem processDeclarationsWith_onlyTypes (ins : List Str → Str → List Str)
    (tokens : List Str) (st : State) (h : ∀ t ∈ tokens, isDataTypeToken t = true) :
    processDeclarationsWith ins tokens st = st := by
  unfold processDeclarationsWith
  dsimp only
  have hlen : (scanDataTypes tokens 0 0 []).dataTypeTokensLen = tokens.length := by
    cases tokens with
    | nil => rfl
    | cons t r =>
      have := (scanDataTypes_maximal (t :: r) [] (by simp) h (by simp)).2.1
      rw [List.append_nil] at this
      exact this
  rw [hlen, if_neg (by simp)]

theorem processLine_sameDeclarations (st : State) (line : Str)
    (h : ∀ st1 : State,
      processDeclarationsWith addUnique (lineTokens st.insideComment line) st1 = st1) :
    SameDeclarations st (processLine st line) := by
  unfold processLine processLineWith
  unfold lineTokens at h
  dsimp only
  cases hs : stripComments st.insideComment line with
  | none => exact ⟨rfl, rfl, rfl⟩
  | some r =>
    obtain ⟨text, inside⟩ := r
    rw [hs] at h
    dsimp only at h ⊢
    split_ifs
    · exact ⟨rfl, rfl, rfl⟩
    · rw [h]
      exact foldl_categorizeTokenWith_sameDeclarations addUnique _
        { st with lineno := st.lineno + 1, insideComment := inside }

/-- C12. A line whose first token is not a data-type keyword, and a line all
of whose tokens are data-type keywords, leave `validIdentifiers`,
`invalidIdentifiers` and the symbol table as they were. -/
theorem nonDeclaration_line (st : State) (line : Str)
    (h : (∀ t r, lineTokens st.insideComment line = t :: r → isDataTypeToken t = false) ∨
      (∀ t ∈ lineTokens st.insideComment line, isDataTypeToken t = true)) :
    (processLine st line).validIdentifiers = st.validIdentifiers ∧
    (processLine st line).invalidIdentifiers = st.invalidIdentifiers ∧
    (processLine st line).symbolTable = st.symbolTable := by
  have key : SameDeclarations st (processLine st line) := by
    apply processLine_sameDeclarations
    intro st1
    rcases h with h | h
    · exact processDeclarationsWith_noType _ _ _ h
    · exact processDeclarationsWith_onlyTypes _ _ _ h
  exact ⟨key.2.1, key.2.2, key.1⟩

/-- An instance of `nonDeclaration_line`: the line `return tokyo23@r;`, whose
first token is not a data-type keyword. -/
theorem nonDeclaration_line_witness :
    (processLine State.init "return tokyo23@r;".toList).validIdentifiers =
        State.init.validIdentifiers ∧
      (processLine State.init "return tokyo23@r;".toList).invalidIdentifiers =
        State.init.invalidIdentifiers ∧
      (processLine State.init "return tokyo23@r;".toList).symbolTable =
        State.init.symbolTable :=
  nonDeclaration_line State.init "return tokyo23@r;".toList
    (Or.inl (by
      intro t r h
      have ht : t = "return".toList := by
        have h2 : lineTokens State.init.insideComment "return tokyo23@r;".toList =
            ["return", "tokyo23@r", ";"].map String.toList := by decide
        rw [h2] at h
        exact (List.cons.inj h).1.symm
      rw [ht]
      decide))

/-! ## The token categories -/

theorem isKeyword_length (token : Str) (h : isKeyword token = true) : token.length < 100 := by
  have hall : ∀ k ∈ keywords, k.length < 100 := by decide
  exact hall token (by simpa [isKeyword] using h)

theorem addUnique_eq (bucket : List Str) (lexeme : Str) :
    addUnique bucket lexeme = if lexeme ∈ bucket then bucket else bucket ++ [lexeme] := by
  unfold addUnique
  by_cases h : lexeme ∈ bucket <;> simp [h]

/-- The categorizer puts a non-empty token into the bucket of the first test
it passes, and touches nothing else. -/
theorem categorizeTokenWith_eq (ins : List Str → Str → List Str) (st : State) (token : Str)
    (hne : token ≠ []) :
    categorizeTokenWith ins st token =
      (tokenBucket token).set (ins ((tokenBucket token).get st) token) st := by
  have h0 : ¬ (token.length == 0) = true := by
    simpa using hne
  unfold categorizeTokenWith tokenBucket
  rw [if_neg h0]
  by_cases hk : isKeyword token = true
  · rw [if_pos hk, if_pos hk, if_pos (isKeyword_length token hk)]; rfl
  rw [if_neg hk, if_neg hk]
  by_cases hm : isMultiCharOp token = true
  · rw [if_pos hm, if_pos hm]; rfl
  rw [if_neg hm, if_neg hm]
  have hop : isOperatorString token =
      (token.length == 1 && isOperatorChar (charAt token 0)) := by
    unfold isOperatorString
    rw [if_neg hm]
    cases (token.length == 1 && isOperatorChar (charAt token 0)) <;> rfl
  rw [hop]
  by_cases ho : (token.length == 1 && isOperatorChar (charAt token 0)) = true
  · rw [if_pos ho, if_pos ho]; rfl
  rw [if_neg ho, if_neg ho]
  by_cases hs : (token.length == 1 && isSeparator (charAt token 0)) = true
  · rw [if_pos hs, if_pos hs]; rfl
  rw [if_neg hs, if_neg hs]
  by_cases hb : (token.length == 1 && isBracket (charAt token 0)) = true
  · rw [if_pos hb, if_pos hb]; rfl
  rw [if_neg hb, if_neg hb]
  by_cases hy : (token.length == 1 && isSpecialSymbol (charAt token 0)) = true
  · rw [if_pos hy, if_pos hy]; rfl
  rw [if_neg hy, if_neg hy]
  by_cases hq : (charAt token 0 == '"' && charAt token (token.length - 1) == '"') = true
  · rw [if_pos hq, if_pos hq]; rfl
  rw [if_neg hq, if_neg hq]
  by_cases hc : (charAt token 0 == '\'' && charAt token (token.length - 1) == '\'') = true
  · rw [if_pos hc, if_pos hc]; rfl
  rw [if_neg hc, if_neg hc]
  by_cases hd : isdigit (charAt token 0) = true
  · rw [if_pos hd, if_pos hd]; rfl
  rw [if_neg hd, if_neg hd]; rfl

theorem get_set (b c : Bucket) (l : List Str) (st : State) :
    b.get (c.set l st) = if b = c then l else b.get st := by
  cases b <;> cases c <;> rfl

theorem set_sameDeclarations (c : Bucket) (l : List Str) (st : State) :
    SameDeclarations st (c.set l st) ∧ SameFrame st (c.set l st) := by
  cases c <;> exact ⟨⟨rfl, rfl, rfl⟩, ⟨rfl, rfl⟩⟩

theorem categorizeTokenWith_bucketsSorted (st : State) (token : Str) (h : BucketsSorted st) :
    BucketsSorted (categorizeTokenWith addUnique st token) := by
  by_cases hne : token = []
  · subst hne
    exact h
  · rw [categorizeTokenWith_eq addUnique st token hne]
    intro b x hx
    rw [get_set] at hx
    split_ifs at hx with hb
    · rcases (mem_addUnique_iff _ _ _).mp hx with h1 | rfl
      · rw [hb]
        exact h _ x h1
      · exact hb.symm
    · exact h b x hx

theorem foldl_categorizeTokenWith_bucketsSorted (tokens : List Str) : ∀ st : State,
    BucketsSorted st → BucketsSorted (tokens.foldl (categorizeTokenWith addUnique) st) := by
  induction tokens with
  | nil => intro st h; exact h
  | cons t rest ih =>
    intro st h
    exact ih _ (categorizeTokenWith_bucketsSorted st t h)

theorem apply_get (ins : List Str → Str → List Str) (fullType : Str) (lineno : Nat)
    (e : DeclEvent) (st : State) (b : Bucket) :
    b.get (e.apply ins fullType lineno st) = b.get st := by
  cases e <;> cases b <;> rfl

theorem foldl_apply_get (ins : List Str → Str → List Str) (fullType : Str) (lineno : Nat)
    (events : List DeclEvent) (b : Bucket) : ∀ st : State,
      b.get (events.foldl (DeclEvent.apply ins fullType lineno) st) = b.get st := by
  induction events with
  | nil => intro st; rfl
  | cons e es ih =>
    intro st
    rw [List.foldl_cons, ih, apply_get]

/-- The declaration part of the loop body leaves the category buckets alone. -/
theorem processDeclarationsWith_get (ins : List Str → Str → List Str) (tokens : List Str)
    (st : State) (b : Bucket) : b.get (processDeclarationsWith ins tokens st) = b.get st := by
  obtain ⟨events, -, he⟩ := processDeclarationsWith_events ins tokens st
  rw [he, foldl_apply_get]

theorem processLine_bucketsSorted (st : State) (line : Str) (h : BucketsSorted st) :
    BucketsSorted (processLine st line) := by
  unfold processLine processLineWith
  dsimp only
  have h1 : ∀ (inside : Bool),
      BucketsSorted { st with lineno := st.lineno + 1, insideComment := inside } := by
    intro inside b x hx
    exact h b x (by cases b <;> exact hx)
  cases hs : stripComments st.insideComment line with
  | none =>
    intro b x hx
    exact h b x (by cases b <;> exact hx)
  | some r =>
    obtain ⟨text, inside⟩ := r
    dsimp only
    split_ifs
    · exact h1 inside
    · apply foldl_categorizeTokenWith_bucketsSorted
      intro b x hx
      rw [processDeclarationsWith_get] at hx
      exact h1 inside b x hx

theorem foldl_processLine_bucketsSorted (lines : List Str) : ∀ st : State,
    BucketsSorted st → BucketsSorted (lines.foldl processLine st) := by
  induction lines with
  | nil => intro st h; exact h
  | cons l ls ih =>
    intro st h
    exact ih _ (processLine_bucketsSorted st l h)

/-- In every state that `processFile` reaches, every lexeme in a bucket is
one that the tests route to that bucket. -/
theorem processFile_bucketsSorted (lines : List Str) : BucketsSorted (processFile lines) :=
  foldl_processLine_bucketsSorted lines State.init (by
    intro b x hx
    cases b <;> simp [Bucket.get, State.init] at hx)

/-- C13. For a non-empty token the categorizer changes at most one bucket,
the bucket of the first test the token passes (`tokenBucket`), and only by
appending the token when it is absent; the identifier lists, the symbol
table, the comment flag and the line counter stay as they were.  Hence, in
every state reached from empty accumulators, no lexeme is in two different
buckets. -/
theorem categorizer_routing (st : State) (token : Str) (lines : List Str) (hne : token ≠ []) :
    (∀ b : Bucket,
      b.get (categorizeTokenWith addUnique st token) =
        if b = tokenBucket token then
          (if token ∈ b.get st then b.get st else b.get st ++ [token])
        else b.get st) ∧
    SameDeclarations st (categorizeTokenWith addUnique st token) ∧
    SameFrame st (categorizeTokenWith addUnique st token) ∧
    (∀ (b c : Bucket) (lexeme : Str), lexeme ∈ b.get (processFile lines) →
      lexeme ∈ c.get (processFile lines) → b = c) := by
  refine ⟨?_, categorizeTokenWith_sameDeclarations _ _ _, categorizeTokenWith_sameFrame _ _ _,
    ?_⟩
  · intro b
    rw [categorizeTokenWith_eq addUnique st token hne, get_set]
    split_ifs with hb h1
    · rw [addUnique_eq, if_pos (by rw [← hb]; exact h1)]
      rw [hb]
    · rw [addUnique_eq, if_neg (by rw [← hb]; exact h1)]
      rw [hb]
    · rfl
  · intro b c lexeme hb hc
    have h := processFile_bucketsSorted lines
    rw [← h b lexeme hb, ← h c lexeme hc]

/-- An instance of `categorizer_routing`: the token `'c'` and the accumulators
after the line `"s"`. -/
theorem categorizer_routing_witness :
    tokenBucket "'c'".toList = Bucket.stringLiterals ∧
      Bucket.stringLiterals.get
          (categorizeTokenWith addUnique (processFile ["\"s\"".toList]) "'c'".toList) =
        ["\"s\"".toList, "'c'".toList] :=
  ⟨by decide,
    ((categorizer_routing (processFile ["\"s\"".toList]) "'c'".toList [] (by decide)).1
      Bucket.stringLiterals).trans (by decide)⟩

/-! ## String literals -/

/-- The tokens of a line are the tokens stored before the cursor reaches a
text, followed by the tokens of that text. -/
theorem cursorAt_tokens (line text : Str) (h : CursorAt line text) :
    ∃ earlier : List Str, tokenizeLine line = earlier ++ tokenizeLine text := by
  induction h with
  | start => exact ⟨[], rfl⟩
  | step c rest _ ih =>
    obtain ⟨earlier, he⟩ := ih
    refine ⟨earlier ++ (tokenizeStep (c :: rest)).1.toList, ?_⟩
    rw [he, tokenizeLine_cons, List.append_assoc]

theorem cursorAt_trans {a b c : Str} (h1 : CursorAt a b) (h2 : CursorAt b c) :
    CursorAt a c := by
  induction h2 with
  | start => exact h1
  | step e t _ ih => exact CursorAt.step e t ih

/-- Every token of a line is stored by a pass of the loop that starts with
the cursor at some text of the line. -/
theorem mem_tokenizeLine_step (n : Nat) : ∀ (line : Str) (tok : Str), line.length ≤ n →
    tok ∈ tokenizeLine line →
      ∃ (c : Char) (rest : Str), CursorAt line (c :: rest) ∧
        (tokenizeStep (c :: rest)).1 = some tok := by
  induction n with
  | zero =>
    intro line tok h hm
    have : line = [] := List.length_eq_zero.mp (by omega)
    subst this
    simp [tokenizeLine_nil] at hm
  | succ n ih =>
    intro line tok h hm
    cases line with
    | nil => simp [tokenizeLine_nil] at hm
    | cons c rest =>
      rw [tokenizeLine_cons] at hm
      rcases List.mem_append.mp hm with h1 | h1
      · refine ⟨c, rest, CursorAt.start, ?_⟩
        cases hs : (tokenizeStep (c :: rest)).1 with
        | none => rw [hs] at h1; simp at h1
        | some t =>
          rw [hs] at h1
          simp only [Option.toList, List.mem_singleton] at h1
          rw [h1]
      · have hle := tokenizeStep_length_le c rest
        simp only [List.length_cons] at h
        obtain ⟨d, r, hcur, hstep⟩ := ih _ tok (by omega) h1
        exact ⟨d, r, cursorAt_trans (CursorAt.step c rest CursorAt.start) hcur, hstep⟩

/-- A pass that starts at a character which is neither whitespace nor the
start of an operator, separator, bracket or special symbol goes to the word
branches of lines 215-245. -/
theorem tokenizeStep_word (c : Char) (rest : Str) (hsp : isspace c = false)
    (hmulti : ∀ d, isMultiCharOp [c, d] = false) (hop : isOperatorChar c = false)
    (hsep : isSeparator c = false) (hbr : isBracket c = false)
    (hsym : isSpecialSymbol c = false) :
    tokenizeStep (c :: rest) =
      match wordLength c rest with
      | none => (some [c], rest)
      | some n => (if n > 0 then some ((c :: rest).take n) else none, (c :: rest).drop n) := by
  unfold tokenizeStep
  simp only [hsp, hmulti, hop, hsep, hbr, hsym, Bool.false_eq_true, if_false, Bool.and_false,
    Bool.or_self]

theorem takeWhile_ne_stop (q : Char) (body after : Str) (h : q ∉ body) :
    (body ++ q :: after).takeWhile (fun d => d != q) = body := by
  rw [List.takeWhile_append_of_pos]
  · simp
  · intro a ha
    simp only [bne_iff_ne, ne_eq]
    rintro rfl
    exact h ha

theorem takeWhile_ne_all (q : Char) (rest : Str) (h : q ∉ rest) :
    rest.takeWhile (fun d => d != q) = rest := by
  rw [List.takeWhile_eq_self_iff]
  intro a ha
  simp only [bne_iff_ne, ne_eq]
  rintro rfl
  exact h ha

/-- The pass of the loop that starts at a double quote with a later double
quote on the line. -/
theorem tokenizeStep_string_closed (body after : Str) (h : '"' ∉ body) :
    tokenizeStep ('"' :: (body ++ '"' :: after)) = (some ('"' :: (body ++ ['"'])), after) := by
  rw [tokenizeStep_word '"' _ (by decide) (by intro d; simp [isMultiCharOp, multiCharOps])
    (by decide) (by decide) (by decide) (by decide)]
  have hw : wordLength '"' (body ++ '"' :: after) = some (body.length + 2) := by
    unfold wordLength
    simp only [skipWhile, takeWhile_ne_stop '"' body after h]
    rw [if_neg (by decide), if_neg (by decide), if_pos (by decide),
      if_pos (by simp only [List.length_cons, List.length_append]; omega)]
    congr 1
    omega
  rw [hw]
  simp only [gt_iff_lt, Nat.zero_lt_succ, if_true, List.take_succ_cons, List.drop_succ_cons,
    Prod.mk.injEq, Option.some.injEq, List.cons.injEq, true_and]
  constructor
  · rw [show body ++ '"' :: after = (body ++ ['"']) ++ after by simp]
    rw [List.take_left']
    simp
  · rw [show body ++ '"' :: after = (body ++ ['"']) ++ after by simp]
    rw [List.drop_left']
    simp

/-- The pass of the loop that starts at a double quote with no later double
quote on the line. -/
theorem tokenizeStep_string_open (rest : Str) (h : '"' ∉ rest) :
    tokenizeStep ('"' :: rest) = (some ('"' :: rest), []) := by
  rw [tokenizeStep_word '"' _ (by decide) (by intro d; simp [isMultiCharOp, multiCharOps])
    (by decide) (by decide) (by decide) (by decide)]
  have hw : wordLength '"' rest = some (rest.length + 1) := by
    unfold wordLength
    simp only [skipWhile, takeWhile_ne_all '"' rest h]
    rw [if_neg (by decide), if_neg (by decide), if_pos (by decide),
      if_neg (by simp only [List.length_cons]; omega)]
    congr 1
    omega
  rw [hw]
  simp

/-- C19. When the cursor of the tokenizer is at a double quote, the pass
stores one token that starts at that quote and runs through the next double
quote, inclusive, and the cursor moves behind it; when there is no later
double quote the token runs to the end of the line, the cursor is then at
the end, and the token is the last token of the line. -/
theorem stringLiteral_token (line rest : Str) (hcur : CursorAt line ('"' :: rest)) :
    (∀ body after : Str, rest = body ++ '"' :: after → '"' ∉ body →
      tokenizeStep ('"' :: rest) = (some ('"' :: (body ++ ['"'])), after) ∧
      ∃ earlier : List Str,
        tokenizeLine line = earlier ++ ('"' :: (body ++ ['"'])) :: tokenizeLine after) ∧
    ('"' ∉ rest →
      tokenizeStep ('"' :: rest) = (some ('"' :: rest), []) ∧
      ∃ earlier : List Str, tokenizeLine line = earlier ++ ['"' :: rest]) := by
  obtain ⟨earlier, he⟩ := cursorAt_tokens line _ hcur
  constructor
  · intro body after hrest hbody
    subst hrest
    have hstep := tokenizeStep_string_closed body after hbody
    refine ⟨hstep, earlier, ?_⟩
    rw [he, tokenizeLine_cons, hstep]
    rfl
  · intro hrest
    have hstep := tokenizeStep_string_open rest hrest
    refine ⟨hstep, earlier, ?_⟩
    rw [he, tokenizeLine_cons, hstep]
    rfl

/-- An instance of `stringLiteral_token`: the line ` "cd`, where the cursor
reaches the double quote after the pass that skips the space. -/
theorem stringLiteral_token_witness :
    '"' ∉ "cd".toList ∧
      ∃ earlier : List Str, tokenizeLine " \"cd".toList = earlier ++ ['"' :: "cd".toList] :=
  ⟨by decide,
    ((stringLiteral_token " \"cd".toList "cd".toList
      (CursorAt.step ' ' "\"cd".toList CursorAt.start)).2 (by decide)).2⟩

/-- The tokens of the line `x = "a b" + "cd`: a closed string literal and an
unterminated one, which is the last token. -/
theorem tokenizeLine_stringLiterals :
    tokenizeLine "x = \"a b\" + \"cd".toList =
      ["x", "=", "\"a b\"", "+", "\"cd"].map String.toList := by
  decide

/-! ## Character literals -/

theorem tokenizeStep_quote (rest : Str) :
    tokenizeStep ('\'' :: rest) =
      match wordLength '\'' rest with
      | none => (some ['\''], rest)
      | some n =>
        (if n > 0 then some (('\'' :: rest).take n) else none, ('\'' :: rest).drop n) :=
  tokenizeStep_word '\'' rest (by decide) (by intro d; simp [isMultiCharOp, multiCharOps])
    (by decide) (by decide) (by decide) (by decide)

/-- The pass of the loop that starts at a single quote: the four shapes of a
character-literal token. -/
theorem tokenizeStep_charLiteral (rest : Str) :
    (rest = [] ∧ tokenizeStep ('\'' :: rest) = (some ['\''], [])) ∨
    (∃ after, rest = '\'' :: after ∧
      tokenizeStep ('\'' :: rest) = (some ['\'', '\''], after)) ∨
    (∃ x after, x ≠ '\'' ∧ rest = x :: '\'' :: after ∧
      tokenizeStep ('\'' :: rest) = (some ['\'', x, '\''], after)) ∨
    (∃ x after, x ≠ '\'' ∧ rest = x :: after ∧ (∀ t, after ≠ '\'' :: t) ∧
      tokenizeStep ('\'' :: rest) = (some ['\'', x], after)) := by
  rw [tokenizeStep_quote]
  unfold wordLength
  rw [if_neg (by decide), if_neg (by decide), if_neg (by decide), if_pos (by decide)]
  match rest with
  | [] => left; simp [charAt]
  | x :: after =>
    right
    by_cases hx : x = '\''
    · left
      subst hx
      exact ⟨after, rfl, by simp [charAt]⟩
    · right
      match after with
      | [] => right; exact ⟨x, [], hx, rfl, by simp, by simp [charAt, hx]⟩
      | y :: t =>
        by_cases hy : y = '\''
        · left
          subst hy
          exact ⟨x, t, hx, rfl, by simp [charAt, hx]⟩
        · right
          refine ⟨x, y :: t, hx, rfl, ?_, by simp [charAt, hx, hy]⟩
          intro u hu
          exact hy (List.cons.inj hu).1

/-- C20. Every token of `tokenizeLine` that starts with a single quote has at
most three characters: the opening quote, at most one character that is not
a single quote, and a closing quote only when it comes right after; the pass
that stores it leaves the cursor right behind it, so in `'ab'` the first
token is `'a` and the rest, `b'`, is tokenized on its own. -/
theorem charLiteral_token (line tok : Str) (hmem : tok ∈ tokenizeLine line)
    (hquote : tok.head? = some '\'') :
    tok.length ≤ 3 ∧
    (tok = ['\''] ∨ tok = ['\'', '\''] ∨
      ∃ x, x ≠ '\'' ∧ (tok = ['\'', x] ∨ tok = ['\'', x, '\''])) ∧
    ∃ rest : Str, CursorAt line ('\'' :: rest) ∧ (tokenizeStep ('\'' :: rest)).1 = some tok ∧
      '\'' :: rest = tok ++ (tokenizeStep ('\'' :: rest)).2 ∧
      (tok = ['\''] → rest = []) ∧
      (∀ x, tok = ['\'', x] → x ≠ '\'' → ∀ t, (tokenizeStep ('\'' :: rest)).2 ≠ '\'' :: t) := by
  obtain ⟨c, rest, hcur, hstep⟩ := mem_tokenizeLine_step line.length line tok (le_refl _) hmem
  have hc : c = '\'' := by
    rcases tokenizeStep_spec c rest with ⟨_, h⟩ | ⟨_, token, after, hne, h, heq⟩
    · rw [h] at hstep; cases hstep
    · rw [h] at hstep
      cases hstep
      cases tok with
      | nil => exact absurd rfl hne
      | cons a t =>
        simp only [List.head?_cons, Option.some.injEq] at hquote
        simp only [List.cons_append, List.cons.injEq] at heq
        rw [heq.1, hquote]
  subst hc
  rcases tokenizeStep_charLiteral rest with ⟨hr, h⟩ | ⟨after, hr, h⟩ | ⟨x, after, hx, hr, h⟩ |
    ⟨x, after, hx, hr, hn, h⟩
  all_goals
    rw [h] at hstep
    cases hstep
    subst hr
  · exact ⟨by simp, Or.inl rfl, [], hcur, by rw [h], by rw [h]; rfl, fun _ => rfl,
      fun x hx => by cases hx⟩
  · refine ⟨by simp, Or.inr (Or.inl rfl), _, hcur, by rw [h], by rw [h]; rfl, ?_, ?_⟩
    · intro hx; cases hx
    · intro x hx hne
      cases hx
      exact absurd rfl hne
  · refine ⟨by simp, Or.inr (Or.inr ⟨x, hx, Or.inr rfl⟩), _, hcur, by rw [h],
      by rw [h]; rfl, ?_, ?_⟩
    · intro hx; cases hx
    · intro y hy; cases hy
  · refine ⟨by simp, Or.inr (Or.inr ⟨x, hx, Or.inl rfl⟩), _, hcur, by rw [h],
      by rw [h]; rfl, ?_, ?_⟩
    · intro hx; cases hx
    · intro y _ _ t
      rw [h]
      exact hn t

/-- An instance of `charLiteral_token`: the first token of the line `'ab'`. -/
theorem charLiteral_token_witness :
    tokenizeLine "'ab'".toList = ["'a", "b", "'"].map String.toList ∧
      "'a".toList.length ≤ 3 :=
  ⟨by decide,
    (charLiteral_token "'ab'".toList "'a".toList (by decide) (by decide)).1⟩

/-! ## Invalid candidates of a declaration (lines 292-309) -/

/-- The shape of the token a pass of the tokenizer stores: it starts with the
character under the cursor, and it is an operator of two characters, or that
character by itself, or a word whose first character is no operator,
separator, bracket or special-symbol character. -/
theorem tokenizeStep_shape (c : Char) (rest tok : Str)
    (h : (tokenizeStep (c :: rest)).1 = some tok) :
    charAt tok 0 = c ∧
      (isMultiCharOp tok = true ∨ tok = [c] ∨
        (isOperatorChar c || isSeparator c || isBracket c || isSpecialSymbol c) = false) := by
  unfold tokenizeStep at h
  by_cases hsp : isspace c = true
  · simp only [hsp, if_true] at h
    cases h
  have hsp' : isspace c = false := by simpa using hsp
  simp only [hsp', Bool.false_eq_true, if_false] at h
  by_cases h1 :
      (decide (1 < (c :: rest).length) && isMultiCharOp [c, charAt (c :: rest) 1]) = true
  · rw [if_pos h1] at h
    cases h
    simp only [Bool.and_eq_true] at h1
    exact ⟨rfl, Or.inl h1.2⟩
  rw [if_neg h1] at h
  by_cases h2 : (isOperatorChar c || isSeparator c || isBracket c || isSpecialSymbol c) = true
  · rw [if_pos h2] at h
    cases h
    exact ⟨rfl, Or.inr (Or.inl rfl)⟩
  rw [if_neg h2] at h
  have h2' : (isOperatorChar c || isSeparator c || isBracket c || isSpecialSymbol c) = false := by
    simpa using h2
  cases hw : wordLength c rest with
  | none =>
    rw [hw] at h
    cases h
    exact ⟨rfl, Or.inr (Or.inl rfl)⟩
  | some n =>
    rw [hw] at h
    dsimp only at h
    by_cases hn : n > 0
    · rw [if_pos hn] at h
      cases h
      refine ⟨?_, Or.inr (Or.inr h2')⟩
      cases n with
      | zero => omega
      | succ m => simp [charAt]
    · rw [if_neg hn] at h
      cases h

/-- The shape of the tokens of a line. -/
theorem mem_tokenizeLine_shape (line tok : Str) (h : tok ∈ tokenizeLine line) :
    tok ≠ [] ∧
      (isMultiCharOp tok = true ∨ tok.length = 1 ∨
        (isOperatorChar (charAt tok 0) || isSeparator (charAt tok 0) ||
          isBracket (charAt tok 0) || isSpecialSymbol (charAt tok 0)) = false) := by
  obtain ⟨c, rest, -, hstep⟩ := mem_tokenizeLine_step line.length line tok (le_refl _) h
  obtain ⟨hc, hshape⟩ := tokenizeStep_shape c rest tok hstep
  constructor
  · rcases tokenizeStep_spec c rest with ⟨_, h1⟩ | ⟨_, token, after, hne, h1, _⟩
    · rw [h1] at hstep; cases hstep
    · rw [h1] at hstep; cases hstep; exact hne
  · rw [hc]
    rcases hshape with h1 | h1 | h1
    · exact Or.inl h1
    · exact Or.inr (Or.inl (by rw [h1]; rfl))
    · exact Or.inr (Or.inr h1)

/-- On the tokens of a line the test of lines 294-296, which looks at the
first character only, picks the tokens that are of none of the listed
kinds. -/
theorem couldBeName_iff (line tok : Str) (h : tok ∈ tokenizeLine line) :
    couldBeName tok = true ↔ IsNameLike tok := by
  obtain ⟨-, hshape⟩ := mem_tokenizeLine_shape line tok h
  unfold couldBeName IsNameLike
  simp only [Bool.and_eq_true, Bool.not_eq_true', bne_iff_ne, ne_eq]
  constructor
  · rintro ⟨⟨⟨⟨⟨⟨⟨hk, ho⟩, hb⟩, hs⟩, hy⟩, hd⟩, hq⟩, hc⟩
    exact ⟨hk, ho, fun h => by simp [hb] at h, fun h => by simp [hs] at h,
      fun h => by simp [hy] at h, hd, hq, hc⟩
  · rintro ⟨hk, ho, hb, hs, hy, hd, hq, hc⟩
    have hm : isMultiCharOp tok = false := by
      unfold isOperatorString at ho
      by_contra hm
      simp only [Bool.not_eq_false] at hm
      simp [hm] at ho
    have key : ∀ cls : Char → Bool, ¬ (tok.length = 1 ∧ cls (charAt tok 0) = true) →
        ((isOperatorChar (charAt tok 0) || isSeparator (charAt tok 0) ||
          isBracket (charAt tok 0) || isSpecialSymbol (charAt tok 0)) = false →
          cls (charAt tok 0) = false) → cls (charAt tok 0) = false := by
      intro cls hcls himp
      rcases hshape with h1 | h1 | h1
      · rw [hm] at h1; cases h1
      · by_contra hc2
        exact hcls ⟨h1, by simpa using hc2⟩
      · exact himp h1
    refine ⟨⟨⟨⟨⟨⟨⟨hk, ho⟩, ?_⟩, ?_⟩, ?_⟩, hd⟩, hq⟩, hc⟩
    · exact key isBracket hb (fun h => by simp only [Bool.or_eq_false_iff] at h; exact h.1.2)
    · exact key isSeparator hs (fun h => by simp only [Bool.or_eq_false_iff] at h; exact h.1.1.2)
    · exact key isSpecialSymbol hy (fun h => by simp only [Bool.or_eq_false_iff] at h; exact h.2)

theorem declarationStepWith_invalid (ins : List Str → Str → List Str) (fullType : Str)
    (lineno : Nat) (tok : Str) (rest : List Str) (st : State) (hsemi : tok ≠ [';'])
    (hinv : isValidIdentifier_Advanced tok = false) :
    declarationStepWith ins fullType lineno tok rest st =
      some (rest,
        if couldBeName tok = true ∧ tok ≠ [','] then
          { st with invalidIdentifiers := ins st.invalidIdentifiers tok }
        else st) := by
  unfold declarationStepWith
  by_cases h1 : (tok == [',']) = true
  · have h1' : tok = [','] := by simpa using h1
    rw [if_pos h1, if_neg (by simp [h1'])]
  · have h1' : tok ≠ [','] := by simpa using h1
    rw [if_neg h1, if_neg (by simpa using hsemi), if_neg (by simp [hinv])]
    dsimp only
    by_cases hc : couldBeName tok = true
    · have hc' := hc
      unfold couldBeName at hc'
      rw [if_pos hc', if_pos ⟨hc, h1'⟩]
    · have hc' := hc
      unfold couldBeName at hc'
      rw [if_neg hc', if_neg (fun h => hc h.1)]

/-- C17. In the declaration loop over tokens of `tokenizeLine`, a token that
is reached as a candidate (it is not `;`, which ends the loop) and fails the
validation is added to `invalidIdentifiers` (when absent) if it is name-like,
that is, no keyword, operator, bracket, separator or special symbol, and not
starting with a digit or with a double or single quote; otherwise the pass
changes nothing.  Either way the loop goes on with the next token. -/
theorem invalidCandidate_step (line tok : Str) (fullType : Str) (lineno : Nat)
    (rest : List Str) (st : State) (hmem : tok ∈ tokenizeLine line) (hsemi : tok ≠ [';'])
    (hinv : isValidIdentifier_Advanced tok = false) :
    (IsNameLike tok →
      declarationStepWith addUnique fullType lineno tok rest st =
          some (rest, { st with invalidIdentifiers := addUnique st.invalidIdentifiers tok }) ∧
        processDeclarationTokensWith addUnique fullType lineno (tok :: rest) st =
          processDeclarationTokensWith addUnique fullType lineno rest
            { st with invalidIdentifiers := addUnique st.invalidIdentifiers tok }) ∧
    (¬ IsNameLike tok →
      declarationStepWith addUnique fullType lineno tok rest st = some (rest, st) ∧
        processDeclarationTokensWith addUnique fullType lineno (tok :: rest) st =
          processDeclarationTokensWith addUnique fullType lineno rest st) := by
  have hstep := declarationStepWith_invalid addUnique fullType lineno tok rest st hsemi hinv
  have hiff := couldBeName_iff line tok hmem
  constructor
  · intro hn
    have hcomma : tok ≠ [','] := by
      rintro rfl
      exact hn.2.2.2.1 ⟨rfl, by decide⟩
    rw [if_pos ⟨hiff.mpr hn, hcomma⟩] at hstep
    refine ⟨hstep, ?_⟩
    rw [processDeclarationTokensWith_cons, hstep]
  · intro hn
    rw [if_neg (fun h => hn (hiff.mp h.1))] at hstep
    refine ⟨hstep, ?_⟩
    rw [processDeclarationTokensWith_cons, hstep]

/-- An instance of `invalidCandidate_step`: the candidate `xx1@r` of the line
`int xx1@r = 5;`, which fails the validation and is name-like. -/
theorem invalidCandidate_step_witness :
    IsNameLike "xx1@r".toList ∧
      declarationStepWith addUnique "int".toList 1 "xx1@r".toList
          (["=", "5", ";"].map String.toList) State.init =
        some (["=", "5", ";"].map String.toList,
          { State.init with
            invalidIdentifiers := addUnique State.init.invalidIdentifiers "xx1@r".toList }) :=
  ⟨by decide,
    ((invalidCandidate_step "int xx1@r = 5;".toList "xx1@r".toList "int".toList 1
      (["=", "5", ";"].map String.toList) State.init (by decide) (by decide) (by decide)).1
      (by decide)).1⟩

/-! ## Candidates of a variable declaration (lines 252-311) -/

theorem processDeclarationTokensWith_semicolon (ins : List Str → Str → List Str)
    (fullType : Str) (lineno : Nat) (rest : List Str) (st : State) :
    processDeclarationTokensWith ins fullType lineno ([';'] :: rest) st = st := by
  rw [processDeclarationTokensWith_cons]
  have : declarationStepWith ins fullType lineno [';'] rest st = none := by
    unfold declarationStepWith
    rw [if_neg (by decide), if_pos (by decide)]
  rw [this]

theorem processDeclarationTokensWith_comma (ins : List Str → Str → List Str)
    (fullType : Str) (lineno : Nat) (rest : List Str) (st : State) :
    processDeclarationTokensWith ins fullType lineno ([','] :: rest) st =
      processDeclarationTokensWith ins fullType lineno rest st := by
  rw [processDeclarationTokensWith_cons]
  have : declarationStepWith ins fullType lineno [','] rest st = some (rest, st) := by
    unfold declarationStepWith
    rw [if_pos (by decide)]
  rw [this]

/-- A pass of the declaration loop on a token, other than `;`, that the
validator rejects. -/
theorem processDeclarationTokensWith_rejected (ins : List Str → Str → List Str)
    (fullType : Str) (lineno : Nat) (tok : Str) (rest : List Str) (st : State)
    (hsemi : tok ≠ [';']) (hinv : isValidIdentifier_Advanced tok = false) :
    processDeclarationTokensWith ins fullType lineno (tok :: rest) st =
      processDeclarationTokensWith ins fullType lineno rest
        ((if couldBeName tok then [DeclEvent.invalid tok] else []).foldl
          (DeclEvent.apply ins fullType lineno) st) := by
  rw [processDeclarationTokensWith_cons,
    declarationStepWith_invalid ins fullType lineno tok rest st hsemi hinv]
  dsimp only
  by_cases hc : couldBeName tok = true
  · have hcomma : tok ≠ [','] := by
      rintro rfl
      exact absurd hc (by decide)
    rw [if_pos ⟨hc, hcomma⟩, if_pos hc]
    rfl
  · rw [if_neg (fun h => hc h.1), if_neg hc]
    rfl

/-- A pass of the declaration loop on a token that the validator accepts and
that is followed by a token other than `=`. -/
theorem processDeclarationTokensWith_accepted (ins : List Str → Str → List Str)
    (fullType : Str) (lineno : Nat) (tok next : Str) (rest : List Str) (st : State)
    (hval : isValidIdentifier_Advanced tok = true) (hnext : next ≠ ['=']) :
    processDeclarationTokensWith ins fullType lineno (tok :: next :: rest) st =
      processDeclarationTokensWith ins fullType lineno (next :: rest)
        ((DeclEvent.valid tok ['-']).apply ins fullType lineno st) := by
  have h1 : tok ≠ [','] := by rintro rfl; exact absurd hval (by decide)
  have h2 : tok ≠ [';'] := by rintro rfl; exact absurd hval (by decide)
  rw [processDeclarationTokensWith_cons]
  have : declarationStepWith ins fullType lineno tok (next :: rest) st =
      some (next :: rest, (DeclEvent.valid tok ['-']).apply ins fullType lineno st) := by
    unfold declarationStepWith
    rw [if_neg (by simpa using h1), if_neg (by simpa using h2), if_pos hval]
    dsimp only
    rw [if_neg (by simpa using hnext)]
    rfl
  rw [this]

/-- A pass of the declaration loop on a token that the validator accepts and
that is followed by `=` and a value token. -/
theorem processDeclarationTokensWith_initialized (ins : List Str → Str → List Str)
    (fullType : Str) (lineno : Nat) (tok v : Str) (rest : List Str) (st : State)
    (hval : isValidIdentifier_Advanced tok = true) :
    processDeclarationTokensWith ins fullType lineno (tok :: ['='] :: v :: rest) st =
      processDeclarationTokensWith ins fullType lineno rest
        ((DeclEvent.valid tok v).apply ins fullType lineno st) := by
  have h1 : tok ≠ [','] := by rintro rfl; exact absurd hval (by decide)
  have h2 : tok ≠ [';'] := by rintro rfl; exact absurd hval (by decide)
  rw [processDeclarationTokensWith_cons]
  have : declarationStepWith ins fullType lineno tok (['='] :: v :: rest) st =
      some (rest, (DeclEvent.valid tok v).apply ins fullType lineno st) := by
    unfold declarationStepWith
    rw [if_neg (by simpa using h1), if_neg (by simpa using h2), if_pos hval]
    rfl
  rw [this]

/-- The declaration loop on the tokens of one candidate, followed by a comma
or a semicolon: it makes the recordings of the candidate and goes on at the
comma or semicolon. -/
theorem processDeclarationTokensWith_candidate (ins : List Str → Str → List Str)
    (fullType : Str) (lineno : Nat) (c : Candidate) (sep : Str) (rest : List Str)
    (st : State) (hsep : sep ≠ ['=']) (hname : c.name ≠ [';'])
    (hvalue : c.value ≠ some [';']) :
    processDeclarationTokensWith ins fullType lineno (c.tokens ++ sep :: rest) st =
      processDeclarationTokensWith ins fullType lineno (sep :: rest)
        (c.events.foldl (DeclEvent.apply ins fullType lineno) st) := by
  obtain ⟨name, value⟩ := c
  dsimp only at hname hvalue
  unfold Candidate.tokens Candidate.events
  dsimp only
  by_cases hv : isValidIdentifier_Advanced name = true
  · rw [if_pos hv]
    cases value with
    | none =>
      exact processDeclarationTokensWith_accepted ins fullType lineno name sep rest st hv hsep
    | some v =>
      exact processDeclarationTokensWith_initialized ins fullType lineno name v (sep :: rest)
        st hv
  · rw [if_neg hv]
    have hv' : isValidIdentifier_Advanced name = false := by simpa using hv
    cases value with
    | none =>
      rw [List.append_nil]
      exact processDeclarationTokensWith_rejected ins fullType lineno name (sep :: rest) st
        hname hv'
    | some v =>
      have hvs : v ≠ [';'] := fun h => hvalue (by rw [h])
      rw [List.foldl_append]
      dsimp only [List.cons_append, List.nil_append]
      rw [processDeclarationTokensWith_rejected ins fullType lineno name _ st hname hv',
        processDeclarationTokensWith_rejected ins fullType lineno ['='] _ _ (by decide)
          (by decide)]
      have he : (if couldBeName ['='] = true then [DeclEvent.invalid ['=']] else []) = [] := by
        decide
      rw [he, List.foldl_nil]
      unfold scanEvents
      by_cases hw : isValidIdentifier_Advanced v = true
      · rw [if_pos hw]
        exact processDeclarationTokensWith_accepted ins fullType lineno v sep rest _ hw hsep
      · rw [if_neg hw]
        exact processDeclarationTokensWith_rejected ins fullType lineno v (sep :: rest) _ hvs
          (by simpa using hw)

/-- The declaration loop on comma-separated candidates ended by `;` makes the
recordings of the candidates, one candidate after the other. -/
theorem processDeclarationTokensWith_candidates (ins : List Str → Str → List Str)
    (fullType : Str) (lineno : Nat) : ∀ (cs : List Candidate) (st : State),
      (∀ c ∈ cs, c.name ≠ [';'] ∧ c.value ≠ some [';']) →
        processDeclarationTokensWith ins fullType lineno (candidateTokens cs) st =
          (cs.flatMap Candidate.events).foldl (DeclEvent.apply ins fullType lineno) st := by
  intro cs
  induction cs with
  | nil =>
    intro st _
    exact processDeclarationTokensWith_semicolon ins fullType lineno [] st
  | cons c cs ih =>
    intro st h
    obtain ⟨hn, hv⟩ := h c (by simp)
    rw [List.flatMap_cons, List.foldl_append]
    cases cs with
    | nil =>
      rw [candidateTokens,
        processDeclarationTokensWith_candidate ins fullType lineno c _ _ st (by decide) hn hv,
        processDeclarationTokensWith_semicolon]
      rfl
    | cons d ds =>
      rw [candidateTokens,
        processDeclarationTokensWith_candidate ins fullType lineno c _ _ st (by decide) hn hv,
        processDeclarationTokensWith_comma]
      exact ih _ (fun x hx => h x (by simp [hx]))

/-- The scan of lines 380-396 does not take a line for a function declaration
when the token after the one that ends the run of data-type keywords is not
`(`. -/
theorem scanDataTypes_variable (types rest : List Str) (hne : types ≠ [])
    (htypes : ∀ t ∈ types, isDataTypeToken t = true)
    (hmax : ∀ t r, rest = t :: r → isDataTypeToken t = false)
    (hnf : ∀ t u r, rest = t :: u :: r → u ≠ ['(']) :
    (scanDataTypes (types ++ rest) 0 0 []).isFunctionDecl = false := by
  match types, hne, htypes with
  | t :: ts, _, htypes =>
    have ht := htypes t (by simp)
    rw [List.cons_append, scanDataTypes, if_pos ht,
      scanDataTypes_run ts (fun u hu => htypes u (by simp [hu])) _ _ _ _ (by omega)]
    cases rest with
    | nil => rfl
    | cons r rs =>
      have hr := hmax r rs rfl
      rw [scanDataTypes, if_neg (by simp [hr])]
      cases rs with
      | nil => rw [if_neg (by simp)]
      | cons u r2 =>
        have hu := hnf r u r2 rfl
        rw [if_neg (by simp [hu])]

theorem candidateTokens_head (cs : List Candidate) (t : Str) (r : List Str)
    (h : candidateTokens cs = t :: r) :
    (cs = [] ∧ t = [';']) ∨ ∃ c ds, cs = c :: ds ∧ t = c.name := by
  match cs with
  | [] =>
    rw [candidateTokens] at h
    cases h
    exact Or.inl ⟨rfl, rfl⟩
  | [c] =>
    refine Or.inr ⟨c, [], rfl, ?_⟩
    rw [candidateTokens, Candidate.tokens] at h
    cases hv : c.value <;> rw [hv] at h <;> cases h <;> rfl
  | c :: d :: ds =>
    refine Or.inr ⟨c, d :: ds, rfl, ?_⟩
    rw [candidateTokens, Candidate.tokens] at h
    cases hv : c.value <;> rw [hv] at h <;> cases h <;> rfl

theorem candidateTokens_second (cs : List Candidate) (t u : Str) (r : List Str)
    (h : candidateTokens cs = t :: u :: r) : u ≠ ['('] := by
  match cs with
  | [] =>
    rw [candidateTokens] at h
    cases h
  | [c] =>
    rw [candidateTokens, Candidate.tokens] at h
    cases hv : c.value <;> rw [hv] at h <;> cases h <;> decide
  | c :: d :: ds =>
    rw [candidateTokens, Candidate.tokens] at h
    cases hv : c.value <;> rw [hv] at h <;> cases h <;> decide

/-- The declaration part of the loop body on a line of data-type keywords
followed by comma-separated candidates ended by `;`. -/
theorem processDeclarationsWith_candidates (ins : List Str → Str → List Str)
    (types : List Str) (cs : List Candidate) (st : State) (hne : types ≠ [])
    (htypes : ∀ t ∈ types, isDataTypeToken t = true)
    (hmax : ∀ c ds, cs = c :: ds → isDataTypeToken c.name = false)
    (hcs : ∀ c ∈ cs, c.name ≠ [';'] ∧ c.value ≠ some [';']) :
    processDeclarationsWith ins (types ++ candidateTokens cs) st =
      (cs.flatMap Candidate.events).foldl
        (DeclEvent.apply ins ([' '].intercalate types) st.lineno) st := by
  have hmax1 : ∀ t r, candidateTokens cs = t :: r → isDataTypeToken t = false := by
    intro t r h
    rcases candidateTokens_head cs t r h with ⟨-, rfl⟩ | ⟨c, ds, hc, rfl⟩
    · decide
    · exact hmax c ds hc
  obtain ⟨hbuf, hlen, -⟩ := scanDataTypes_maximal types (candidateTokens cs) hne htypes hmax1
  have hfun := scanDataTypes_variable types (candidateTokens cs) hne htypes hmax1
    (candidateTokens_second cs)
  have hpos : 0 < (candidateTokens cs).length := by
    match cs with
    | [] => simp [candidateTokens]
    | [c] => simp [candidateTokens]
    | c :: d :: ds => simp [candidateTokens]
  have htl : 0 < types.length := List.length_pos.mpr hne
  unfold processDeclarationsWith
  dsimp only
  rw [hbuf, hlen, hfun, if_pos (by simp; omega), if_neg (by simp), List.drop_left]
  exact processDeclarationTokensWith_candidates ins _ _ cs st hcs

/-- C11, the claim as written fails: the tokens of `int ab = abcd12@r;` after
the data-type keyword are the candidate `ab`, `=`, the value token
`abcd12@r` and `;`.  The validator rejects `ab`, so the initializer is not
consumed, and the value token is recorded as a name: it is put into
`validIdentifiers` and gets a symbol record with the value `-`. -/
theorem declaration_candidates_counterexample :
    lineTokens State.init.insideComment "int ab = abcd12@r;".toList =
        ["int".toList] ++
          candidateTokens [{ name := "ab".toList, value := some "abcd12@r".toList }] ∧
      isValidIdentifier_Advanced "ab".toList = false ∧
      (processLine State.init "int ab = abcd12@r;".toList).invalidIdentifiers =
        ["ab".toList] ∧
      (processLine State.init "int ab = abcd12@r;".toList).validIdentifiers =
        ["abcd12@r".toList] ∧
      (processLine State.init "int ab = abcd12@r;".toList).symbolTable =
        [{ name := "abcd12@r".toList, type := "int".toList, value := "-".toList,
           line := 1 }] := by
  decide

/-- C11, amended.  Let the tokens of a line be one or more data-type keywords
(the whole leading run) followed by comma-separated candidates ended by `;`,
each candidate a name token other than `;`, by itself or followed by `=` and
one value token other than `;`.  Then the identifier lists and the symbol
table after the line are those after the recordings of the candidates, made
one candidate after the other, each candidate's recordings depending on that
candidate only.  A candidate that the validator accepts is added to
`validIdentifiers` (when absent) and handed to `addToSymbolTable` with the
joined keywords as type, the token after its own `=`, or `-` when it has
none, as value, and the number of the line; its value token is not recorded
as a name.  A candidate that the validator rejects is added to
`invalidIdentifiers` (when absent) if it passes the test of lines 294-296,
and its value token, if it has one, is then treated as a candidate without
initializer. -/
theorem declaration_candidates (st : State) (line : Str) (types : List Str)
    (cs : List Candidate)
    (htok : lineTokens st.insideComment line = types ++ candidateTokens cs)
    (hne : types ≠ []) (htypes : ∀ t ∈ types, isDataTypeToken t = true)
    (hmax : ∀ c ds, cs = c :: ds → isDataTypeToken c.name = false)
    (hcs : ∀ c ∈ cs, c.name ≠ [';'] ∧ c.value ≠ some [';']) :
    SameDeclarations
      ((cs.flatMap Candidate.events).foldl
        (DeclEvent.apply addUnique ([' '].intercalate types) (st.lineno + 1)) st)
      (processLine st line) := by
  obtain ⟨inside, h⟩ := processLine_declarations st line _ htok (by simp [hne])
  rw [processDeclarationsWith_candidates addUnique types cs _ hne htypes hmax hcs] at h
  have h0 : SameDeclarations st { st with lineno := st.lineno + 1, insideComment := inside } :=
    ⟨rfl, rfl, rfl⟩
  exact sameDeclarations_trans (sameDeclarations_foldl addUnique _ _ _ h0) h

/-- An instance of `declaration_candidates`: the line
`int agencyzz12@r, xx1@r = 5;` as the first line of the file.  Both names are
put into `invalidIdentifiers`, and no name is recorded as valid or gets a
symbol record. -/
theorem declaration_candidates_witness :
    (processLine State.init "int agencyzz12@r, xx1@r = 5;".toList).invalidIdentifiers =
        ["agencyzz12@r".toList, "xx1@r".toList] ∧
      (processLine State.init "int agencyzz12@r, xx1@r = 5;".toList).validIdentifiers = [] ∧
      (processLine State.init "int agencyzz12@r, xx1@r = 5;".toList).symbolTable = [] :=
  have h := declaration_candidates State.init "int agencyzz12@r, xx1@r = 5;".toList
    ["int".toList]
    [{ name := "agencyzz12@r".toList, value := none },
     { name := "xx1@r".toList, value := some "5".toList }]
    (by decide) (by decide) (by decide) (by intro c ds h; cases h; decide) (by decide)
  ⟨h.2.2.trans (by decide), h.2.1.trans (by decide), h.1.trans (by decide)⟩

/-! ## Termination of the tokenizer -/

theorem tokenizeLine_length_le (n : Nat) : ∀ line : Str, line.length ≤ n →
    (tokenizeLine line).length ≤ line.length := by
  induction n with
  | zero =>
    intro line h
    have : line = [] := List.length_eq_zero.mp (by omega)
    subst this
    simp [tokenizeLine_nil]
  | succ n ih =>
    intro line h
    cases line with
    | nil => simp [tokenizeLine_nil]
    | cons c rest =>
      have hle := tokenizeStep_length_le c rest
      simp only [List.length_cons] at h
      have hrec := ih (tokenizeStep (c :: rest)).2 (by omega)
      have hone : (tokenizeStep (c :: rest)).1.toList.length ≤ 1 := by
        cases (tokenizeStep (c :: rest)).1 <;> simp
      rw [tokenizeLine_cons, List.length_append, List.length_cons]
      omega

/-- A pass of the loop of `tokenizeLine` moves the cursor behind a non-empty
piece of the text. -/
theorem tokenizeStep_advances (c : Char) (rest : Str) :
    ∃ consumed : Str, consumed ≠ [] ∧
      c :: rest = consumed ++ (tokenizeStep (c :: rest)).2 := by
  rcases tokenizeStep_spec c rest with ⟨_, h⟩ | ⟨_, token, after, hne, h, heq⟩
  · exact ⟨[c], by simp, by rw [h]; rfl⟩
  · exact ⟨token, hne, by rw [h]; exact heq⟩

/-- C22. `tokenizeLine` terminates on every line.  Each pass of its loop
moves the cursor behind a non-empty piece of the text.  The start test of the
word branch admits `#` and its continuation test does not, so that branch
would not move the cursor at `#`; but a pass that starts at `#` stores the
token `#` in the branch of line 208 and moves by one character.  The loop
ends within one pass per character, no token is empty, and there are at most
as many tokens as the line has characters. -/
theorem tokenizeLine_terminates (line : Str) :
    (∀ (c : Char) (rest : Str), ∃ consumed : Str, consumed ≠ [] ∧
      c :: rest = consumed ++ (tokenizeStep (c :: rest)).2) ∧
    (identStart '#' = true ∧ identCont '#' = false ∧ isSpecialSymbol '#' = true ∧
      ∀ rest : Str, wordLength '#' rest = some 0 ∧
        tokenizeStep ('#' :: rest) = (some ['#'], rest)) ∧
    (∀ fuel : Nat, line.length ≤ fuel → tokenizeLoop fuel line = some (tokenizeLine line)) ∧
    [] ∉ tokenizeLine line ∧
    (tokenizeLine line).length ≤ line.length := by
  refine ⟨tokenizeStep_advances, ⟨by decide, by decide, by decide, ?_⟩, ?_, ?_,
    tokenizeLine_length_le _ line (le_refl _)⟩
  · intro rest
    constructor
    · simp [wordLength, skipWhile, show identStart '#' = true by decide,
        show identCont '#' = false by decide]
    · have hm : ∀ d, isMultiCharOp ['#', d] = false := by
        intro d
        simp only [isMultiCharOp, multiCharOps, List.contains_eq_any_beq, List.map]
        simp
      unfold tokenizeStep
      simp only [show isspace '#' = false by decide, hm, Bool.and_false, Bool.false_eq_true,
        if_false]
      rw [if_pos (by decide)]
  · intro fuel hfuel
    obtain ⟨tokens, h⟩ := tokenizeLoop_enough line.length line (le_refl _)
    unfold tokenizeLine
    rw [h _ (le_refl _), h _ hfuel]
    rfl
  · intro h
    exact (mem_tokenizeLine_shape line [] h).1 rfl

/-! ## An identifier followed by an exclamation mark -/

/-- A letter or an underscore is no whitespace and starts no operator,
separator, bracket or special symbol, so a pass of the tokenizer that starts
at it goes to the word branch of lines 217-219. -/
theorem wordStart_plain (c : Char) (h : (isalpha c || c == '_') = true) :
    isspace c = false ∧ (∀ d, isMultiCharOp [c, d] = false) ∧ isOperatorChar c = false ∧
      isSeparator c = false ∧ isBracket c = false ∧ isSpecialSymbol c = false ∧
      identStart c = true := by
  have hne : ∀ x : Char, (isalpha x || x == '_') = false → c ≠ x := by
    intro x hx hcx
    rw [hcx, hx] at h
    cases h
  have hnum : 65 ≤ c.toNat := by
    simp only [isalpha, isupper, islower, Bool.or_eq_true, Bool.and_eq_true, decide_eq_true_eq,
      beq_iff_eq] at h
    rcases h with (h | h) | h
    · exact h.1
    · omega
    · rw [h]; decide
  have hzero : (c.toNat == 0) = false := by
    simp only [beq_eq_false_iff_ne, ne_eq]
    omega
  have hmem : ∀ l : Str, (∀ x ∈ l, (isalpha x || x == '_') = false) → strchr l c = false := by
    intro l hl
    unfold strchr
    rw [hzero, Bool.false_or]
    simp only [List.contains_eq_any_beq, List.any_eq_false, beq_iff_eq]
    intro x hx hcx
    exact hne x (hl x hx) hcx
  refine ⟨?_, ?_, hmem _ (by decide), hmem _ (by decide), hmem _ (by decide),
    hmem _ (by decide), ?_⟩
  · simp only [isspace, Bool.or_eq_false_iff, beq_eq_false_iff_ne, ne_eq, Bool.and_eq_false_iff,
      decide_eq_false_iff_not]
    omega
  · intro d
    have hall : ∀ op ∈ multiCharOps, (isalpha (charAt op 0) || charAt op 0 == '_') = false := by
      decide
    by_contra hm
    have hin : [c, d] ∈ multiCharOps := by simpa [isMultiCharOp] using hm
    exact hne c (hall _ hin) rfl
  · simp only [identStart, Bool.or_eq_true] at h ⊢
    rcases h with h | h
    · exact Or.inl (Or.inl (Or.inl (Or.inl h)))
    · exact Or.inl (Or.inl (Or.inl (Or.inr h)))

/-- C27. The word loop takes a `!` that follows an identifier: for every
text `x` of letters, digits and underscores that begins with a letter or an
underscore, the tokens of `x!=` are `x!` and `=`. -/
theorem identifier_absorbs_bang (x : Str)
    (hstart : (isalpha (charAt x 0) || charAt x 0 == '_') = true)
    (hall : ∀ d ∈ x, (isalnum d || d == '_') = true) :
    tokenizeLine (x ++ "!=".toList) = [x ++ ['!'], ['=']] := by
  cases x with
  | nil => exact absurd hstart (by decide)
  | cons c rest =>
    have hc : (isalpha c || c == '_') = true := hstart
    obtain ⟨hsp, hmulti, hop, hsep, hbr, hsym, hid⟩ := wordStart_plain c hc
    have hcont : ∀ d ∈ c :: rest ++ ['!'], identCont d = true := by
      intro d hd
      rcases List.mem_append.mp hd with h | h
      · have := hall d h
        simp only [identCont, Bool.or_eq_true] at this ⊢
        rcases this with h1 | h1
        · exact Or.inl (Or.inl (Or.inl h1))
        · exact Or.inl (Or.inl (Or.inr h1))
      · have : d = '!' := by simpa using h
        rw [this]
        decide
    have htake := takeWhile_append_stop identCont (c :: rest ++ ['!']) ['='] hcont
      (by intro d t h; cases h; decide)
    have htext : c :: rest ++ "!=".toList = (c :: rest ++ ['!']) ++ ['='] := by simp
    have hlen : wordLength c (rest ++ "!=".toList) = some (c :: rest ++ ['!']).length := by
      unfold wordLength
      dsimp only
      rw [if_pos hid]
      unfold skipWhile
      rw [← List.cons_append, htext, htake.1]
    have hstep : tokenizeStep (c :: rest ++ "!=".toList) = (some (c :: rest ++ ['!']), ['=']) := by
      rw [List.cons_append, tokenizeStep_word c _ hsp hmulti hop hsep hbr hsym, hlen]
      dsimp only
      rw [if_pos (by simp), ← List.cons_append, htext, List.take_left, List.drop_left]
    rw [List.cons_append, tokenizeLine_cons, ← List.cons_append, hstep]
    have : tokenizeLine ['='] = [['=']] := by decide
    rw [this]
    rfl

/-- An instance of `identifier_absorbs_bang` with `x = a`, together with the
tokens of `a!=b`. -/
theorem identifier_absorbs_bang_witness :
    tokenizeLine ("a".toList ++ "!=".toList) = ["a".toList ++ ['!'], ['=']] ∧
      tokenizeLine "a!=b".toList = ["a!".toList, "=".toList, "b".toList] :=
  ⟨identifier_absorbs_bang "a".toList (by decide) (by decide), by decide⟩

/-! ## The bucket of the character literals -/

/-- C25. A token that starts and ends with a single quote passes none of the
tests that the categorizer makes before the test for character literals
(empty token, keyword, operator of two characters, operator, separator,
bracket, special symbol, string literal), and the categorizer appends it
(when absent) to `stringLiteralsFound`, the bucket of the string literals,
and changes nothing else. -/
theorem charLiteral_bucket (st : State) (token : Str) (hfirst : charAt token 0 = '\'')
    (hlast : charAt token (token.length - 1) = '\'') :
    (token ≠ [] ∧ isKeyword token = false ∧ isMultiCharOp token = false ∧
      isOperatorString token = false ∧
      (token.length == 1 && isSeparator (charAt token 0)) = false ∧
      (token.length == 1 && isBracket (charAt token 0)) = false ∧
      (token.length == 1 && isSpecialSymbol (charAt token 0)) = false ∧
      (charAt token 0 == '"' && charAt token (token.length - 1) == '"') = false) ∧
    categorizeTokenWith addUnique st token =
      { st with stringLiteralsFound := addUnique st.stringLiteralsFound token } := by
  have hne : token ≠ [] := by
    rintro rfl
    exact absurd hfirst (by decide)
  have hk : isKeyword token = false := by
    have hall : ∀ k ∈ keywords, charAt k 0 ≠ '\'' := by decide
    by_contra hc
    exact hall token (by simpa [isKeyword] using hc) hfirst
  have hm : isMultiCharOp token = false := by
    have hall : ∀ k ∈ multiCharOps, charAt k 0 ≠ '\'' := by decide
    by_contra hc
    exact hall token (by simpa [isMultiCharOp] using hc) hfirst
  have ho : isOperatorString token = false := by
    unfold isOperatorString
    rw [hfirst, hm, show isOperatorChar '\'' = false by decide, Bool.and_false]
    rfl
  have hs : (token.length == 1 && isSeparator (charAt token 0)) = false := by
    rw [hfirst, show isSeparator '\'' = false by decide, Bool.and_false]
  have hb : (token.length == 1 && isBracket (charAt token 0)) = false := by
    rw [hfirst, show isBracket '\'' = false by decide, Bool.and_false]
  have hy : (token.length == 1 && isSpecialSymbol (charAt token 0)) = false := by
    rw [hfirst, show isSpecialSymbol '\'' = false by decide, Bool.and_false]
  have hq : (charAt token 0 == '"' && charAt token (token.length - 1) == '"') = false := by
    rw [hfirst, show ('\'' == '"') = false by decide, Bool.false_and]
  have hc : (charAt token 0 == '\'' && charAt token (token.length - 1) == '\'') = true := by
    rw [hfirst, hlast]
    rfl
  refine ⟨⟨hne, hk, hm, ho, hs, hb, hy, hq⟩, ?_⟩
  unfold categorizeTokenWith
  rw [if_neg (by simpa using hne), if_neg (by simp [hk]), if_neg (by simp [hm]),
    if_neg (by simp [ho]), if_neg (by rw [hs]; simp), if_neg (by rw [hb]; simp),
    if_neg (by rw [hy]; simp), if_neg (by rw [hq]; simp), if_pos hc]

/-- An instance of `charLiteral_bucket`: the token `'a'` with the empty
accumulators. -/
theorem charLiteral_bucket_witness :
    categorizeTokenWith addUnique State.init "'a'".toList =
      { State.init with
        stringLiteralsFound := addUnique State.init.stringLiteralsFound "'a'".toList } :=
  (charLiteral_bucket State.init "'a'".toList (by decide) (by decide)).2

/-! ## The names of the symbol table -/

theorem alreadyInSymbolTable_eq_contains (table : List Symbol) (name : Str) :
    alreadyInSymbolTable table name = (table.map Symbol.name).contains name := by
  unfold alreadyInSymbolTable
  induction table with
  | nil => rfl
  | cons s rest ih =>
    simp only [List.any_cons, List.map_cons, List.contains_cons, ih]
    rw [show (s.name == name) = (name == s.name) from by
      cases h : (s.name == name) <;> cases h2 : (name == s.name) <;> simp_all]

theorem apply_namesMatch (fullType : Str) (lineno : Nat) (e : DeclEvent) (he : e.Agrees)
    (st : State) (h : NamesMatch st) : NamesMatch (e.apply addUnique fullType lineno st) := by
  cases e with
  | valid name value =>
    have hlen := isValidIdentifier_Advanced_length name he
    have htake : name.take 99 = name := List.take_of_length_le (by omega)
    unfold NamesMatch at h ⊢
    simp only [DeclEvent.apply, addToSymbolTable, addUnique]
    rw [alreadyInSymbolTable_eq_contains, h]
    by_cases hc : st.validIdentifiers.contains name = true
    · rw [if_neg (by rw [hc]; simp), if_pos hc]
      exact h
    · rw [if_pos (by simpa using hc), if_neg hc, List.map_append, h]
      simp [htake]
  | invalid name => exact h

theorem foldl_apply_namesMatch (fullType : Str) (lineno : Nat) (events : List DeclEvent) :
    ∀ st : State, (∀ e ∈ events, e.Agrees) → NamesMatch st →
      NamesMatch (events.foldl (DeclEvent.apply addUnique fullType lineno) st) := by
  induction events with
  | nil => intro st _ h; exact h
  | cons e es ih =>
    intro st hw h
    exact ih _ (fun x hx => hw x (by simp [hx]))
      (apply_namesMatch fullType lineno e (hw e (by simp)) st h)

theorem processLine_namesMatch (st : State) (line : Str) (h : NamesMatch st) :
    NamesMatch (processLine st line) := by
  obtain ⟨events, hw, h1, h2, -⟩ := processLine_events st line
  have := foldl_apply_namesMatch
    (scanDataTypes (lineTokens st.insideComment line) 0 0 []).dataTypeBuffer (st.lineno + 1)
    events st hw h
  unfold NamesMatch at this ⊢
  rw [h1, h2]
  exact this

theorem foldl_processLine_namesMatch (lines : List Str) : ∀ st : State,
    NamesMatch st → NamesMatch (lines.foldl processLine st) := by
  induction lines with
  | nil => intro st h; exact h
  | cons l ls ih =>
    intro st h
    exact ih _ (processLine_namesMatch st l h)

theorem processFile_namesMatch (lines : List Str) : NamesMatch (processFile lines) :=
  foldl_processLine_namesMatch lines State.init rfl

/-- C24. In every state reached by processing lines from empty accumulators,
the names of the records of the symbol table are, element by element and in
the same order, the entries of `validIdentifiers`. -/
theorem symbolTable_names (lines : List Str) :
    (processFile lines).symbolTable.map Symbol.name = (processFile lines).validIdentifiers :=
  processFile_namesMatch lines

/-! ## Recorded names are tokens -/

/-- A pass of the declaration loop adds at most the token it was entered with
to `validIdentifiers`, and it goes on with tokens that come after that
token. -/
theorem declarationStepWith_recorded (fullType : Str) (lineno : Nat) (tok : Str)
    (rest : List Str) (st : State) (next : List Str × State)
    (h : declarationStepWith addUnique fullType lineno tok rest st = some next) :
    (∀ x ∈ next.2.validIdentifiers, x ∈ st.validIdentifiers ∨ x = tok) ∧
      ∀ x ∈ next.1, x ∈ rest := by
  unfold declarationStepWith at h
  by_cases h1 : (tok == [',']) = true
  · rw [if_pos h1] at h; cases h; exact ⟨fun x hx => Or.inl hx, fun x hx => hx⟩
  · rw [if_neg h1] at h
    by_cases h2 : (tok == [';']) = true
    · rw [if_pos h2] at h; cases h
    · rw [if_neg h2] at h
      by_cases h3 : isValidIdentifier_Advanced tok = true
      · rw [if_pos h3] at h
        cases h
        refine ⟨fun x hx => (mem_addUnique_iff _ _ _).mp hx, ?_⟩
        match rest with
        | [] => simp
        | nx :: rest1 =>
          dsimp only
          split_ifs
          · match rest1 with
            | [] => simp
            | v :: rest2 =>
              intro x hx
              simp only [List.mem_cons]
              exact Or.inr (Or.inr hx)
          · exact fun x hx => hx
      · rw [if_neg h3] at h
        cases h
        dsimp only
        refine ⟨?_, fun x hx => hx⟩
        split_ifs
        · exact fun x hx => Or.inl hx
        · exact fun x hx => Or.inl hx

/-- Every name that the declaration loop adds to `validIdentifiers` is one of
the tokens it is run on. -/
theorem processDeclarationTokensWith_recorded (fullType : Str) (lineno n : Nat) :
    ∀ (tokens : List Str) (st : State), tokens.length ≤ n →
      ∀ x ∈ (processDeclarationTokensWith addUnique fullType lineno tokens st).validIdentifiers,
        x ∈ st.validIdentifiers ∨ x ∈ tokens := by
  induction n with
  | zero =>
    intro tokens st h
    have : tokens = [] := List.length_eq_zero.mp (by omega)
    subst this
    exact fun x hx => Or.inl hx
  | succ n ih =>
    intro tokens st h
    match tokens, h with
    | [], _ => exact fun x hx => Or.inl hx
    | tok :: rest, h =>
      simp only [List.length_cons] at h
      rw [processDeclarationTokensWith_cons]
      cases hs : declarationStepWith addUnique fullType lineno tok rest st with
      | none => exact fun x hx => Or.inl hx
      | some next =>
        have hle := declarationStepWith_length_le _ _ _ _ _ _ _ hs
        obtain ⟨h1, h2⟩ := declarationStepWith_recorded _ _ _ _ _ _ hs
        intro x hx
        rcases ih next.1 next.2 (by omega) x hx with h3 | h3
        · rcases h1 x h3 with h4 | h4
          · exact Or.inl h4
          · exact Or.inr (by rw [h4]; simp)
        · exact Or.inr (List.mem_cons_of_mem _ (h2 x h3))

theorem getD_mem (tokens : List Str) (i : Nat) (h : tokens.getD i [] ≠ []) :
    tokens.getD i [] ∈ tokens := by
  by_cases hi : i < tokens.length
  · rw [List.getD_eq_getElem _ _ hi]
    exact List.getElem_mem _
  · rw [List.getD_eq_default _ _ (by omega)] at h
    exact absurd rfl h

/-- Every name that the declaration part of the loop body adds to
`validIdentifiers` is a token of the line. -/
theorem processDeclarationsWith_recorded (tokens : List Str) (st : State) :
    ∀ x ∈ (processDeclarationsWith addUnique tokens st).validIdentifiers,
      x ∈ st.validIdentifiers ∨ x ∈ tokens := by
  unfold processDeclarationsWith
  dsimp only
  split_ifs with h1 h2 h3
  · intro x hx
    rcases (mem_addUnique_iff _ _ _).mp hx with h | h
    · exact Or.inl h
    · right
      rw [h]
      apply getD_mem
      intro he
      rw [he] at h3
      exact absurd h3 (by decide)
  · exact fun x hx => Or.inl hx
  · intro x hx
    rcases processDeclarationTokensWith_recorded _ _ _ _ _ (le_refl _) x hx with h | h
    · exact Or.inl h
    · exact Or.inr (List.mem_of_mem_drop h)
  · exact fun x hx => Or.inl hx

/-- Every name that a line adds to `validIdentifiers` is a token of the
line. -/
theorem processLine_recorded (st : State) (line : Str) :
    ∀ x ∈ (processLine st line).validIdentifiers,
      x ∈ st.validIdentifiers ∨ x ∈ lineTokens st.insideComment line := by
  unfold processLine processLineWith lineTokens
  dsimp only
  cases hs : stripComments st.insideComment line with
  | none => exact fun x hx => Or.inl hx
  | some r =>
    obtain ⟨text, inside⟩ := r
    dsimp only
    split_ifs with h0
    · exact fun x hx => Or.inl hx
    · intro x hx
      rw [(foldl_categorizeTokenWith_sameDeclarations addUnique (tokenizeLine text) _).2.1] at hx
      exact processDeclarationsWith_recorded (tokenizeLine text)
        { st with lineno := st.lineno + 1, insideComment := inside } x hx

theorem foldl_processLine_recorded (lines : List Str) : ∀ st : State,
    (∀ x ∈ st.validIdentifiers, ∃ text, x ∈ tokenizeLine text) →
      ∀ x ∈ (lines.foldl processLine st).validIdentifiers, ∃ text, x ∈ tokenizeLine text := by
  induction lines with
  | nil => intro st h; exact h
  | cons l ls ih =>
    intro st h
    apply ih
    intro x hx
    rcases processLine_recorded st l x hx with h1 | h1
    · exact h x h1
    · unfold lineTokens at h1
      cases hs : stripComments st.insideComment l with
      | none => rw [hs] at h1; simp at h1
      | some r => rw [hs] at h1; exact ⟨r.1, h1⟩

/-- Every entry of `validIdentifiers` is a token that `tokenizeLine` has
produced from some text. -/
theorem processFile_recorded (lines : List Str) :
    ∀ x ∈ (processFile lines).validIdentifiers, ∃ text, x ∈ tokenizeLine text :=
  foldl_processLine_recorded lines State.init (by simp [State.init])

/-- A token that begins with `#` is `#`, and a token that begins with `!` is
`!` or `!=`. -/
theorem mem_tokenizeLine_lead (line tok : Str) (h : tok ∈ tokenizeLine line) :
    (charAt tok 0 = '#' → tok = ['#']) ∧
      (charAt tok 0 = '!' → tok = ['!'] ∨ tok = ['!', '=']) := by
  obtain ⟨c, rest, -, hstep⟩ := mem_tokenizeLine_step line.length line tok (le_refl _) h
  obtain ⟨hc, hshape⟩ := tokenizeStep_shape c rest tok hstep
  constructor
  · intro h0
    have hc0 : c = '#' := by rw [← hc, h0]
    rcases hshape with h1 | h1 | h1
    · have hall : ∀ op ∈ multiCharOps, charAt op 0 ≠ '#' := by decide
      exact absurd h0 (hall tok (by simpa [isMultiCharOp] using h1))
    · rw [h1, hc0]
    · rw [hc0] at h1
      exact absurd h1 (by decide)
  · intro h0
    have hc0 : c = '!' := by rw [← hc, h0]
    rcases hshape with h1 | h1 | h1
    · have hall : ∀ op ∈ multiCharOps, charAt op 0 = '!' → op = ['!', '='] := by decide
      exact Or.inr (hall tok (by simpa [isMultiCharOp] using h1) h0)
    · exact Or.inl (by rw [h1, hc0])
    · rw [hc0] at h1
      exact absurd h1 (by decide)

/-- No entry of `validIdentifiers` begins with `#` or with `!`. -/
theorem processFile_valid_lead (lines : List Str) (name : Str)
    (h : name ∈ (processFile lines).validIdentifiers) :
    charAt name 0 ≠ '#' ∧ charAt name 0 ≠ '!' := by
  obtain ⟨text, ht⟩ := processFile_recorded lines name h
  have hlen := isValidIdentifier_Advanced_length name ((processFile_verdictsAgree lines).1 name h)
  obtain ⟨h1, h2⟩ := mem_tokenizeLine_lead text name ht
  constructor
  · intro h0
    rw [h1 h0] at hlen
    simp at hlen
  · intro h0
    rcases h2 h0 with h3 | h3 <;> rw [h3] at hlen <;> simp at hlen

/-! ## Leading characters of recorded names -/

/-- C23. Every token of `tokenizeLine` that begins with `#` is `#`, and every
token that begins with `!` is `!` or `!=`.  So in every state that
`processFile` reaches no entry of `validIdentifiers` and no name of a record
of the symbol table begins with `#` or `!`: on the line `int #abcd12@r;` the
name recorded is `abcd12@r`.  A name that begins with `@`, the third leading
character that the validator admits, can be recorded: the line
`int @abcd12@r;` records `@abcd12@r`. -/
theorem recorded_names_lead :
    (∀ (line tok : Str), tok ∈ tokenizeLine line →
      (charAt tok 0 = '#' → tok = ['#']) ∧
        (charAt tok 0 = '!' → tok = ['!'] ∨ tok = ['!', '='])) ∧
    (∀ (lines : List Str) (name : Str), name ∈ (processFile lines).validIdentifiers →
      charAt name 0 ≠ '#' ∧ charAt name 0 ≠ '!') ∧
    (∀ (lines : List Str) (r : Symbol), r ∈ (processFile lines).symbolTable →
      charAt r.name 0 ≠ '#' ∧ charAt r.name 0 ≠ '!') ∧
    (isValidIdentifier_Advanced "#abcd12@r".toList = true ∧
      (processFile ["int #abcd12@r;".toList]).validIdentifiers = ["abcd12@r".toList] ∧
      (processFile ["int #abcd12@r;".toList]).symbolTable =
        [{ name := "abcd12@r".toList, type := "int".toList, value := "-".toList,
           line := 1 }]) ∧
    ((processFile ["int @abcd12@r;".toList]).validIdentifiers = ["@abcd12@r".toList] ∧
      (processFile ["int @abcd12@r;".toList]).symbolTable =
        [{ name := "@abcd12@r".toList, type := "int".toList, value := "-".toList,
           line := 1 }]) := by
  refine ⟨mem_tokenizeLine_lead, processFile_valid_lead, ?_, by decide, by decide⟩
  intro lines r hr
  apply processFile_valid_lead lines
  rw [← processFile_namesMatch lines]
  exact List.mem_map_of_mem _ hr

/-! ## Valid names in the bucket of the other tokens -/

/-- A string that the validator accepts begins with `#`, `@`, `!` or a
lowercase letter. -/
theorem isValidIdentifier_Advanced_first (s : Str) (h : isValidIdentifier_Advanced s = true) :
    (charAt s 0 = '#' ∨ charAt s 0 = '@' ∨ charAt s 0 = '!') ∨ islower (charAt s 0) = true := by
  rw [isValidIdentifier_Advanced_eq] at h
  simp only [Bool.and_eq_true, decide_eq_true_eq] at h
  obtain ⟨⟨⟨⟨⟨-, -⟩, hl⟩, -⟩, -⟩, -⟩ := h
  by_cases hc : (charAt s 0 == '#' || charAt s 0 == '@' || charAt s 0 == '!') = true
  · left
    simp only [Bool.or_eq_true, beq_iff_eq] at hc
    rcases hc with (h1 | h1) | h1
    · exact Or.inl h1
    · exact Or.inr (Or.inl h1)
    · exact Or.inr (Or.inr h1)
  · right
    unfold afterLead at hl
    rw [if_neg hc] at hl
    cases s with
    | nil => simp at hl
    | cons c t =>
      by_cases hlow : islower c = true
      · exact hlow
      · rw [List.takeWhile_cons_of_neg hlow] at hl
        simp at hl

/-- The tests of the categorizer on a string that the validator accepts: it
passes none of the tests that come before the bucket `othersFound`. -/
theorem isValidIdentifier_Advanced_tests (token : Str)
    (h : isValidIdentifier_Advanced token = true) :
    token ≠ [] ∧ isKeyword token = false ∧ isMultiCharOp token = false ∧
      isOperatorString token = false ∧
      (token.length == 1 && isSeparator (charAt token 0)) = false ∧
      (token.length == 1 && isBracket (charAt token 0)) = false ∧
      (token.length == 1 && isSpecialSymbol (charAt token 0)) = false ∧
      (charAt token 0 == '"' && charAt token (token.length - 1) == '"') = false ∧
      (charAt token 0 == '\'' && charAt token (token.length - 1) == '\'') = false ∧
      isdigit (charAt token 0) = false := by
  have hlen := isValidIdentifier_Advanced_length token h
  have hone : (token.length == 1) = false := by
    simp only [beq_eq_false_iff_ne, ne_eq]
    omega
  have hk : isKeyword token = false := by
    have hall : ∀ k ∈ keywords, isValidIdentifier_Advanced k = false := by decide
    by_contra hc
    rw [hall token (by simpa [isKeyword] using hc)] at h
    cases h
  have hm : isMultiCharOp token = false := by
    have hall : ∀ k ∈ multiCharOps, k.length = 2 := by decide
    by_contra hc
    have := hall token (by simpa [isMultiCharOp] using hc)
    omega
  have hfirst : ∀ q : Char, (q = '#' ∨ q = '@' ∨ q = '!') ∨ islower q = true →
      (q == '"') = false ∧ (q == '\'') = false ∧ isdigit q = false := by
    intro q hq
    rcases hq with (rfl | rfl | rfl) | hq
    · decide
    · decide
    · decide
    · refine ⟨?_, ?_, ?_⟩
      · by_contra hc
        have : q = '"' := by simpa using hc
        rw [this] at hq
        exact absurd hq (by decide)
      · by_contra hc
        have : q = '\'' := by simpa using hc
        rw [this] at hq
        exact absurd hq (by decide)
      · by_contra hc
        rw [islower_not_isdigit q (by simpa using hc)] at hq
        cases hq
  obtain ⟨hq1, hq2, hq3⟩ := hfirst _ (isValidIdentifier_Advanced_first token h)
  refine ⟨?_, hk, hm, ?_, ?_, ?_, ?_, ?_, ?_, hq3⟩
  · rintro rfl
    simp at hlen
  · unfold isOperatorString
    rw [hone, hm]
    rfl
  · rw [hone, Bool.false_and]
  · rw [hone, Bool.false_and]
  · rw [hone, Bool.false_and]
  · rw [hq1, Bool.false_and]
  · rw [hq2, Bool.false_and]

/-- The categorizer puts a token that the validator accepts into
`othersFound` and touches nothing else. -/
theorem categorizeTokenWith_valid (ins : List Str → Str → List Str) (st : State)
    (token : Str) (h : isValidIdentifier_Advanced token = true) :
    categorizeTokenWith ins st token = { st with othersFound := ins st.othersFound token } := by
  obtain ⟨hne, hk, hm, ho, hs, hb, hy, hq, hc, hd⟩ := isValidIdentifier_Advanced_tests token h
  unfold categorizeTokenWith
  rw [if_neg (by simpa using hne), if_neg (by simp [hk]), if_neg (by simp [hm]),
    if_neg (by simp [ho]), if_neg (by rw [hs]; simp), if_neg (by rw [hb]; simp),
    if_neg (by rw [hy]; simp), if_neg (by rw [hq]; simp), if_neg (by rw [hc]; simp),
    if_neg (by simp [hd])]

/-- The categorizer keeps the entries of `othersFound`. -/
theorem categorizeTokenWith_others (st : State) (token : Str) :
    ∀ x ∈ st.othersFound, x ∈ (categorizeTokenWith addUnique st token).othersFound := by
  intro x hx
  by_cases hne : token = []
  · subst hne
    exact hx
  · rw [categorizeTokenWith_eq addUnique st token hne]
    have := get_set Bucket.others (tokenBucket token)
      (addUnique ((tokenBucket token).get st) token) st
    change x ∈ Bucket.others.get _
    rw [this]
    split_ifs with hb
    · rw [← hb]
      exact (mem_addUnique_iff _ _ _).mpr (Or.inl hx)
    · exact hx

/-- After the loop of lines 433-577 `othersFound` holds its earlier entries
and every token of the line that the validator accepts. -/
theorem foldl_categorizeTokenWith_others (tokens : List Str) : ∀ st : State,
    (∀ x ∈ st.othersFound, x ∈ (tokens.foldl (categorizeTokenWith addUnique) st).othersFound) ∧
      ∀ t ∈ tokens, isValidIdentifier_Advanced t = true →
        t ∈ (tokens.foldl (categorizeTokenWith addUnique) st).othersFound := by
  induction tokens with
  | nil => intro st; exact ⟨fun x hx => hx, by simp⟩
  | cons t rest ih =>
    intro st
    obtain ⟨h1, h2⟩ := ih (categorizeTokenWith addUnique st t)
    rw [List.foldl_cons]
    refine ⟨fun x hx => h1 x (categorizeTokenWith_others st t x hx), ?_⟩
    intro u hu hv
    rcases List.mem_cons.mp hu with rfl | hu
    · apply h1
      rw [categorizeTokenWith_valid addUnique st u hv]
      exact mem_addUnique _ _
    · exact h2 u hu hv

/-- A line keeps the entries of `othersFound` and adds every token of the
line that the validator accepts. -/
theorem processLine_others (st : State) (line : Str) :
    (∀ x ∈ st.othersFound, x ∈ (processLine st line).othersFound) ∧
      ∀ t ∈ lineTokens st.insideComment line, isValidIdentifier_Advanced t = true →
        t ∈ (processLine st line).othersFound := by
  unfold processLine processLineWith lineTokens
  dsimp only
  cases hs : stripComments st.insideComment line with
  | none => exact ⟨fun x hx => hx, by simp⟩
  | some r =>
    obtain ⟨text, inside⟩ := r
    dsimp only
    split_ifs with h0
    · have : tokenizeLine text = [] := List.length_eq_zero.mp (by simpa using h0)
      rw [this]
      exact ⟨fun x hx => hx, by simp⟩
    · obtain ⟨h1, h2⟩ := foldl_categorizeTokenWith_others (tokenizeLine text)
        (processDeclarationsWith addUnique (tokenizeLine text)
          { st with lineno := st.lineno + 1, insideComment := inside })
      refine ⟨fun x hx => h1 x ?_, h2⟩
      have := processDeclarationsWith_get addUnique (tokenizeLine text)
        { st with lineno := st.lineno + 1, insideComment := inside } Bucket.others
      change x ∈ Bucket.others.get _
      rw [this]
      exact hx

theorem foldl_processLine_others (lines : List Str) : ∀ st : State,
    (∀ x ∈ st.validIdentifiers, x ∈ st.othersFound) → VerdictsAgree st →
      ∀ x ∈ (lines.foldl processLine st).validIdentifiers,
        x ∈ (lines.foldl processLine st).othersFound := by
  induction lines with
  | nil => intro st h _; exact h
  | cons l ls ih =>
    intro st h hv
    have hv1 := (processLine_invariants st l).2 hv
    obtain ⟨h1, h2⟩ := processLine_others st l
    apply ih _ _ hv1
    intro x hx
    rcases processLine_recorded st l x hx with h3 | h3
    · exact h1 x (h x h3)
    · exact h2 x h3 (hv1.1 x hx)

/-- Every entry of `validIdentifiers` is an entry of `othersFound`. -/
theorem processFile_others (lines : List Str) :
    ∀ x ∈ (processFile lines).validIdentifiers, x ∈ (processFile lines).othersFound :=
  foldl_processLine_others lines State.init (by simp [State.init])
    ⟨by simp [State.init], by simp [State.init]⟩

/-- C26. A token that `isValidIdentifier_Advanced` accepts passes none of the
tests of the categorizer (empty token, keyword, operator of two characters,
operator, separator, bracket, special symbol, string literal, character
literal, numeric literal), and the categorizer appends it (when absent) to
`othersFound` and changes nothing else.  So in every state that `processFile`
reaches, a name in `validIdentifiers` is also in `othersFound`, which the
report prints under "Others". -/
theorem valid_token_others (st : State) (token : Str) (lines : List Str)
    (h : isValidIdentifier_Advanced token = true) :
    (token ≠ [] ∧ isKeyword token = false ∧ isMultiCharOp token = false ∧
      isOperatorString token = false ∧
      (token.length == 1 && isSeparator (charAt token 0)) = false ∧
      (token.length == 1 && isBracket (charAt token 0)) = false ∧
      (token.length == 1 && isSpecialSymbol (charAt token 0)) = false ∧
      (charAt token 0 == '"' && charAt token (token.length - 1) == '"') = false ∧
      (charAt token 0 == '\'' && charAt token (token.length - 1) == '\'') = false ∧
      isdigit (charAt token 0) = false) ∧
    categorizeTokenWith addUnique st token =
      { st with othersFound := addUnique st.othersFound token } ∧
    (token ∈ (processFile lines).validIdentifiers → token ∈ (processFile lines).othersFound) :=
  ⟨isValidIdentifier_Advanced_tests token h, categorizeTokenWith_valid addUnique st token h,
    processFile_others lines token⟩

/-- An instance of `valid_token_others`: the name `abcd12@r`, declared on the
line `int abcd12@r = 5;`. -/
theorem valid_token_others_witness :
    categorizeTokenWith addUnique State.init "abcd12@r".toList =
        { State.init with
          othersFound := addUnique State.init.othersFound "abcd12@r".toList } ∧
      "abcd12@r".toList ∈ (processFile ["int abcd12@r = 5;".toList]).othersFound :=
  have h := valid_token_others State.init "abcd12@r".toList ["int abcd12@r = 5;".toList]
    (by decide)
  ⟨h.2.1, h.2.2 (by decide)⟩

/-! ## The semicolon that ends a declaration (lines 252-262) -/

/-- The result of the declaration loop is the result of the loop entered in
any state in which it begins a pass. -/
theorem declarationCursorAt_result (ins : List Str → Str → List Str) (fullType : Str)
    (lineno : Nat) (tokens later : List Str) (st st1 : State)
    (h : DeclarationCursorAt ins fullType lineno tokens st later st1) :
    processDeclarationTokensWith ins fullType lineno tokens st =
      processDeclarationTokensWith ins fullType lineno later st1 := by
  induction h with
  | start => rfl
  | step tok rest s1 next _ hstep ih =>
    rw [ih, processDeclarationTokensWith_cons, hstep]

/-- A pass of the declaration loop that stays before a given token of the
line does the same when the line is cut after that token. -/
theorem declarationStepWith_cut (ins : List Str → Str → List Str) (fullType : Str)
    (lineno : Nat) (tok stop : Str) (mid post : List Str) (st : State)
    (next : List Str × State) (hstop : stop ≠ ['='])
    (h : declarationStepWith ins fullType lineno tok (mid ++ stop :: post) st = some next)
    (hlen : post.length + 1 ≤ next.1.length) :
    ∃ mid1 : List Str, next.1 = mid1 ++ stop :: post ∧
      declarationStepWith ins fullType lineno tok (mid ++ [stop]) st =
        some (mid1 ++ [stop], next.2) := by
  unfold declarationStepWith at h ⊢
  by_cases h1 : (tok == [',']) = true
  · rw [if_pos h1] at h
    rw [if_pos h1]
    cases h
    exact ⟨mid, rfl, rfl⟩
  · rw [if_neg h1] at h
    rw [if_neg h1]
    by_cases h2 : (tok == [';']) = true
    · rw [if_pos h2] at h; cases h
    · rw [if_neg h2] at h
      rw [if_neg h2]
      by_cases h3 : isValidIdentifier_Advanced tok = true
      · rw [if_pos h3] at h
        rw [if_pos h3]
        cases h
        match mid, hlen with
        | [], hlen =>
          have hs : (stop == ['=']) = false := by simpa using hstop
          refine ⟨[], ?_, ?_⟩
          · simp only [List.nil_append, hs, Bool.false_eq_true, if_false]
          · simp only [List.nil_append, hs, Bool.false_eq_true, if_false]
        | [m], hlen =>
          by_cases hm : (m == ['=']) = true
          · simp only [List.cons_append, List.nil_append, hm, if_true] at hlen
            omega
          · have hm' : (m == ['=']) = false := by simpa using hm
            refine ⟨[m], ?_, ?_⟩
            · simp only [List.cons_append, List.nil_append, hm', Bool.false_eq_true, if_false]
            · simp only [List.cons_append, List.nil_append, hm', Bool.false_eq_true, if_false]
        | m :: v :: mid2, hlen =>
          by_cases hm : (m == ['=']) = true
          · refine ⟨mid2, ?_, ?_⟩
            · simp only [List.cons_append, hm, if_true]
            · simp only [List.cons_append, hm, if_true]
          · have hm' : (m == ['=']) = false := by simpa using hm
            refine ⟨m :: v :: mid2, ?_, ?_⟩
            · simp only [List.cons_append, hm', Bool.false_eq_true, if_false]
            · simp only [List.cons_append, hm', Bool.false_eq_true, if_false]
      · rw [if_neg h3] at h
        rw [if_neg h3]
        cases h
        exact ⟨mid, rfl, rfl⟩

/-- The passes of the declaration loop up to a semicolon are the same when
the line is cut after that semicolon. -/
theorem declarationCursorAt_cut (ins : List Str → Str → List Str) (fullType : Str)
    (lineno : Nat) (pre post later : List Str) (st st1 : State)
    (h : DeclarationCursorAt ins fullType lineno (pre ++ [';'] :: post) st later st1) :
    post.length + 1 ≤ later.length →
      ∃ mid : List Str, later = mid ++ [';'] :: post ∧
        DeclarationCursorAt ins fullType lineno (pre ++ [[';']]) st (mid ++ [[';']]) st1 := by
  induction h with
  | start => exact fun _ => ⟨pre, rfl, DeclarationCursorAt.start⟩
  | step tok rest s1 next _ hstep ih =>
    intro hlen
    have hle := declarationStepWith_length_le ins fullType lineno tok rest s1 next hstep
    obtain ⟨mid, hmid, hcur⟩ := ih (by simp only [List.length_cons]; omega)
    match mid, hmid, hcur with
    | [], hmid, _ =>
      simp only [List.nil_append, List.cons.injEq] at hmid
      rw [hmid.1] at hstep
      unfold declarationStepWith at hstep
      rw [if_neg (by decide), if_pos (by decide)] at hstep
      cases hstep
    | m :: mid1, hmid, hcur =>
      simp only [List.cons_append, List.cons.injEq] at hmid
      obtain ⟨rfl, rfl⟩ := hmid
      obtain ⟨mid2, h1, h2⟩ := declarationStepWith_cut ins fullType lineno tok [';'] mid1 post
        s1 next (by decide) hstep hlen
      refine ⟨mid2, h1, ?_⟩
      exact DeclarationCursorAt.step tok (mid1 ++ [[';']]) s1 (mid2 ++ [[';']], next.2) hcur h2

/-- C21. The loop of `processDeclarationTokens` stops at the first `;` that
it reaches at the start of a pass, that is, as a candidate.  If the loop, run
on the tokens `pre`, `;`, `post`, begins a pass at that `;` with the
accumulators `st1`, then `st1` is its result: no token of `post` is
validated, added to `validIdentifiers` or `invalidIdentifiers`, or put into
the symbol table.  The loop run on the tokens up to and including that `;`
has the same result. -/
theorem semicolon_stops (fullType : Str) (lineno : Nat) (pre post : List Str)
    (st st1 : State)
    (hreach : DeclarationCursorAt addUnique fullType lineno (pre ++ [';'] :: post) st
      ([';'] :: post) st1) :
    processDeclarationTokensWith addUnique fullType lineno (pre ++ [';'] :: post) st = st1 ∧
      processDeclarationTokensWith addUnique fullType lineno (pre ++ [[';']]) st = st1 := by
  constructor
  · rw [declarationCursorAt_result addUnique fullType lineno _ _ st st1 hreach,
      processDeclarationTokensWith_semicolon]
  · obtain ⟨mid, hmid, hcur⟩ := declarationCursorAt_cut addUnique fullType lineno pre post _
      st st1 hreach (by simp)
    have hnil : mid = [] := by
      have := congrArg List.length hmid
      simp only [List.length_cons, List.length_append] at this
      exact List.length_eq_zero.mp (by omega)
    subst hnil
    rw [declarationCursorAt_result addUnique fullType lineno _ _ st st1 hcur]
    exact processDeclarationTokensWith_semicolon addUnique fullType lineno [] st1

/-- An instance of `semicolon_stops`: the tokens `abcd12@r ; efgh34@r ;`
after the keyword of the line `int abcd12@r; efgh34@r;`.  The loop reaches
the first `;` after one pass, and the name `efgh34@r` behind it, which the
validator accepts, is not recorded. -/
theorem semicolon_stops_witness :
    isValidIdentifier_Advanced "efgh34@r".toList = true ∧
      processDeclarationTokensWith addUnique "int".toList 1
          (["abcd12@r".toList] ++ [';'] :: ["efgh34@r".toList, [';']]) State.init =
        (DeclEvent.valid "abcd12@r".toList ['-']).apply addUnique "int".toList 1 State.init ∧
      processDeclarationTokensWith addUnique "int".toList 1
          (["abcd12@r".toList] ++ [[';']]) State.init =
        (DeclEvent.valid "abcd12@r".toList ['-']).apply addUnique "int".toList 1 State.init :=
  ⟨by decide,
    semicolon_stops "int".toList 1 ["abcd12@r".toList] ["efgh34@r".toList, [';']] State.init
      ((DeclEvent.valid "abcd12@r".toList ['-']).apply addUnique "int".toList 1 State.init)
      (DeclarationCursorAt.step "abcd12@r".toList ([';'] :: ["efgh34@r".toList, [';']])
        State.init
        ([';'] :: ["efgh34@r".toList, [';']],
          (DeclEvent.valid "abcd12@r".toList ['-']).apply addUnique "int".toList 1 State.init)
        DeclarationCursorAt.start (by decide))⟩

end LexicalAnalyzer
